import Mathlib

/-!
# Random LFO filter (`randomTutorial.c`)

A shallow embedding of the three entry points `MODFX_INIT`, `MODFX_PROCESS` and
`MODFX_PARAM` and of the global variables they share.

## Numbers

* A finite `float` or `double` value is the rational number it denotes.  Every C
  operation on floats computes the exact rational result and rounds it once; the
  rounding functions are the fields `f32` and `f64` of a `Platform`.  Two platforms
  are given: `exactPlatform` (no rounding, real arithmetic) and `ieeePlatform`
  (IEEE 754 binary32 / binary64, round to nearest, ties to even).  Infinities, NaN,
  the sign of zero and overflow of the exponent range are outside the embedding.
* `uint16_t` and `uint32_t` are naturals reduced modulo `2 ^ 16` and `2 ^ 32` where
  the C code can overflow.
* `randTable` (from `randomtable.h`) and `q31_to_f32` (from the SDK header
  `usermodfx.h`) are parameters, as neither file belongs to the repository.

## Buffers

An input pointer is the function giving the value stored at each offset from it.
The values stored through an output pointer, in the order of the stores (that is,
by increasing offset), form a list.
-/

namespace RandomLFO

/-! ## Rounding to a binary floating-point format -/

/-- Worker of `natLog2`, by recursion on a fuel that bounds the number of halvings. -/
def log2Fuel : ℕ → ℕ → ℕ
  | 0, _ => 0
  | fuel + 1, n => if n < 2 then 0 else log2Fuel fuel (n / 2) + 1

/-- The position of the leading bit of `n`: `2 ^ natLog2 n ≤ n < 2 ^ (natLog2 n + 1)`. -/
def natLog2 (n : ℕ) : ℕ := log2Fuel n n

/-- The power `2 ^ z` as a rational, for an integer exponent. -/
def pow2 (z : ℤ) : ℚ :=
  if 0 ≤ z then ((2 ^ z.toNat : ℕ) : ℚ) else 1 / ((2 ^ (-z).toNat : ℕ) : ℚ)

/-- The binary exponent of a nonzero rational: `2 ^ ilog2 x ≤ |x| < 2 ^ (ilog2 x + 1)`. -/
def ilog2 (x : ℚ) : ℤ :=
  let e0 : ℤ := (natLog2 x.num.natAbs : ℤ) - (natLog2 x.den : ℤ)
  if pow2 e0 ≤ |x| then e0 else e0 - 1

/-- Rounding of a rational to the nearest integer, ties to the even one. -/
def roundEven (y : ℚ) : ℤ :=
  let f := ⌊y⌋
  let r := y - f
  if r < 1 / 2 then f else if 1 / 2 < r then f + 1 else if f % 2 = 0 then f else f + 1

/-- The exponent of the unit in the last place of `x` in a format with `prec` bits of
    precision whose smallest positive (subnormal) number is `2 ^ emin`. -/
def ulpExp (prec : ℕ) (emin : ℤ) (x : ℚ) : ℤ :=
  max (ilog2 x - ((prec : ℤ) - 1)) emin

/-- Rounding to nearest, ties to even, in the format with `prec` bits of precision and
    smallest positive number `2 ^ emin`.  The exponent range is not bounded above. -/
def roundTo (prec : ℕ) (emin : ℤ) (x : ℚ) : ℚ :=
  if x = 0 then 0
  else (roundEven (x / pow2 (ulpExp prec emin x)) : ℚ) * pow2 (ulpExp prec emin x)

/-- Rounding to IEEE 754 binary32, the `float` of the target. -/
def binary32 (x : ℚ) : ℚ := roundTo 24 (-149) x

/-- Rounding to IEEE 754 binary64, the `double` of the target. -/
def binary64 (x : ℚ) : ℚ := roundTo 53 (-1074) x

/-! ## What the program takes from outside -/

/-- The arithmetic of `float` and `double`, the table of `randomtable.h` and the
    conversion `q31_to_f32` of the SDK. -/
structure Platform where
  /-- rounding of an exact result to `float` -/
  f32 : ℚ → ℚ
  /-- rounding of an exact result to `double` -/
  f64 : ℚ → ℚ
  /-- the value stored at each offset of `randTable` -/
  randTable : ℕ → ℚ
  /-- the SDK conversion of a raw parameter value to a `float` -/
  q31_to_f32 : ℤ → ℚ

/-- Real arithmetic: no operation rounds. -/
def exactPlatform (randTable : ℕ → ℚ) (q31_to_f32 : ℤ → ℚ) : Platform :=
  { f32 := fun x => x, f64 := fun x => x, randTable := randTable, q31_to_f32 := q31_to_f32 }

/-- IEEE 754 arithmetic: `float` is binary32 and `double` is binary64. -/
def ieeePlatform (randTable : ℕ → ℚ) (q31_to_f32 : ℤ → ℚ) : Platform :=
  { f32 := binary32, f64 := binary64, randTable := randTable, q31_to_f32 := q31_to_f32 }

/-! ## Constants (`#define`s of the source) -/

/-- The constant `FIXED_Q`, the decimal `0.17`. -/
def FIXED_Q : ℚ := 17 / 100
/-- The constant `TWOPI`, the decimal `6.283185307`. -/
def TWOPI : ℚ := 6283185307 / 1000000000
/-- The constant `RANDOM_TABLE_MASK`, `0x3FF`. -/
def RANDOM_TABLE_MASK : ℕ := 0x3FF
/-- The constant `SAMPLE_RATE`. -/
def SAMPLE_RATE : ℚ := 48000
/-- The constant `CENTRE_FREQUENCY`. -/
def CENTRE_FREQUENCY : ℚ := 1200
/-- The constant `INITIAL_FREQUENCY`. -/
def INITIAL_FREQUENCY : ℚ := 800
/-- The constant `INITIAL_FREQUENCY_DEVIATION`. -/
def INITIAL_FREQUENCY_DEVIATION : ℚ := 800
/-- The constant `INITIAL_LFO_FREQUENCY`. -/
def INITIAL_LFO_FREQUENCY : ℚ := 6
/-- The constant `MAX_FREQUENCY_DEVIATION`. -/
def MAX_FREQUENCY_DEVIATION : ℚ := 1100
/-- The constant `MAX_LFO_RATE`. -/
def MAX_LFO_RATE : ℚ := 20

/-! ## The global variables -/

/-- The file-scope variables of `randomTutorial.c`. -/
structure State where
  phaseAccumLFO1 : ℚ
  LFORate1 : ℚ
  valTime : ℚ
  valDepth : ℚ
  effectDepth : ℚ
  /-- a `uint16_t` -/
  randomIndex : ℕ
  currentFrequency : ℚ
  D1 : ℚ
  D2 : ℚ
  Q : ℚ
  F1 : ℚ
  F : ℚ
  H : ℚ
  B : ℚ
  L : ℚ
  N : ℚ
  deriving DecidableEq

/-- The values the initialisers give the variables before any call. -/
def initialGlobals (P : Platform) : State :=
  { phaseAccumLFO1 := 0
    LFORate1 := P.f32 INITIAL_LFO_FREQUENCY
    valTime := 0
    valDepth := 0
    effectDepth := 0
    randomIndex := 0
    currentFrequency := P.f32 INITIAL_FREQUENCY
    D1 := 0
    D2 := 0
    Q := P.f32 (P.f64 FIXED_Q)
    F1 := 0
    F := 0
    H := 0
    B := 0
    L := 0
    N := 0 }

/-! ## `MODFX_INIT` -/

/-- The function `MODFX_INIT(platform, api)`; neither argument is read. -/
def MODFX_INIT (P : Platform) (s : State) (_platform _api : ℕ) : State :=
  { s with
    phaseAccumLFO1 := 0
    LFORate1 := P.f32 INITIAL_LFO_FREQUENCY
    randomIndex := 0
    F := P.f32 INITIAL_FREQUENCY
    Q := P.f32 (P.f64 FIXED_Q)
    B := 0
    L := 0
    N := 0
    D1 := 0
    D2 := 0
    effectDepth := P.f32 INITIAL_FREQUENCY_DEVIATION }

/-! ## `MODFX_PROCESS` -/

/-- The cast `(uint32_t) x` of a float: the integer part, for `0 ≤ x < 2 ^ 32`.  C leaves
    the result undefined outside that range; the embedding keeps the low 32 bits. -/
def castU32 (x : ℚ) : ℕ := ⌊x⌋.toNat % 2 ^ 32

/-- The statement `phaseAccumLFO1 += (LFORate1 / 48000);`. -/
def advancePhase (P : Platform) (s : State) : State :=
  { s with phaseAccumLFO1 := P.f32 (s.phaseAccumLFO1 + P.f32 (s.LFORate1 / 48000)) }

/-- The body of `if (phaseAccumLFO1 >= 1)`: the phase loses its integer part, the filter
    frequency is drawn from the table and the table index moves on. -/
def wrapLFO (P : Platform) (s : State) : State :=
  { s with
    phaseAccumLFO1 := P.f32 (s.phaseAccumLFO1 - P.f32 (castU32 s.phaseAccumLFO1))
    F := P.f32 (CENTRE_FREQUENCY + P.f32 (P.randTable s.randomIndex * s.effectDepth))
    randomIndex := ((s.randomIndex + 1) % 2 ^ 16) &&& RANDOM_TABLE_MASK }

/-- Whether the sample that starts in state `s` is a wrap event: the test
    `phaseAccumLFO1 >= 1` after the phase has advanced. -/
def wraps (P : Platform) (s : State) : Bool :=
  decide (1 ≤ (advancePhase P s).phaseAccumLFO1)

/-- The oscillator part of one pass through the sample loop. -/
def lfo (P : Platform) (s : State) : State :=
  if wraps P s then wrapLFO P (advancePhase P s) else advancePhase P s

/-- The Chamberlin filter part of one pass through the sample loop.  `TWOPI * F /
    SAMPLE_RATE` is computed in `double`, as `TWOPI` is a `double` constant, and rounded
    to `float` when stored in `F1`. -/
def filter (P : Platform) (s : State) (sigIn : ℚ) : State :=
  let F1 := P.f32 (P.f64 (P.f64 (P.f64 TWOPI * s.F) / SAMPLE_RATE))
  let L := P.f32 (s.D2 + P.f32 (F1 * s.D1))
  let H := P.f32 (P.f32 (sigIn - L) - P.f32 (s.Q * s.D1))
  let B := P.f32 (P.f32 (F1 * H) + s.D1)
  let N := P.f32 (H + L)
  { s with F1 := F1, L := L, H := H, B := B, N := N, D1 := B, D2 := L }

/-- One pass through the sample loop, as a function of the state and of the left main
    input sample; the value written to both main outputs is the field `L` of the result. -/
def sample (P : Platform) (s : State) (sigIn : ℚ) : State :=
  filter P (lfo P s) sigIn

/-- What a call of `MODFX_PROCESS` leaves behind: the globals and the values stored
    through `main_yn` and `sub_yn`. -/
structure Result where
  state : State
  main_yn : List ℚ
  sub_yn : List ℚ
  deriving DecidableEq

/-- The loop `for (; my != my_e; )`.  The four pointers `mx`, `my`, `sx`, `sy` move together,
    two floats per pass, so one offset `o` stands for all of them; `my_e` is the offset of
    the end pointer.  The first argument is fuel: `none` means the loop was still running
    when it ran out. -/
def processLoop (P : Platform) (main_xn sub_xn : ℕ → ℚ) (my_e : ℕ) :
    ℕ → ℕ → State → Option Result
  | 0, o, s => if o = my_e then some ⟨s, [], []⟩ else none
  | fuel + 1, o, s =>
    if o = my_e then some ⟨s, [], []⟩
    else
      let s' := sample P s (main_xn o)
      (processLoop P main_xn sub_xn my_e fuel (o + 2) s').map fun r =>
        ⟨r.state, s'.L :: s'.L :: r.main_yn, sub_xn o :: sub_xn (o + 1) :: r.sub_yn⟩

/-- The function `MODFX_PROCESS(main_xn, main_yn, sub_xn, sub_yn, frames)`.  `2*frames` is
    computed in `uint32_t`, and the end pointer lies that many floats after `main_yn`.  As
    many passes as that offset are always enough fuel (`MODFX_PROCESS_eq`). -/
def MODFX_PROCESS (P : Platform) (s : State) (main_xn sub_xn : ℕ → ℚ) (frames : ℕ) :
    Option Result :=
  processLoop P main_xn sub_xn (2 * frames % 2 ^ 32) (2 * frames % 2 ^ 32) 0 s

/-! ## `MODFX_PARAM` -/

/-- The function `MODFX_PARAM(index, value)`. -/
def MODFX_PARAM (P : Platform) (s : State) (index : ℕ) (value : ℤ) : State :=
  let valf := P.q31_to_f32 value
  match index with
  | 0 => { s with valTime := valf, LFORate1 := P.f32 (MAX_LFO_RATE * valf) }
  | 1 => { s with valDepth := valf, effectDepth := P.f32 (valf * MAX_FREQUENCY_DEVIATION) }
  | _ => s

/-! ## Sequences of calls -/

/-- The loop of `MODFX_PROCESS` unrolled `n` times from offset `o`. -/
def runFrames (P : Platform) (main_xn sub_xn : ℕ → ℚ) : ℕ → ℕ → State → Result
  | 0, _, s => ⟨s, [], []⟩
  | n + 1, o, s =>
    let s' := sample P s (main_xn o)
    let r := runFrames P main_xn sub_xn n (o + 2) s'
    ⟨r.state, s'.L :: s'.L :: r.main_yn, sub_xn o :: sub_xn (o + 1) :: r.sub_yn⟩

/-- The states in which the first `n` passes of the sample loop start. -/
def sampleStates (P : Platform) (main_xn : ℕ → ℚ) : ℕ → ℕ → State → List State
  | 0, _, _ => []
  | n + 1, o, s => s :: sampleStates P main_xn n (o + 2) (sample P s (main_xn o))

/-- A call of one of the three entry points by the host. -/
inductive Call where
  | init (platform api : ℕ)
  | process (main_xn sub_xn : ℕ → ℚ) (frames : ℕ)
  | param (index : ℕ) (value : ℤ)

/-- The number of passes of the sample loop for a frame count: half the offset of the
    end pointer. -/
def loopCount (frames : ℕ) : ℕ := 2 * frames % 2 ^ 32 / 2

/-- Whether a call is a call of `MODFX_INIT`. -/
def Call.isInit : Call → Bool
  | .init _ _ => true
  | _ => false

/-- The globals after one call; `none` if the loop of `MODFX_PROCESS` did not finish. -/
def step (P : Platform) (s : State) : Call → Option State
  | .init platform api => some (MODFX_INIT P s platform api)
  | .process main_xn sub_xn frames => (MODFX_PROCESS P s main_xn sub_xn frames).map Result.state
  | .param index value => some (MODFX_PARAM P s index value)

/-- The globals after a sequence of calls. -/
def run (P : Platform) : State → List Call → Option State
  | s, [] => some s
  | s, c :: cs => (step P s c).bind fun s' => run P s' cs

/-- The globals after one call, with the sample loop unrolled `loopCount frames` times. -/
def stepUnrolled (P : Platform) (s : State) : Call → State
  | .init platform api => MODFX_INIT P s platform api
  | .process main_xn sub_xn frames => (runFrames P main_xn sub_xn (loopCount frames) 0 s).state
  | .param index value => MODFX_PARAM P s index value

/-- The globals after a sequence of calls, with the sample loops unrolled. -/
def runUnrolled (P : Platform) : State → List Call → State
  | s, [] => s
  | s, c :: cs => runUnrolled P (stepUnrolled P s c) cs

/-- The states in which the samples of one call start (none for `init` and `param`). -/
def callStates (P : Platform) (s : State) : Call → List State
  | .process main_xn _ frames => sampleStates P main_xn (loopCount frames) 0 s
  | _ => []

/-- The states in which the samples processed by a sequence of calls start, in order. -/
def runStates (P : Platform) : State → List Call → List State
  | _, [] => []
  | s, c :: cs => callStates P s c ++ runStates P (stepUnrolled P s c) cs

/-- The wrap events of a sequence of calls: one Boolean per processed sample. -/
def wrapEvents (P : Platform) (s : State) (calls : List Call) : List Bool :=
  (runStates P s calls).map (wraps P)

/-- The table offsets read by a sequence of calls: `randomIndex` at each wrap event. -/
def tableReads (P : Platform) (s : State) (calls : List Call) : List ℕ :=
  ((runStates P s calls).filter (wraps P)).map State.randomIndex

/-- The cutoff targets `F` that the filter steps of the first `n` passes of the sample loop
    use: `F` after the oscillator part of each pass. -/
def cutoffs (P : Platform) (main_xn : ℕ → ℚ) (n o : ℕ) (s : State) : List ℚ :=
  (sampleStates P main_xn n o s).map fun t => (lfo P t).F

/-- A state with the values `MODFX_INIT` leaves on a lawful platform, `Q` apart, which
    serves as a concrete input. -/
def demoState : State :=
  { phaseAccumLFO1 := 0, LFORate1 := 6, valTime := 0, valDepth := 0, effectDepth := 800,
    randomIndex := 0, currentFrequency := 800, D1 := 0, D2 := 0, Q := 17 / 100, F1 := 0,
    F := 800, H := 0, B := 0, L := 0, N := 0 }

/-! ## The oscillator on its own -/

/-- Whether a sample is a wrap event, as a function of the rounding of `float`, the rate
    and the phase alone. -/
def phaseWraps (rnd : ℚ → ℚ) (rate phase : ℚ) : Bool :=
  decide (1 ≤ rnd (phase + rnd (rate / 48000)))

/-- The phase after one pass of the sample loop, as a function of the rounding of `float`,
    the rate and the phase alone. -/
def phaseStep (rnd : ℚ → ℚ) (rate phase : ℚ) : ℚ :=
  if phaseWraps rnd rate phase then
    rnd (rnd (phase + rnd (rate / 48000)) - rnd (castU32 (rnd (phase + rnd (rate / 48000)))))
  else rnd (phase + rnd (rate / 48000))

/-- The phase after `n` passes of the sample loop. -/
def phaseAfter (rnd : ℚ → ℚ) (rate : ℚ) : ℕ → ℚ → ℚ
  | 0, phase => phase
  | n + 1, phase => phaseAfter rnd rate n (phaseStep rnd rate phase)

/-- The wrap events of `n` passes of the sample loop. -/
def phaseEvents (rnd : ℚ → ℚ) (rate : ℚ) : ℕ → ℚ → List Bool
  | 0, _ => []
  | n + 1, phase => phaseWraps rnd rate phase :: phaseEvents rnd rate n (phaseStep rnd rate phase)

/-- Whether a call is a call of `MODFX_PROCESS`. -/
def Call.isProcess : Call → Bool
  | .process _ _ _ => true
  | _ => false

/-- The frame count of a call of `MODFX_PROCESS` (and `0` for the other calls). -/
def Call.frames : Call → ℕ
  | .process _ _ frames => frames
  | _ => 0

/-! ## Binary32 accumulation on numerators

A phase below `1` that is a multiple of `2 ^ (-36)` is given by its numerator `k`, the
phase being `k / 2 ^ 36`, together with a shift `sh` that locates the binade of the last
sum.  These functions compute on naturals what `binary32` computes on rationals
(`accStep_sound`), so that long runs of the oscillator can be evaluated. -/

/-- The quotient `s / d` rounded to the nearest natural, ties to even. -/
def rneQuot (s d : ℕ) : ℕ :=
  let q := s / d
  let r := s % d
  if 2 * r < d then q else if d < 2 * r then q + 1 else if q % 2 = 0 then q else q + 1

/-- One binary32 addition of `inc / 2 ^ 36` to `k / 2 ^ 36`: the numerator of the rounded sum
    and its shift, provided the sum lies where the shift says and the result is below `1`. -/
def accStep (inc k sh : ℕ) : Option (ℕ × ℕ) :=
  let s := k + inc
  let sh' := if s < 2 ^ (sh + 24) then sh else sh + 1
  let k' := rneQuot s (2 ^ sh') * 2 ^ sh'
  if (s < 2 ^ 24 ∧ sh' = 0 ∨ 2 ^ (sh' + 23) ≤ s ∧ s < 2 ^ (sh' + 24)) ∧ k' < 2 ^ 36 then
    some (k', sh')
  else none

/-- The function `k` applied to `n`, once `n` has been evaluated. -/
def seqNat {α : Type} (n : ℕ) (k : ℕ → α) : α :=
  match n with
  | 0 => k 0
  | m + 1 => k (m + 1)

/-- The step `accStep`, `n` times. -/
def accRun (inc : ℕ) : ℕ → ℕ × ℕ → Option (ℕ × ℕ)
  | 0, a => some a
  | n + 1, a =>
    match accStep inc a.1 a.2 with
    | none => none
    | some b => seqNat b.1 fun k => seqNat b.2 fun sh => accRun inc n (k, sh)

/-- Whether each entry of the list leads to the next one in `n` steps of `accStep`. -/
def accChain (inc n : ℕ) : List (ℕ × ℕ) → Bool
  | a :: b :: rest => decide (accRun inc n a = some b) && accChain inc n (b :: rest)
  | _ => true

/-- The numerator and shift of the binary32 phase after every 500 samples at rate 6, from
    phase `0` up to sample 8000. -/
def phaseCheckpoints : List (ℕ × ℕ) :=
  [(0, 0),
   (4294942464, 8),
   (8589854720, 9),
   (12885022720, 10),
   (17180190720, 11),
   (21474846720, 11),
   (25769502720, 11),
   (30064158720, 11),
   (34358814720, 11),
   (38653472768, 12),
   (42948128768, 12),
   (47242784768, 12),
   (51537440768, 12),
   (55832096768, 12),
   (60126752768, 12),
   (64421408768, 12),
   (68716064768, 12)]

/-! ## Notions used by the later properties -/

/-- Whether a call assigns `effectDepth`: `MODFX_INIT` and `MODFX_PARAM` with index 1. -/
def Call.setsDepth : Call → Bool
  | .init _ _ => true
  | .param 1 _ => true
  | _ => false

/-- The cutoff targets `F` that the filter steps of the samples of a sequence of calls use,
    in order. -/
def runCutoffs (P : Platform) (s : State) (calls : List Call) : List ℚ :=
  (runStates P s calls).map fun t => (lfo P t).F

/-- The cutoff target drawn at the `k`-th wrap event after `MODFX_INIT` (`k ≥ 1`) when the
    effect depth is `d`: `CENTRE_FREQUENCY + randTable[(k - 1) mod 1024] * d` in floats. -/
def drawnCutoff (P : Platform) (d : ℚ) (k : ℕ) : ℚ :=
  P.f32 (CENTRE_FREQUENCY + P.f32 (P.randTable ((k - 1) % 1024) * d))

/-- The state of the sample-and-hold after `k` wrap events since `MODFX_INIT` at effect
    depth `d`: the table index is `k mod 1024` and, from the first wrap on, the cutoff
    target is the one drawn at the `k`-th wrap. -/
def Held (P : Platform) (d : ℚ) (k : ℕ) (t : State) : Prop :=
  t.randomIndex = k % 1024 ∧ t.effectDepth = d ∧ (1 ≤ k → t.F = drawnCutoff P d k)

/-- The knob value that a call passes to `MODFX_PARAM` converts to a float in `[0, 1]`
    (nothing is asked of the other calls). -/
def Call.knobInRange (P : Platform) : Call → Prop
  | .param _ value => 0 ≤ P.q31_to_f32 value ∧ P.q31_to_f32 value ≤ 1
  | _ => True

/-- The cutoff target and the effect depth are in the range the constants are chosen for,
    and the table index is inside the table. -/
def InRange (s : State) : Prop :=
  100 ≤ s.F ∧ s.F ≤ 2300 ∧ 0 ≤ s.effectDepth ∧ s.effectDepth ≤ 1100 ∧ s.randomIndex ≤ 1023

/-- The phase is in `[0, 1)` and the rate is in the range `[0, MAX_LFO_RATE]` that
    `MODFX_INIT` and `MODFX_PARAM` give it for knob values in `[0, 1]`. -/
def InPhase (s : State) : Prop :=
  0 ≤ s.phaseAccumLFO1 ∧ s.phaseAccumLFO1 < 1 ∧ 0 ≤ s.LFORate1 ∧ s.LFORate1 ≤ MAX_LFO_RATE

/-- The filter step repeated `n` times on the constant input `x`, the cutoff being left
    alone. -/
def filterIter (P : Platform) (x : ℚ) : ℕ → State → State
  | 0, s => s
  | n + 1, s => filterIter P x n (filter P s x)

/-! ## Properties of the arithmetic -/

/-- What the theorems below ask of a rounding function: it is monotone, it is the identity
    on its own values, on the integers `m * 2 ^ k` with `|m| ≤ 2 ^ 24`, and on the integer and
    fractional parts of its values from `1` on.  Rounding to nearest in a binary format
    with at least 24 bits of precision has these properties, and so has the identity. -/
structure Rounding (rnd : ℚ → ℚ) : Prop where
  mono : ∀ x y : ℚ, x ≤ y → rnd x ≤ rnd y
  idem : ∀ x : ℚ, rnd (rnd x) = rnd x
  exact_int : ∀ (m : ℤ) (k : ℕ), |m| ≤ 2 ^ 24 → rnd ((m : ℚ) * 2 ^ k) = (m : ℚ) * 2 ^ k
  exact_floor : ∀ x : ℚ, 1 ≤ rnd x → rnd (⌊rnd x⌋ : ℚ) = (⌊rnd x⌋ : ℚ)
  exact_fract : ∀ x : ℚ, 1 ≤ rnd x → rnd (rnd x - (⌊rnd x⌋ : ℚ)) = rnd x - (⌊rnd x⌋ : ℚ)

/-- A platform whose `float` and `double` roundings are lawful. -/
structure Platform.Lawful (P : Platform) : Prop where
  f32 : Rounding P.f32
  f64 : Rounding P.f64

/-- The rational `x` is a value of the type `float` of the platform. -/
@[reducible] def Platform.IsFloat (P : Platform) (x : ℚ) : Prop := P.f32 x = x

/-- The rounding of `float` is accurate to half a unit in the last place: the error is at
    most `2 ^ -24` of the value, or `2 ^ -150` for the smallest values. -/
def Platform.Accurate (P : Platform) : Prop :=
  ∀ y : ℚ, |P.f32 y - y| ≤ |y| / 2 ^ 24 + 1 / 2 ^ 150

/-! ## Rounding: the exponent -/

theorem log2Fuel_eq (fuel : ℕ) : ∀ n : ℕ, n ≤ fuel → log2Fuel fuel n = Nat.log 2 n := by
  induction fuel with
  | zero =>
    intro n hn
    obtain rfl : n = 0 := by omega
    simp [log2Fuel]
  | succ fuel ih =>
    intro n hn
    unfold log2Fuel
    split
    · rename_i h
      exact (Nat.log_of_lt h).symm
    · rename_i h
      rw [ih (n / 2) (by omega)]
      exact (Nat.log_of_one_lt_of_le (by norm_num) (by omega)).symm

theorem natLog2_eq (n : ℕ) : natLog2 n = Nat.log 2 n := log2Fuel_eq n n le_rfl

theorem pow2_eq (z : ℤ) : pow2 z = (2 : ℚ) ^ z := by
  unfold pow2
  split
  · rename_i h
    obtain ⟨k, rfl⟩ := Int.eq_ofNat_of_zero_le h
    simp
  · rename_i h
    obtain ⟨k, hk⟩ := Int.eq_ofNat_of_zero_le (by omega : 0 ≤ -z)
    have hz : z = -(k : ℤ) := by omega
    subst hz
    simp

theorem pow2_pos (z : ℤ) : 0 < pow2 z := by
  rw [pow2_eq]; positivity

theorem natLog2_le (n : ℕ) (hn : n ≠ 0) : (2 : ℚ) ^ (natLog2 n : ℤ) ≤ n := by
  rw [natLog2_eq, zpow_natCast]
  exact_mod_cast Nat.pow_log_le_self 2 hn

theorem natLog2_lt (n : ℕ) : (n : ℚ) < (2 : ℚ) ^ ((natLog2 n : ℤ) + 1) := by
  rw [natLog2_eq]
  have h := Nat.lt_pow_succ_log_self (by norm_num : 1 < 2) n
  have h2 : ((Nat.log 2 n : ℤ) + 1) = ((Nat.log 2 n + 1 : ℕ) : ℤ) := by push_cast; ring
  rw [h2, zpow_natCast]
  exact_mod_cast h

theorem abs_eq_natAbs_div_den (x : ℚ) : |x| = (x.num.natAbs : ℚ) / (x.den : ℚ) := by
  conv_lhs => rw [← Rat.num_div_den x]
  rw [abs_div, Nat.abs_cast]
  congr 1
  rw [Nat.cast_natAbs, Int.cast_abs]

/-- The binary exponent brackets the magnitude of a nonzero rational. -/
theorem ilog2_spec (x : ℚ) (hx : x ≠ 0) :
    (2 : ℚ) ^ ilog2 x ≤ |x| ∧ |x| < (2 : ℚ) ^ (ilog2 x + 1) := by
  have hp : x.num.natAbs ≠ 0 := by simpa using hx
  have hq : x.den ≠ 0 := x.den_nz
  have hqpos : (0 : ℚ) < x.den := by exact_mod_cast x.den_pos
  have ha1 := natLog2_le _ hp
  have ha2 := natLog2_lt x.num.natAbs
  have hb1 := natLog2_le _ hq
  have hb2 := natLog2_lt x.den
  have h2 : (2 : ℚ) ≠ 0 := by norm_num
  have habs := abs_eq_natAbs_div_den x
  have hlow : (2 : ℚ) ^ ((natLog2 x.num.natAbs : ℤ) - natLog2 x.den - 1) ≤ |x| := by
    have he : ((natLog2 x.num.natAbs : ℤ) - natLog2 x.den - 1)
        = (natLog2 x.num.natAbs : ℤ) - ((natLog2 x.den : ℤ) + 1) := by ring
    rw [he, zpow_sub₀ h2, habs]
    have hpos : (0 : ℚ) < 2 ^ ((natLog2 x.den : ℤ) + 1) := by positivity
    rw [div_le_div_iff₀ hpos hqpos]
    calc (2 : ℚ) ^ (natLog2 x.num.natAbs : ℤ) * x.den
        ≤ x.num.natAbs * x.den := by gcongr
      _ ≤ x.num.natAbs * 2 ^ ((natLog2 x.den : ℤ) + 1) := by gcongr
  have hupp : |x| < (2 : ℚ) ^ ((natLog2 x.num.natAbs : ℤ) - natLog2 x.den + 1) := by
    have he : ((natLog2 x.num.natAbs : ℤ) - natLog2 x.den + 1)
        = ((natLog2 x.num.natAbs : ℤ) + 1) - (natLog2 x.den : ℤ) := by ring
    rw [he, zpow_sub₀ h2, habs]
    have hpos : (0 : ℚ) < 2 ^ (natLog2 x.den : ℤ) := by positivity
    rw [div_lt_div_iff₀ hqpos hpos]
    calc (x.num.natAbs : ℚ) * 2 ^ (natLog2 x.den : ℤ)
        ≤ x.num.natAbs * x.den := by gcongr
      _ < 2 ^ ((natLog2 x.num.natAbs : ℤ) + 1) * x.den := by gcongr
  unfold ilog2
  simp only [pow2_eq]
  split
  · rename_i h
    exact ⟨h, hupp⟩
  · rename_i h
    refine ⟨hlow, ?_⟩
    rw [sub_add_cancel]
    exact lt_of_not_le h

theorem ilog2_unique (x : ℚ) (e : ℤ) (h1 : (2 : ℚ) ^ e ≤ |x|) (h2 : |x| < (2 : ℚ) ^ (e + 1)) :
    ilog2 x = e := by
  have hx : x ≠ 0 := by
    rintro rfl
    have : (0 : ℚ) < 2 ^ e := by positivity
    simp at h1
    linarith
  obtain ⟨h3, h4⟩ := ilog2_spec x hx
  have ha : e < ilog2 x + 1 :=
    (zpow_lt_zpow_iff_right₀ (by norm_num : (1 : ℚ) < 2)).1 (lt_of_le_of_lt h1 h4)
  have hb : ilog2 x < e + 1 :=
    (zpow_lt_zpow_iff_right₀ (by norm_num : (1 : ℚ) < 2)).1 (lt_of_le_of_lt h3 h2)
  omega

/-! ## Rounding: to the nearest integer -/

theorem roundEven_intCast (n : ℤ) : roundEven (n : ℚ) = n := by
  simp [roundEven]

theorem floor_le_roundEven (y : ℚ) : ⌊y⌋ ≤ roundEven y := by
  unfold roundEven
  simp only []
  split_ifs <;> omega

theorem roundEven_le_floor_add_one (y : ℚ) : roundEven y ≤ ⌊y⌋ + 1 := by
  unfold roundEven
  simp only []
  split_ifs <;> omega

theorem roundEven_mono {y z : ℚ} (h : y ≤ z) : roundEven y ≤ roundEven z := by
  rcases (Int.floor_mono h).lt_or_eq with hlt | heq
  · calc roundEven y ≤ ⌊y⌋ + 1 := roundEven_le_floor_add_one y
      _ ≤ ⌊z⌋ := hlt
      _ ≤ roundEven z := floor_le_roundEven z
  · have hr : y - (⌊y⌋ : ℚ) ≤ z - (⌊z⌋ : ℚ) := by rw [heq]; linarith
    unfold roundEven
    simp only []
    split_ifs <;> first | omega | (exfalso; linarith)

theorem roundEven_neg (y : ℚ) : roundEven (-y) = -roundEven y := by
  by_cases hint : (⌊y⌋ : ℚ) = y
  · rw [← hint, ← Int.cast_neg, roundEven_intCast, roundEven_intCast]
  · have hlt : (⌊y⌋ : ℚ) < y := lt_of_le_of_ne (Int.floor_le y) hint
    have hlt2 : y < (⌊y⌋ : ℚ) + 1 := Int.lt_floor_add_one y
    have hfl : ⌊-y⌋ = -⌊y⌋ - 1 := by
      rw [Int.floor_eq_iff]
      push_cast
      constructor <;> linarith
    unfold roundEven
    simp only [hfl]
    push_cast
    split_ifs <;> first | omega | (exfalso; linarith)

theorem roundEven_nonneg {y : ℚ} (h : 0 ≤ y) : 0 ≤ roundEven y := by
  have := roundEven_mono h
  rwa [show ((0 : ℚ) = ((0 : ℤ) : ℚ)) by norm_num, roundEven_intCast] at this

/-! ## Rounding: to a binary format -/

theorem roundTo_zero (p : ℕ) (emin : ℤ) : roundTo p emin 0 = 0 := by
  simp [roundTo]

theorem ilog2_neg (x : ℚ) : ilog2 (-x) = ilog2 x := by
  simp [ilog2]

theorem ulpExp_neg (p : ℕ) (emin : ℤ) (x : ℚ) : ulpExp p emin (-x) = ulpExp p emin x := by
  simp [ulpExp, ilog2_neg]

theorem roundTo_neg (p : ℕ) (emin : ℤ) (x : ℚ) : roundTo p emin (-x) = -roundTo p emin x := by
  by_cases hx : x = 0
  · simp [hx, roundTo_zero]
  · have hx' : -x ≠ 0 := neg_ne_zero.mpr hx
    simp only [roundTo, if_neg hx, if_neg hx', ulpExp_neg, neg_div, roundEven_neg, Int.cast_neg,
      neg_mul]

theorem roundTo_of_ne (p : ℕ) (emin : ℤ) (x : ℚ) (hx : x ≠ 0) :
    roundTo p emin x
      = (roundEven (x / 2 ^ ulpExp p emin x) : ℚ) * 2 ^ ulpExp p emin x := by
  simp only [roundTo, if_neg hx, pow2_eq]

theorem emin_le_ulpExp (p : ℕ) (emin : ℤ) (x : ℚ) : emin ≤ ulpExp p emin x :=
  le_max_right _ _

theorem two_zpow_lt {a b : ℤ} (h : (2 : ℚ) ^ a < 2 ^ b) : a < b :=
  (zpow_lt_zpow_iff_right₀ (by norm_num : (1 : ℚ) < 2)).1 h

theorem two_zpow_le {a b : ℤ} (h : a ≤ b) : (2 : ℚ) ^ a ≤ 2 ^ b :=
  zpow_le_zpow_right₀ (by norm_num) h

/-- A quotient of two powers of two with the larger exponent above is an integer. -/
theorem two_zpow_div (a b : ℤ) (h : b ≤ a) :
    (2 : ℚ) ^ a / 2 ^ b = (((2 : ℤ) ^ (a - b).toNat : ℤ) : ℚ) := by
  rw [← zpow_sub₀ (by norm_num : (2 : ℚ) ≠ 0)]
  obtain ⟨k, hk⟩ := Int.eq_ofNat_of_zero_le (by omega : 0 ≤ a - b)
  rw [hk]
  simp

theorem roundTo_exact_lt (p : ℕ) (emin : ℤ) (m e : ℤ) (hm : |m| < 2 ^ p) (he : emin ≤ e) :
    roundTo p emin ((m : ℚ) * 2 ^ e) = (m : ℚ) * 2 ^ e := by
  by_cases hm0 : m = 0
  · simp [hm0, roundTo_zero]
  have h2e : (0 : ℚ) < 2 ^ e := by positivity
  have hx : (m : ℚ) * 2 ^ e ≠ 0 := mul_ne_zero (by exact_mod_cast hm0) (ne_of_gt h2e)
  have hlog : ilog2 ((m : ℚ) * 2 ^ e) < p + e := by
    apply two_zpow_lt
    calc (2 : ℚ) ^ ilog2 ((m : ℚ) * 2 ^ e) ≤ |(m : ℚ) * 2 ^ e| := (ilog2_spec _ hx).1
      _ = |(m : ℚ)| * 2 ^ e := by rw [abs_mul, abs_of_pos h2e]
      _ < 2 ^ (p : ℤ) * 2 ^ e := by
          gcongr
          rw [zpow_natCast]
          exact_mod_cast hm
      _ = 2 ^ ((p : ℤ) + e) := by rw [zpow_add₀ (by norm_num)]
  have hu : ulpExp p emin ((m : ℚ) * 2 ^ e) ≤ e := by
    unfold ulpExp
    exact max_le (by omega) he
  rw [roundTo_of_ne _ _ _ hx, mul_div_assoc, two_zpow_div _ _ hu, ← Int.cast_mul,
    roundEven_intCast, Int.cast_mul, ← two_zpow_div _ _ hu, mul_assoc,
    div_mul_cancel₀ _ (by positivity)]

theorem roundTo_exact (p : ℕ) (hp : 1 ≤ p) (emin : ℤ) (m e : ℤ) (hm : |m| ≤ 2 ^ p)
    (he : emin ≤ e) : roundTo p emin ((m : ℚ) * 2 ^ e) = (m : ℚ) * 2 ^ e := by
  rcases hm.lt_or_eq with hlt | heq
  · exact roundTo_exact_lt p emin m e hlt he
  · obtain ⟨q, rfl⟩ : ∃ q, p = q + 1 := ⟨p - 1, by omega⟩
    have hhalf : |((2 : ℤ) ^ q)| < 2 ^ (q + 1) := by
      rw [abs_of_pos (by positivity), pow_succ]
      have : (0 : ℤ) < 2 ^ q := by positivity
      omega
    have hpow : ((2 : ℚ) ^ q * 2) * 2 ^ e = (((2 : ℤ) ^ q : ℤ) : ℚ) * 2 ^ (e + 1) := by
      rw [zpow_add₀ (by norm_num : (2 : ℚ) ≠ 0)]
      push_cast
      ring
    rcases abs_eq (by positivity : (0 : ℤ) ≤ 2 ^ (q + 1)) |>.1 heq with h | h
    · have hx : (m : ℚ) * 2 ^ e = (((2 : ℤ) ^ q : ℤ) : ℚ) * 2 ^ (e + 1) := by
        rw [h, ← hpow]; push_cast; ring
      rw [hx]
      exact roundTo_exact_lt _ emin _ _ hhalf (by omega)
    · have hx : (m : ℚ) * 2 ^ e = -((((2 : ℤ) ^ q : ℤ) : ℚ) * 2 ^ (e + 1)) := by
        rw [h, ← hpow]; push_cast; ring
      rw [hx, roundTo_neg]
      congr 1
      exact roundTo_exact_lt _ emin _ _ hhalf (by omega)

/-- Every rounded value is an integer of at most `p` bits times a power of two. -/
theorem roundTo_rep (p : ℕ) (emin : ℤ) (x : ℚ) :
    ∃ n u : ℤ, |n| ≤ 2 ^ p ∧ emin ≤ u ∧ roundTo p emin x = (n : ℚ) * 2 ^ u := by
  by_cases hx : x = 0
  · exact ⟨0, emin, by simp, le_rfl, by simp [hx, roundTo_zero]⟩
  refine ⟨roundEven (x / 2 ^ ulpExp p emin x), ulpExp p emin x, ?_, emin_le_ulpExp p emin x,
    roundTo_of_ne p emin x hx⟩
  have hu : (0 : ℚ) < 2 ^ ulpExp p emin x := by positivity
  have hle : ilog2 x + 1 ≤ (p : ℤ) + ulpExp p emin x := by
    have : ilog2 x - ((p : ℤ) - 1) ≤ ulpExp p emin x := le_max_left _ _
    omega
  have habs : |x| ≤ (((2 : ℤ) ^ p : ℤ) : ℚ) * 2 ^ ulpExp p emin x := by
    calc |x| ≤ 2 ^ (ilog2 x + 1) := le_of_lt (ilog2_spec x hx).2
      _ ≤ 2 ^ ((p : ℤ) + ulpExp p emin x) := two_zpow_le hle
      _ = (((2 : ℤ) ^ p : ℤ) : ℚ) * 2 ^ ulpExp p emin x := by
          rw [zpow_add₀ (by norm_num), zpow_natCast]; push_cast; ring
  obtain ⟨h1, h2⟩ := abs_le.1 habs
  rw [abs_le]
  constructor
  · have h1' : ((-(2 : ℤ) ^ p : ℤ) : ℚ) * 2 ^ ulpExp p emin x ≤ x := by
      push_cast at h1 ⊢
      linarith
    have h := roundEven_mono ((le_div_iff₀ hu).2 h1')
    rwa [roundEven_intCast] at h
  · have h := roundEven_mono ((div_le_iff₀ hu).2 h2)
    rwa [roundEven_intCast] at h

theorem roundTo_idem (p : ℕ) (hp : 1 ≤ p) (emin : ℤ) (x : ℚ) :
    roundTo p emin (roundTo p emin x) = roundTo p emin x := by
  obtain ⟨n, u, hn, hu, h⟩ := roundTo_rep p emin x
  rw [h]
  exact roundTo_exact p hp emin n u hn hu

theorem roundTo_nonneg (p : ℕ) (emin : ℤ) {x : ℚ} (hx : 0 ≤ x) : 0 ≤ roundTo p emin x := by
  by_cases hx0 : x = 0
  · simp [hx0, roundTo_zero]
  rw [roundTo_of_ne _ _ _ hx0]
  have h : 0 ≤ roundEven (x / 2 ^ ulpExp p emin x) := roundEven_nonneg (by positivity)
  have h' : (0 : ℚ) ≤ (roundEven (x / 2 ^ ulpExp p emin x) : ℚ) := by exact_mod_cast h
  positivity

theorem ilog2_mono {x y : ℚ} (hx : 0 < x) (hxy : x ≤ y) : ilog2 x ≤ ilog2 y := by
  have hy : 0 < y := lt_of_lt_of_le hx hxy
  have h1 := (ilog2_spec x (ne_of_gt hx)).1
  have h2 := (ilog2_spec y (ne_of_gt hy)).2
  rw [abs_of_pos hx] at h1
  rw [abs_of_pos hy] at h2
  have := two_zpow_lt (lt_of_le_of_lt (le_trans h1 hxy) h2)
  omega

theorem roundTo_mono_pos (p : ℕ) (hp : 1 ≤ p) (emin : ℤ) {x y : ℚ} (hx : 0 < x)
    (hxy : x ≤ y) : roundTo p emin x ≤ roundTo p emin y := by
  have hy : 0 < y := lt_of_lt_of_le hx hxy
  have hlog := ilog2_mono hx hxy
  have hule : ulpExp p emin x ≤ ulpExp p emin y := by
    unfold ulpExp
    exact max_le_max (by omega) le_rfl
  rw [roundTo_of_ne _ _ _ (ne_of_gt hx), roundTo_of_ne _ _ _ (ne_of_gt hy)]
  rcases hule.lt_or_eq with hlt | heq
  · -- the two numbers lie in different binades: `2 ^ ilog2 y` separates the results
    have hux : (0 : ℚ) < 2 ^ ulpExp p emin x := by positivity
    have huy : (0 : ℚ) < 2 ^ ulpExp p emin y := by positivity
    have huy_eq : ulpExp p emin y = ilog2 y - ((p : ℤ) - 1) := by
      have h1 : emin ≤ ulpExp p emin x := emin_le_ulpExp p emin x
      unfold ulpExp at hlt h1 ⊢
      rcases max_cases (ilog2 y - ((p : ℤ) - 1)) emin with ⟨h, _⟩ | ⟨h, _⟩
      · exact h
      · rw [h] at hlt; omega
    have hlogx : ilog2 x - ((p : ℤ) - 1) ≤ ulpExp p emin x := le_max_left _ _
    have hxB : x ≤ 2 ^ ilog2 y := by
      have h := (ilog2_spec x (ne_of_gt hx)).2
      rw [abs_of_pos hx] at h
      exact le_trans (le_of_lt h) (two_zpow_le (by omega))
    have hBy : (2 : ℚ) ^ ilog2 y ≤ y := by
      have h := (ilog2_spec y (ne_of_gt hy)).1
      rwa [abs_of_pos hy] at h
    have hleft : (roundEven (x / 2 ^ ulpExp p emin x) : ℚ) * 2 ^ ulpExp p emin x
        ≤ 2 ^ ilog2 y := by
      have hdiv := two_zpow_div (ilog2 y) (ulpExp p emin x) (by omega)
      have h := roundEven_mono ((div_le_div_iff_of_pos_right hux).2 hxB)
      rw [hdiv, roundEven_intCast] at h
      have h' : (roundEven (x / 2 ^ ulpExp p emin x) : ℚ)
          ≤ (((2 : ℤ) ^ (ilog2 y - ulpExp p emin x).toNat : ℤ) : ℚ) := by exact_mod_cast h
      rw [← hdiv] at h'
      exact (le_div_iff₀ hux).1 h'
    have hright : (2 : ℚ) ^ ilog2 y
        ≤ (roundEven (y / 2 ^ ulpExp p emin y) : ℚ) * 2 ^ ulpExp p emin y := by
      have hdiv := two_zpow_div (ilog2 y) (ulpExp p emin y) (by omega)
      have h := roundEven_mono ((div_le_div_iff_of_pos_right huy).2 hBy)
      rw [hdiv, roundEven_intCast] at h
      have h' : (((2 : ℤ) ^ (ilog2 y - ulpExp p emin y).toNat : ℤ) : ℚ)
          ≤ (roundEven (y / 2 ^ ulpExp p emin y) : ℚ) := by exact_mod_cast h
      rw [← hdiv] at h'
      exact (div_le_iff₀ huy).1 h'
    exact le_trans hleft hright
  · rw [heq]
    have hu : (0 : ℚ) < 2 ^ ulpExp p emin y := by positivity
    have h := roundEven_mono ((div_le_div_iff_of_pos_right hu).2 hxy)
    have h' : (roundEven (x / 2 ^ ulpExp p emin y) : ℚ)
        ≤ (roundEven (y / 2 ^ ulpExp p emin y) : ℚ) := by exact_mod_cast h
    exact mul_le_mul_of_nonneg_right h' (le_of_lt hu)

/-- Rounding is monotone. -/
theorem roundTo_mono (p : ℕ) (hp : 1 ≤ p) (emin : ℤ) (x y : ℚ) (hxy : x ≤ y) :
    roundTo p emin x ≤ roundTo p emin y := by
  rcases lt_trichotomy 0 x with hx | hx | hx
  · exact roundTo_mono_pos p hp emin hx hxy
  · rw [← hx, roundTo_zero]
    exact roundTo_nonneg p emin (by rw [hx]; exact hxy)
  · have hnx : roundTo p emin x = -roundTo p emin (-x) := by rw [roundTo_neg, neg_neg]
    rcases lt_or_le y 0 with hy | hy
    · have hny : roundTo p emin y = -roundTo p emin (-y) := by rw [roundTo_neg, neg_neg]
      rw [hnx, hny, neg_le_neg_iff]
      exact roundTo_mono_pos p hp emin (by linarith) (by linarith)
    · have h1 : 0 ≤ roundTo p emin (-x) := roundTo_nonneg p emin (by linarith)
      have h2 : 0 ≤ roundTo p emin y := roundTo_nonneg p emin hy
      rw [hnx]
      linarith

/-- The integer and the fractional part of a rounded value from `1` on are exact. -/
theorem roundTo_floor_fract (p : ℕ) (hp : 1 ≤ p) (emin : ℤ) (hemin : emin ≤ 0) (x : ℚ)
    (h1 : 1 ≤ roundTo p emin x) :
    roundTo p emin (⌊roundTo p emin x⌋ : ℚ) = (⌊roundTo p emin x⌋ : ℚ) ∧
    roundTo p emin (roundTo p emin x - (⌊roundTo p emin x⌋ : ℚ))
      = roundTo p emin x - (⌊roundTo p emin x⌋ : ℚ) := by
  obtain ⟨n, u, hn, hu, h⟩ := roundTo_rep p emin x
  rcases le_or_lt 0 u with hu0 | hu0
  · -- the value is an integer
    obtain ⟨k, rfl⟩ := Int.eq_ofNat_of_zero_le hu0
    have hint : roundTo p emin x = ((n * 2 ^ k : ℤ) : ℚ) := by
      rw [h]; push_cast; rw [zpow_natCast]
    have hfl : (⌊roundTo p emin x⌋ : ℚ) = roundTo p emin x := by
      rw [hint, Int.floor_intCast]
    rw [hfl, sub_self, roundTo_zero]
    exact ⟨roundTo_idem p hp emin x, rfl⟩
  · obtain ⟨k, hk⟩ := Int.eq_ofNat_of_zero_le (by omega : 0 ≤ -u)
    have huk : u = -(k : ℤ) := by omega
    subst huk
    have hval : roundTo p emin x = (n : ℚ) / ((2 ^ k : ℕ) : ℚ) := by
      rw [h, zpow_neg, zpow_natCast]; push_cast; rw [div_eq_mul_inv]
    have hfl : ⌊roundTo p emin x⌋ = n / ((2 ^ k : ℕ) : ℤ) := by
      rw [hval, Rat.floor_intCast_div_natCast]
    have h2k : (0 : ℤ) < 2 ^ k := by positivity
    have h2kq : (0 : ℚ) < 2 ^ k := by positivity
    have hn1 : (2 : ℤ) ^ k ≤ n := by
      have : (1 : ℚ) ≤ (n : ℚ) / ((2 ^ k : ℕ) : ℚ) := by rw [← hval]; exact h1
      push_cast at this
      rw [le_div_iff₀ h2kq, one_mul] at this
      exact_mod_cast this
    have hn0 : 0 < n := lt_of_lt_of_le h2k hn1
    have hnp : n ≤ 2 ^ p := by rwa [abs_of_pos hn0] at hn
    have hq0 : 0 ≤ n / 2 ^ k := Int.ediv_nonneg (le_of_lt hn0) (le_of_lt h2k)
    have hqn : n / 2 ^ k ≤ n := Int.ediv_le_self _ (le_of_lt hn0)
    have hr0 : 0 ≤ n % 2 ^ k := Int.emod_nonneg _ (ne_of_gt h2k)
    have hrk : n % 2 ^ k < 2 ^ k := Int.emod_lt_of_pos _ h2k
    rw [hfl]
    push_cast
    constructor
    · have := roundTo_exact p hp emin (n / 2 ^ k) 0 (by rw [abs_of_nonneg hq0]; omega) hemin
      simpa using this
    · have hfr : roundTo p emin x - ((n / 2 ^ k : ℤ) : ℚ)
          = ((n % 2 ^ k : ℤ) : ℚ) * 2 ^ (-(k : ℤ)) := by
        rw [hval, zpow_neg, zpow_natCast]
        have hdm : n = 2 ^ k * (n / 2 ^ k) + n % 2 ^ k := (Int.ediv_add_emod n (2 ^ k)).symm
        have hdmq : (n : ℚ) = 2 ^ k * ((n / 2 ^ k : ℤ) : ℚ) + ((n % 2 ^ k : ℤ) : ℚ) := by
          exact_mod_cast hdm
        push_cast
        field_simp
        push_cast at hdmq
        linarith
      push_cast at hfr
      rw [hfr]
      have := roundTo_exact p hp emin (n % 2 ^ k) (-(k : ℤ))
        (by rw [abs_of_nonneg hr0]; omega) hu
      simpa using this

/-- Rounding to nearest in a binary format with at least 24 bits of precision that holds
    the integers is lawful. -/
theorem roundTo_rounding (p : ℕ) (hp : 24 ≤ p) (emin : ℤ) (hemin : emin ≤ 0) :
    Rounding (roundTo p emin) where
  mono := roundTo_mono p (by omega) emin
  idem := roundTo_idem p (by omega) emin
  exact_int := by
    intro m k hm
    have h24 : (2 : ℤ) ^ 24 ≤ 2 ^ p := pow_le_pow_right₀ (by norm_num) hp
    have := roundTo_exact p (by omega) emin m k (le_trans hm h24) (by omega)
    rwa [zpow_natCast] at this
  exact_floor := fun x h => (roundTo_floor_fract p (by omega) emin hemin x h).1
  exact_fract := fun x h => (roundTo_floor_fract p (by omega) emin hemin x h).2

theorem binary32_rounding : Rounding binary32 := roundTo_rounding 24 le_rfl (-149) (by norm_num)

theorem binary64_rounding : Rounding binary64 :=
  roundTo_rounding 53 (by norm_num) (-1074) (by norm_num)

theorem id_rounding : Rounding (fun x : ℚ => x) where
  mono := fun _ _ h => h
  idem := fun _ => rfl
  exact_int := fun _ _ _ => rfl
  exact_floor := fun _ _ => rfl
  exact_fract := fun _ _ => rfl

theorem exactPlatform_lawful (randTable : ℕ → ℚ) (q31_to_f32 : ℤ → ℚ) :
    (exactPlatform randTable q31_to_f32).Lawful :=
  ⟨id_rounding, id_rounding⟩

theorem ieeePlatform_lawful (randTable : ℕ → ℚ) (q31_to_f32 : ℤ → ℚ) :
    (ieeePlatform randTable q31_to_f32).Lawful :=
  ⟨binary32_rounding, binary64_rounding⟩

/-! ## The sample loop -/

theorem processLoop_eq (P : Platform) (main_xn sub_xn : ℕ → ℚ) (fuel : ℕ) :
    ∀ (n o : ℕ) (s : State), n ≤ fuel →
      processLoop P main_xn sub_xn (o + 2 * n) fuel o s
        = some (runFrames P main_xn sub_xn n o s) := by
  induction fuel with
  | zero =>
    intro n o s hn
    obtain rfl : n = 0 := by omega
    simp [processLoop, runFrames]
  | succ fuel ih =>
    intro n o s hn
    cases n with
    | zero => simp [processLoop, runFrames]
    | succ n =>
      have hne : ¬ o = o + 2 * (n + 1) := by omega
      have hend : o + 2 * (n + 1) = (o + 2) + 2 * n := by omega
      simp only [processLoop, if_neg hne]
      rw [hend, ih n (o + 2) _ (by omega)]
      simp [runFrames]

/-- The loop of `MODFX_PROCESS` always finishes, after `loopCount frames` passes. -/
theorem MODFX_PROCESS_eq (P : Platform) (s : State) (main_xn sub_xn : ℕ → ℚ) (frames : ℕ) :
    MODFX_PROCESS P s main_xn sub_xn frames
      = some (runFrames P main_xn sub_xn (loopCount frames) 0 s) := by
  have h := processLoop_eq P main_xn sub_xn (2 * frames % 2 ^ 32) (loopCount frames) 0 s
    (by unfold loopCount; omega)
  have he : 0 + 2 * loopCount frames = 2 * frames % 2 ^ 32 := by unfold loopCount; omega
  rw [he] at h
  exact h

theorem loopCount_of_lt {frames : ℕ} (h : frames < 2 ^ 31) : loopCount frames = frames := by
  unfold loopCount; omega

theorem step_eq (P : Platform) (s : State) (c : Call) :
    step P s c = some (stepUnrolled P s c) := by
  cases c <;> simp [step, stepUnrolled, MODFX_PROCESS_eq]

theorem run_eq (P : Platform) (calls : List Call) :
    ∀ s : State, run P s calls = some (runUnrolled P s calls) := by
  induction calls with
  | nil => intro s; rfl
  | cons c cs ih => intro s; simp [run, runUnrolled, step_eq, ih]

theorem runFrames_sub_yn_length (P : Platform) (main_xn sub_xn : ℕ → ℚ) (n : ℕ) :
    ∀ (o : ℕ) (s : State), (runFrames P main_xn sub_xn n o s).sub_yn.length = 2 * n := by
  induction n with
  | zero => intro o s; rfl
  | succ n ih => intro o s; simp [runFrames, ih]; omega

theorem runFrames_sub_yn (P : Platform) (main_xn sub_xn : ℕ → ℚ) (n : ℕ) :
    ∀ (o : ℕ) (s : State) (i : ℕ), i < 2 * n →
      (runFrames P main_xn sub_xn n o s).sub_yn[i]? = some (sub_xn (o + i)) := by
  induction n with
  | zero => intro o s i hi; omega
  | succ n ih =>
    intro o s i hi
    match i with
    | 0 => simp [runFrames]
    | 1 => simp [runFrames]
    | i + 2 =>
      have h := ih (o + 2) (sample P s (main_xn o)) i (by omega)
      have ho : o + 2 + i = o + (i + 2) := by omega
      simpa [runFrames, ho] using h

/-! ## C1: the sub channel -/

/-- C1, as stated, fails: with `frames = 2 ^ 31` the product `2*frames` is `0` in `uint32_t`,
    the end pointer equals `main_yn`, the loop body never runs and nothing is stored
    through `sub_yn`, so `sub_yn[0]` is not a copy of `sub_xn[0]`. -/
theorem C1_counterexample :
    ¬ ∀ (P : Platform) (s : State) (main_xn sub_xn : ℕ → ℚ) (frames : ℕ), frames < 2 ^ 32 →
        ∃ r, MODFX_PROCESS P s main_xn sub_xn frames = some r ∧
          ∀ i, i < 2 * frames → r.sub_yn[i]? = some (sub_xn i) := by
  intro h
  obtain ⟨r, hr, hi⟩ := h (exactPlatform (fun _ => 0) (fun _ => 0))
    (initialGlobals (exactPlatform (fun _ => 0) (fun _ => 0))) (fun _ => 0) (fun _ => 0)
    (2 ^ 31) (by norm_num)
  rw [ MODFX_PROCESS_eq] at hr
  have hc : loopCount (2 ^ 31) = 0 := by unfold loopCount; norm_num
  rw [hc] at hr
  have h0 := hi 0 (by norm_num)
  rw [← Option.some.inj hr] at h0
  simp [runFrames] at h0

/-- C1, amended: for every platform, state, input block and frame count `frames < 2 ^ 31`,
    `MODFX_PROCESS` returns and has stored exactly `2 * frames` values through `sub_yn`,
    the `i`-th of which is `sub_xn[i]`, whatever the main input and the state are. -/
theorem C1_sub_passthrough (P : Platform) (s : State) (main_xn sub_xn : ℕ → ℚ) (frames : ℕ)
    (hframes : frames < 2 ^ 31) :
    ∃ r, MODFX_PROCESS P s main_xn sub_xn frames = some r ∧
      r.sub_yn.length = 2 * frames ∧
      ∀ i, i < 2 * frames → r.sub_yn[i]? = some (sub_xn i) := by
  refine ⟨_, MODFX_PROCESS_eq P s main_xn sub_xn frames, ?_, ?_⟩
  · rw [runFrames_sub_yn_length, loopCount_of_lt hframes]
  · intro i hi
    have h := runFrames_sub_yn P main_xn sub_xn (loopCount frames) 0 s i
      (by rw [loopCount_of_lt hframes]; exact hi)
    simpa using h

/-- C1, amended, at two frames of an IEEE platform: the four sub inputs come out. -/
theorem C1_sub_passthrough_witness :
    (2 : ℕ) < 2 ^ 31 ∧
    ∃ r, MODFX_PROCESS (ieeePlatform (fun _ => 0) (fun _ => 0))
          (initialGlobals (ieeePlatform (fun _ => 0) (fun _ => 0)))
          (fun i => (i : ℚ) / 3) (fun i => (i : ℚ) + 1 / 2) 2 = some r ∧
      r.sub_yn.length = 2 * 2 ∧
      ∀ i, i < 2 * 2 → r.sub_yn[i]? = some ((fun i : ℕ => (i : ℚ) + 1 / 2) i) :=
  ⟨by norm_num, C1_sub_passthrough _ _ _ _ 2 (by norm_num)⟩

/-! ## C7, C8, C9: `MODFX_PARAM` -/

/-- C7: for every state and every raw value whose conversion `v` lies in `[0, 1]`,
    `MODFX_PARAM` with index 0 stores `valTime = v` and sets `LFORate1` to the float product
    `MAX_LFO_RATE * v`, which lies in `[0, MAX_LFO_RATE]`, equals `20 * v` whenever that
    number is a float, and is `0`, `10`, `20` for `v = 0`, `1/2`, `1`; every other variable
    keeps its value. -/
theorem C7_param_time (P : Platform) (hP : P.Lawful) (s : State) (value : ℤ)
    (hv0 : 0 ≤ P.q31_to_f32 value) (hv1 : P.q31_to_f32 value ≤ 1) :
    (MODFX_PARAM P s 0 value).valTime = P.q31_to_f32 value ∧
    (MODFX_PARAM P s 0 value).LFORate1 = P.f32 (MAX_LFO_RATE * P.q31_to_f32 value) ∧
    (P.IsFloat (20 * P.q31_to_f32 value) →
      (MODFX_PARAM P s 0 value).LFORate1 = 20 * P.q31_to_f32 value) ∧
    (P.q31_to_f32 value = 0 → (MODFX_PARAM P s 0 value).LFORate1 = 0) ∧
    (P.q31_to_f32 value = 1 / 2 → (MODFX_PARAM P s 0 value).LFORate1 = 10) ∧
    (P.q31_to_f32 value = 1 → (MODFX_PARAM P s 0 value).LFORate1 = 20) ∧
    0 ≤ (MODFX_PARAM P s 0 value).LFORate1 ∧
    (MODFX_PARAM P s 0 value).LFORate1 ≤ MAX_LFO_RATE ∧
    MODFX_PARAM P s 0 value
      = { s with valTime := (MODFX_PARAM P s 0 value).valTime,
                 LFORate1 := (MODFX_PARAM P s 0 value).LFORate1 } := by
  have h0 : P.f32 0 = 0 := by simpa using hP.f32.exact_int 0 0 (by norm_num)
  have h10 : P.f32 10 = 10 := by simpa using hP.f32.exact_int 10 0 (by norm_num)
  have h20 : P.f32 20 = 20 := by simpa using hP.f32.exact_int 20 0 (by norm_num)
  refine ⟨rfl, rfl, ?_, ?_, ?_, ?_, ?_, ?_, rfl⟩
  · intro hf
    exact hf
  · intro hv
    simp [ MODFX_PARAM, hv, h0]
  · intro hv
    have : MAX_LFO_RATE * (1 / 2) = 10 := by norm_num [MAX_LFO_RATE]
    simp only [ MODFX_PARAM, hv, this, h10]
  · intro hv
    simp [ MODFX_PARAM, hv, MAX_LFO_RATE, h20]
  · have h := hP.f32.mono 0 (MAX_LFO_RATE * P.q31_to_f32 value)
      (by unfold MAX_LFO_RATE; positivity)
    rw [h0] at h
    exact h
  · have h := hP.f32.mono (MAX_LFO_RATE * P.q31_to_f32 value) 20
      (by unfold MAX_LFO_RATE; linarith)
    rw [h20] at h
    exact h

/-- C7 at the raw value `2 ^ 30` of an IEEE platform whose conversion divides by `2 ^ 31`. -/
theorem C7_param_time_witness :
    0 ≤ (ieeePlatform (fun _ => 0) (fun v => (v : ℚ) / 2 ^ 31)).q31_to_f32 (2 ^ 30) ∧
    (ieeePlatform (fun _ => 0) (fun v => (v : ℚ) / 2 ^ 31)).q31_to_f32 (2 ^ 30) ≤ 1 ∧
    (MODFX_PARAM (ieeePlatform (fun _ => 0) (fun v => (v : ℚ) / 2 ^ 31)) demoState 0
      (2 ^ 30)).LFORate1 = 10 :=
  ⟨by norm_num [ieeePlatform], by norm_num [ieeePlatform],
    (C7_param_time (ieeePlatform (fun _ => 0) (fun v => (v : ℚ) / 2 ^ 31))
      (ieeePlatform_lawful _ _) demoState (2 ^ 30) (by norm_num [ieeePlatform])
      (by norm_num [ieeePlatform])).2.2.2.2.1 (by norm_num [ieeePlatform])⟩

/-- C8: for every state and every raw value (with conversion `v`, in `[0, 1]` or not),
    `MODFX_PARAM` with index 1 stores `valDepth = v` and sets `effectDepth` to the float
    product `v * MAX_FREQUENCY_DEVIATION`, which equals `1100 * v` whenever that number is a
    float; every other variable, the cutoff `F` included, keeps its value. -/
theorem C8_param_depth (P : Platform) (s : State) (value : ℤ) :
    (MODFX_PARAM P s 1 value).valDepth = P.q31_to_f32 value ∧
    (MODFX_PARAM P s 1 value).effectDepth
      = P.f32 (P.q31_to_f32 value * MAX_FREQUENCY_DEVIATION) ∧
    (P.IsFloat (1100 * P.q31_to_f32 value) →
      (MODFX_PARAM P s 1 value).effectDepth = 1100 * P.q31_to_f32 value) ∧
    (MODFX_PARAM P s 1 value).F = s.F ∧
    MODFX_PARAM P s 1 value
      = { s with valDepth := (MODFX_PARAM P s 1 value).valDepth,
                 effectDepth := (MODFX_PARAM P s 1 value).effectDepth } := by
  refine ⟨rfl, rfl, ?_, rfl, rfl⟩
  intro hf
  have h : P.q31_to_f32 value * MAX_FREQUENCY_DEVIATION = 1100 * P.q31_to_f32 value := by
    unfold MAX_FREQUENCY_DEVIATION; ring
  simp only [ MODFX_PARAM, h]
  exact hf

/-- C9: for every state, every parameter index other than 0 and 1 and every raw value,
    `MODFX_PARAM` returns the state it was given. -/
theorem C9_param_unknown (P : Platform) (s : State) (index : ℕ) (value : ℤ)
    (h0 : index ≠ 0) (h1 : index ≠ 1) : MODFX_PARAM P s index value = s := by
  match index, h0, h1 with
  | 0, h0, _ => exact absurd rfl h0
  | 1, _, h1 => exact absurd rfl h1
  | _ + 2, _, _ => rfl

/-- C9 at index 7 of an IEEE platform. -/
theorem C9_param_unknown_witness :
    (7 : ℕ) ≠ 0 ∧ (7 : ℕ) ≠ 1 ∧
    MODFX_PARAM (ieeePlatform (fun _ => 0) (fun v => (v : ℚ) / 2 ^ 31))
        (initialGlobals (ieeePlatform (fun _ => 0) (fun v => (v : ℚ) / 2 ^ 31))) 7 12345
      = initialGlobals (ieeePlatform (fun _ => 0) (fun v => (v : ℚ) / 2 ^ 31)) :=
  ⟨by decide, by decide, C9_param_unknown _ _ 7 12345 (by decide) (by decide)⟩

/-! ## C10: `MODFX_INIT` -/

/-- C10, as stated, fails: after `MODFX_PARAM(1, …)` has stored a depth knob value of `1`,
    `MODFX_INIT` leaves a state that differs (in `valDepth`) from the one it leaves when
    called on the initial globals. -/
theorem C10_counterexample :
    ¬ ∀ (P : Platform) (s₁ s₂ : State) (platform api : ℕ),
        MODFX_INIT P s₁ platform api = MODFX_INIT P s₂ platform api := by
  intro h
  have h1 := congrArg State.valDepth
    (h (exactPlatform (fun _ => 0) (fun _ => 1))
      (initialGlobals (exactPlatform (fun _ => 0) (fun _ => 1)))
      (MODFX_PARAM (exactPlatform (fun _ => 0) (fun _ => 1))
        (initialGlobals (exactPlatform (fun _ => 0) (fun _ => 1))) 1 0) 0 0)
  simp [ MODFX_INIT, MODFX_PARAM, initialGlobals, exactPlatform] at h1

/-- C10, amended: for every prior state, `MODFX_INIT` gives the variables it assigns their
    documented defaults (phase `0`, table index `0`, LFO rate `6`, `F = 800`, `Q = 0.17`
    as a float, `B = L = N = D1 = D2 = 0`, effect depth `800`), so two states after
    `MODFX_INIT` agree in all of them; `valTime` and `valDepth` keep their prior values. -/
theorem C10_init_defaults (P : Platform) (s : State) (platform api : ℕ) :
    (MODFX_INIT P s platform api).phaseAccumLFO1 = 0 ∧
    (MODFX_INIT P s platform api).randomIndex = 0 ∧
    (MODFX_INIT P s platform api).LFORate1 = P.f32 6 ∧
    (MODFX_INIT P s platform api).F = P.f32 800 ∧
    (MODFX_INIT P s platform api).Q = P.f32 (P.f64 (17 / 100)) ∧
    (MODFX_INIT P s platform api).B = 0 ∧
    (MODFX_INIT P s platform api).L = 0 ∧
    (MODFX_INIT P s platform api).N = 0 ∧
    (MODFX_INIT P s platform api).D1 = 0 ∧
    (MODFX_INIT P s platform api).D2 = 0 ∧
    (MODFX_INIT P s platform api).effectDepth = P.f32 800 ∧
    (P.Lawful → (MODFX_INIT P s platform api).LFORate1 = 6 ∧
      (MODFX_INIT P s platform api).F = 800 ∧
      (MODFX_INIT P s platform api).effectDepth = 800) ∧
    (MODFX_INIT P s platform api).valTime = s.valTime ∧
    (MODFX_INIT P s platform api).valDepth = s.valDepth := by
  refine ⟨rfl, rfl, rfl, rfl, rfl, rfl, rfl, rfl, rfl, rfl, rfl, ?_, rfl, rfl⟩
  intro hP
  have h6 : P.f32 6 = 6 := by simpa using hP.f32.exact_int 6 0 (by norm_num)
  have h800 : P.f32 800 = 800 := by simpa using hP.f32.exact_int 800 0 (by norm_num)
  simp [ MODFX_INIT, INITIAL_LFO_FREQUENCY, INITIAL_FREQUENCY, INITIAL_FREQUENCY_DEVIATION,
    h6, h800]

/-! ## C2: the table index -/

theorem mask_succ (i : ℕ) :
    ((i + 1) % 2 ^ 16) &&& RANDOM_TABLE_MASK = (i + 1) % 1024 := by
  have h : RANDOM_TABLE_MASK = 2 ^ 10 - 1 := by norm_num [RANDOM_TABLE_MASK]
  rw [h, Nat.and_pow_two_sub_one_eq_mod]
  omega

theorem lfo_randomIndex (P : Platform) (s : State) :
    (lfo P s).randomIndex
      = if wraps P s then ((s.randomIndex + 1) % 2 ^ 16) &&& RANDOM_TABLE_MASK
        else s.randomIndex := by
  unfold lfo
  split <;> rfl

theorem sample_randomIndex (P : Platform) (s : State) (x : ℚ) :
    (sample P s x).randomIndex = (lfo P s).randomIndex := rfl

theorem sample_index_step (P : Platform) (s : State) (x : ℚ) (k : ℕ)
    (hk : s.randomIndex = k % 1024) :
    (sample P s x).randomIndex = (k + (if wraps P s then 1 else 0)) % 1024 := by
  rw [sample_randomIndex, lfo_randomIndex]
  split
  · rw [mask_succ, hk]
    omega
  · simpa using hk

theorem runFrames_index (P : Platform) (main_xn sub_xn : ℕ → ℚ) (n : ℕ) :
    ∀ (o : ℕ) (s : State) (k : ℕ), s.randomIndex = k % 1024 →
      (runFrames P main_xn sub_xn n o s).state.randomIndex
          = (k + ((sampleStates P main_xn n o s).map (wraps P)).count true) % 1024 ∧
      ∀ t ∈ sampleStates P main_xn n o s, t.randomIndex ≤ 1023 := by
  induction n with
  | zero =>
    intro o s k hk
    simp [runFrames, sampleStates, hk]
  | succ n ih =>
    intro o s k hk
    obtain ⟨h1, h2⟩ := ih (o + 2) (sample P s (main_xn o)) _ (sample_index_step P s _ k hk)
    refine ⟨?_, ?_⟩
    · simp only [runFrames, sampleStates, List.map_cons, List.count_cons]
      rw [h1]
      by_cases hw : wraps P s = true
      · simp [hw]; ring_nf
      · simp [hw]
    · intro t ht
      simp only [sampleStates, List.mem_cons] at ht
      rcases ht with rfl | ht
      · rw [hk]; omega
      · exact h2 t ht

theorem MODFX_PARAM_randomIndex (P : Platform) (s : State) (index : ℕ) (value : ℤ) :
    (MODFX_PARAM P s index value).randomIndex = s.randomIndex := by
  match index with
  | 0 => rfl
  | 1 => rfl
  | _ + 2 => rfl

theorem runUnrolled_index (P : Platform) (calls : List Call) :
    ∀ (s : State) (k : ℕ), (∀ c ∈ calls, c.isInit = false) → s.randomIndex = k % 1024 →
      (runUnrolled P s calls).randomIndex = (k + (wrapEvents P s calls).count true) % 1024 ∧
      ∀ i ∈ tableReads P s calls, i ≤ 1023 := by
  induction calls with
  | nil =>
    intro s k _ hk
    simp [runUnrolled, wrapEvents, tableReads, runStates, hk]
  | cons c cs ih =>
    intro s k hc hk
    have hcs : ∀ c' ∈ cs, c'.isInit = false := fun c' h' => hc c' (List.mem_cons_of_mem _ h')
    cases c with
    | init platform api => simpa [Call.isInit] using hc _ (List.mem_cons_self _ _)
    | param index value =>
      have h := ih (MODFX_PARAM P s index value) k hcs
        (by rw [ MODFX_PARAM_randomIndex]; exact hk)
      simpa [runUnrolled, stepUnrolled, wrapEvents, tableReads, runStates, callStates] using h
    | process main_xn sub_xn frames =>
      obtain ⟨h1, h2⟩ := runFrames_index P main_xn sub_xn (loopCount frames) 0 s k hk
      obtain ⟨h3, h4⟩ := ih (runFrames P main_xn sub_xn (loopCount frames) 0 s).state _ hcs h1
      refine ⟨?_, ?_⟩
      · simp only [runUnrolled, stepUnrolled, wrapEvents, runStates, callStates,
          List.map_append, List.count_append] at h3 ⊢
        rw [h3, Nat.add_assoc]
      · intro i hi
        simp only [tableReads, runStates, callStates, List.filter_append, List.map_append,
          List.mem_append, List.mem_map, List.mem_filter] at hi h4 ⊢
        rcases hi with ⟨t, ⟨ht, _⟩, rfl⟩ | hi
        · exact h2 t ht
        · exact h4 i hi

/-- C2: starting from the state left by `MODFX_INIT`, after every sequence of
    `MODFX_PROCESS` and `MODFX_PARAM` calls during which `N` wrap events occur,
    `randomIndex` equals `N mod 1024`, and every table read uses an offset in `[0, 1023]`. -/
theorem C2_table_index (P : Platform) (s₀ : State) (platform api : ℕ) (calls : List Call)
    (hcalls : ∀ c ∈ calls, c.isInit = false) :
    (run P (MODFX_INIT P s₀ platform api) calls).map State.randomIndex
        = some ((wrapEvents P (MODFX_INIT P s₀ platform api) calls).count true % 1024) ∧
    ∀ i ∈ tableReads P (MODFX_INIT P s₀ platform api) calls, i ≤ 1023 := by
  obtain ⟨h1, h2⟩ := runUnrolled_index P calls (MODFX_INIT P s₀ platform api) 0 hcalls rfl
  refine ⟨?_, h2⟩
  rw [run_eq, Option.map_some', h1, Nat.zero_add]

/-! ## C3: the phase stays in `[0, 1)` -/

theorem f32_zero (P : Platform) (hP : P.Lawful) : P.f32 0 = 0 := by
  simpa using hP.f32.exact_int 0 0 (by norm_num)

theorem f32_nonneg (P : Platform) (hP : P.Lawful) {x : ℚ} (hx : 0 ≤ x) : 0 ≤ P.f32 x := by
  have h := hP.f32.mono 0 x hx
  rwa [f32_zero P hP] at h

theorem f32_nonpos (P : Platform) (hP : P.Lawful) {x : ℚ} (hx : x ≤ 0) : P.f32 x ≤ 0 := by
  have h := hP.f32.mono x 0 hx
  rwa [f32_zero P hP] at h

theorem castU32_eq_floor {x : ℚ} (h1 : 1 ≤ x) (h2 : x < 2 ^ 32) :
    ((castU32 x : ℕ) : ℚ) = (⌊x⌋ : ℚ) := by
  have hfl0 : 0 ≤ ⌊x⌋ := Int.floor_nonneg.2 (by linarith)
  have hfl1 : ⌊x⌋ < 2 ^ 32 := Int.floor_lt.2 (by exact_mod_cast h2)
  obtain ⟨k, hk⟩ := Int.eq_ofNat_of_zero_le hfl0
  unfold castU32
  rw [hk] at hfl1 ⊢
  have hk32 : k < 2 ^ 32 := by exact_mod_cast hfl1
  simp
  omega

theorem lfo_phase (P : Platform) (s : State) :
    (lfo P s).phaseAccumLFO1
      = if wraps P s then
          P.f32 ((advancePhase P s).phaseAccumLFO1
            - P.f32 (castU32 (advancePhase P s).phaseAccumLFO1))
        else (advancePhase P s).phaseAccumLFO1 := by
  unfold lfo
  split <;> rfl

theorem advancePhase_nonneg (P : Platform) (hP : P.Lawful) (s : State)
    (h0 : 0 ≤ s.phaseAccumLFO1) (hr : 0 ≤ s.LFORate1) :
    0 ≤ (advancePhase P s).phaseAccumLFO1 := by
  have hinc : 0 ≤ P.f32 (s.LFORate1 / 48000) := f32_nonneg P hP (by positivity)
  exact f32_nonneg P hP (by linarith)

theorem advancePhase_lt (P : Platform) (hP : P.Lawful) (s : State)
    (h1 : s.phaseAccumLFO1 < 1) (hb : s.LFORate1 / 48000 ≤ 2 ^ 31) :
    (advancePhase P s).phaseAccumLFO1 < 2 ^ 32 := by
  have e1 : P.f32 (2 ^ 31) = 2 ^ 31 := by simpa using hP.f32.exact_int 1 31 (by norm_num)
  have e2 : P.f32 (16777215 * 2 ^ 8) = 16777215 * 2 ^ 8 := by
    simpa using hP.f32.exact_int 16777215 8 (by norm_num)
  have hinc : P.f32 (s.LFORate1 / 48000) ≤ 2 ^ 31 := by
    have h := hP.f32.mono _ _ hb
    rwa [e1] at h
  have h := hP.f32.mono (s.phaseAccumLFO1 + P.f32 (s.LFORate1 / 48000)) (16777215 * 2 ^ 8)
    (by norm_num at hinc ⊢; linarith)
  rw [e2] at h
  calc (advancePhase P s).phaseAccumLFO1 ≤ 16777215 * 2 ^ 8 := h
    _ < 2 ^ 32 := by norm_num

theorem lfo_phase_mem (P : Platform) (hP : P.Lawful) (s : State)
    (h0 : 0 ≤ s.phaseAccumLFO1) (hr : 0 ≤ s.LFORate1)
    (hb : (advancePhase P s).phaseAccumLFO1 < 2 ^ 32) :
    0 ≤ (lfo P s).phaseAccumLFO1 ∧ (lfo P s).phaseAccumLFO1 < 1 := by
  rw [lfo_phase]
  by_cases hw : wraps P s = true
  · have h1 : 1 ≤ (advancePhase P s).phaseAccumLFO1 := by simpa [wraps] using hw
    have h1' : 1 ≤ P.f32 (s.phaseAccumLFO1 + P.f32 (s.LFORate1 / 48000)) := h1
    rw [if_pos hw, castU32_eq_floor h1 hb]
    have hfl := hP.f32.exact_floor _ h1'
    have hfr := hP.f32.exact_fract _ h1'
    show 0 ≤ P.f32 (P.f32 (s.phaseAccumLFO1 + P.f32 (s.LFORate1 / 48000))
        - P.f32 (⌊P.f32 (s.phaseAccumLFO1 + P.f32 (s.LFORate1 / 48000))⌋ : ℚ)) ∧
      P.f32 (P.f32 (s.phaseAccumLFO1 + P.f32 (s.LFORate1 / 48000))
        - P.f32 (⌊P.f32 (s.phaseAccumLFO1 + P.f32 (s.LFORate1 / 48000))⌋ : ℚ)) < 1
    rw [hfl, hfr]
    constructor
    · linarith [Int.floor_le (P.f32 (s.phaseAccumLFO1 + P.f32 (s.LFORate1 / 48000)))]
    · linarith [Int.lt_floor_add_one (P.f32 (s.phaseAccumLFO1 + P.f32 (s.LFORate1 / 48000)))]
  · have h1 : ¬ 1 ≤ (advancePhase P s).phaseAccumLFO1 := by simpa [wraps] using hw
    rw [if_neg hw]
    exact ⟨advancePhase_nonneg P hP s h0 hr, lt_of_not_le h1⟩

theorem sample_phase (P : Platform) (s : State) (x : ℚ) :
    (sample P s x).phaseAccumLFO1 = (lfo P s).phaseAccumLFO1 := rfl

theorem lfo_LFORate1 (P : Platform) (s : State) : (lfo P s).LFORate1 = s.LFORate1 := by
  unfold lfo
  split <;> rfl

theorem sample_LFORate1 (P : Platform) (s : State) (x : ℚ) :
    (sample P s x).LFORate1 = s.LFORate1 := lfo_LFORate1 P s

theorem runFrames_phase_mem (P : Platform) (hP : P.Lawful) (main_xn sub_xn : ℕ → ℚ) (n : ℕ) :
    ∀ (o : ℕ) (s : State), 0 ≤ s.phaseAccumLFO1 → s.phaseAccumLFO1 < 1 → 0 ≤ s.LFORate1 →
      s.LFORate1 / 48000 ≤ 2 ^ 31 →
      0 ≤ (runFrames P main_xn sub_xn n o s).state.phaseAccumLFO1 ∧
      (runFrames P main_xn sub_xn n o s).state.phaseAccumLFO1 < 1 := by
  induction n with
  | zero => intro o s h0 h1 _ _; exact ⟨h0, h1⟩
  | succ n ih =>
    intro o s h0 h1 hr hb
    obtain ⟨h0', h1'⟩ := lfo_phase_mem P hP s h0 hr (advancePhase_lt P hP s h1 hb)
    exact ih (o + 2) (sample P s (main_xn o)) h0' h1'
      (by rw [sample_LFORate1]; exact hr) (by rw [sample_LFORate1]; exact hb)

/-! ## C6: a rate that is not positive -/

theorem lfo_of_not_wraps (P : Platform) (s : State) (h : wraps P s = false) :
    lfo P s = advancePhase P s := by
  simp [lfo, h]

theorem filter_F (P : Platform) (s : State) (x : ℚ) : (filter P s x).F = s.F := rfl

theorem filter_randomIndex (P : Platform) (s : State) (x : ℚ) :
    (filter P s x).randomIndex = s.randomIndex := rfl

theorem not_wraps_of_rate_nonpos (P : Platform) (hP : P.Lawful) (s : State)
    (hf : P.IsFloat s.phaseAccumLFO1) (h1 : s.phaseAccumLFO1 < 1) (hr : s.LFORate1 ≤ 0) :
    wraps P s = false ∧ P.IsFloat (advancePhase P s).phaseAccumLFO1 ∧
      (advancePhase P s).phaseAccumLFO1 < 1 := by
  have hinc : P.f32 (s.LFORate1 / 48000) ≤ 0 :=
    f32_nonpos P hP (div_nonpos_of_nonpos_of_nonneg hr (by norm_num))
  have hle : (advancePhase P s).phaseAccumLFO1 ≤ s.phaseAccumLFO1 := by
    have h := hP.f32.mono (s.phaseAccumLFO1 + P.f32 (s.LFORate1 / 48000)) s.phaseAccumLFO1
      (by linarith)
    rwa [hf] at h
  have hlt : (advancePhase P s).phaseAccumLFO1 < 1 := lt_of_le_of_lt hle h1
  refine ⟨?_, hP.f32.idem _, hlt⟩
  simpa [wraps] using hlt

theorem runFrames_rate_nonpos (P : Platform) (hP : P.Lawful) (main_xn sub_xn : ℕ → ℚ) (n : ℕ) :
    ∀ (o : ℕ) (s : State), P.IsFloat s.phaseAccumLFO1 → s.phaseAccumLFO1 < 1 →
      s.LFORate1 ≤ 0 →
      (∀ t ∈ sampleStates P main_xn n o s, wraps P t = false) ∧
      (runFrames P main_xn sub_xn n o s).state.F = s.F ∧
      (runFrames P main_xn sub_xn n o s).state.randomIndex = s.randomIndex := by
  induction n with
  | zero =>
    intro o s _ _ _
    simp [sampleStates, runFrames]
  | succ n ih =>
    intro o s hf h1 hr
    obtain ⟨hw, hf', h1'⟩ := not_wraps_of_rate_nonpos P hP s hf h1 hr
    have hs : sample P s (main_xn o) = filter P (advancePhase P s) (main_xn o) := by
      rw [sample, lfo_of_not_wraps P s hw]
    obtain ⟨ha, hb, hc⟩ := ih (o + 2) (sample P s (main_xn o))
      (by rw [hs]; exact hf') (by rw [hs]; exact h1') (by rw [sample_LFORate1]; exact hr)
    refine ⟨?_, ?_, ?_⟩
    · intro t ht
      simp only [sampleStates, List.mem_cons] at ht
      rcases ht with rfl | ht
      · exact hw
      · exact ha t ht
    · show (runFrames P main_xn sub_xn n (o + 2) (sample P s (main_xn o))).state.F = s.F
      rw [hb, hs]
      rfl
    · show (runFrames P main_xn sub_xn n (o + 2) (sample P s (main_xn o))).state.randomIndex
        = s.randomIndex
      rw [hc, hs]
      rfl

/-- C6: on a lawful platform, for every state whose phase is a float below `1` and whose
    `LFORate1` is `≤ 0`, every `MODFX_PROCESS` call of any length returns, none of its
    samples is a wrap event, and the cutoff target `F` and `randomIndex` after the call
    equal their values before it. -/
theorem C6_rate_nonpositive (P : Platform) (hP : P.Lawful) (s : State)
    (hf : P.IsFloat s.phaseAccumLFO1) (h1 : s.phaseAccumLFO1 < 1) (hr : s.LFORate1 ≤ 0)
    (main_xn sub_xn : ℕ → ℚ) (frames : ℕ) :
    ∃ r, MODFX_PROCESS P s main_xn sub_xn frames = some r ∧
      (∀ t ∈ sampleStates P main_xn (loopCount frames) 0 s, wraps P t = false) ∧
      r.state.F = s.F ∧ r.state.randomIndex = s.randomIndex :=
  ⟨_, MODFX_PROCESS_eq P s main_xn sub_xn frames,
    runFrames_rate_nonpos P hP main_xn sub_xn _ 0 s hf h1 hr⟩

/-- C6 at rate `0` on an IEEE platform, for three frames. -/
theorem C6_rate_nonpositive_witness :
    (ieeePlatform (fun _ => 1) (fun _ => 0)).IsFloat
      ({ demoState with LFORate1 := 0 } : State).phaseAccumLFO1 ∧
    ({ demoState with LFORate1 := 0 } : State).phaseAccumLFO1 < 1 ∧
    ({ demoState with LFORate1 := 0 } : State).LFORate1 ≤ 0 ∧
    ∃ r, MODFX_PROCESS (ieeePlatform (fun _ => 1) (fun _ => 0))
        { demoState with LFORate1 := 0 } (fun i => (i : ℚ)) (fun _ => 0) 3 = some r ∧
      (∀ t ∈ sampleStates (ieeePlatform (fun _ => 1) (fun _ => 0)) (fun i => (i : ℚ))
          (loopCount 3) 0 { demoState with LFORate1 := 0 },
        wraps (ieeePlatform (fun _ => 1) (fun _ => 0)) t = false) ∧
      r.state.F = ({ demoState with LFORate1 := 0 } : State).F ∧
      r.state.randomIndex = ({ demoState with LFORate1 := 0 } : State).randomIndex :=
  ⟨by decide!, by decide, by decide,
    C6_rate_nonpositive _ (ieeePlatform_lawful _ _) _ (by decide!) (by decide) (by decide)
      _ _ 3⟩

/-! ## C5: depth zero -/

theorem lfo_F_of_depth_zero (P : Platform) (hP : P.Lawful) (s : State)
    (hd : s.effectDepth = 0) :
    (lfo P s).F = if wraps P s then CENTRE_FREQUENCY else s.F := by
  have h1200 : P.f32 1200 = 1200 := by simpa using hP.f32.exact_int 1200 0 (by norm_num)
  unfold lfo
  split
  · show P.f32 (CENTRE_FREQUENCY + P.f32 (P.randTable s.randomIndex * s.effectDepth))
      = CENTRE_FREQUENCY
    rw [hd, mul_zero, f32_zero P hP, add_zero]
    exact h1200
  · rfl

theorem lfo_effectDepth (P : Platform) (s : State) : (lfo P s).effectDepth = s.effectDepth := by
  unfold lfo
  split <;> rfl

theorem sample_effectDepth (P : Platform) (s : State) (x : ℚ) :
    (sample P s x).effectDepth = s.effectDepth := lfo_effectDepth P s

theorem sample_F (P : Platform) (s : State) (x : ℚ) : (sample P s x).F = (lfo P s).F := rfl

theorem cutoffs_of_depth_zero (P : Platform) (hP : P.Lawful) (main_xn sub_xn : ℕ → ℚ) (n : ℕ) :
    ∀ (o : ℕ) (s : State), s.effectDepth = 0 →
      (∀ i, i < n → (cutoffs P main_xn n o s)[i]?
        = some (if true ∈ ((sampleStates P main_xn n o s).map (wraps P)).take (i + 1)
            then CENTRE_FREQUENCY else s.F)) ∧
      (runFrames P main_xn sub_xn n o s).state.F
        = (if true ∈ (sampleStates P main_xn n o s).map (wraps P)
            then CENTRE_FREQUENCY else s.F) ∧
      (runFrames P main_xn sub_xn n o s).state.effectDepth = 0 := by
  induction n with
  | zero =>
    intro o s hd
    simp [sampleStates, runFrames, hd]
  | succ n ih =>
    intro o s hd
    obtain ⟨ha, hb, hc⟩ := ih (o + 2) (sample P s (main_xn o))
      (by rw [sample_effectDepth]; exact hd)
    have hF : (sample P s (main_xn o)).F = if wraps P s then CENTRE_FREQUENCY else s.F := by
      rw [sample_F, lfo_F_of_depth_zero P hP s hd]
    refine ⟨?_, ?_, hc⟩
    · intro i hi
      cases i with
      | zero =>
        simp only [cutoffs, sampleStates, List.map_cons, List.getElem?_cons_zero,
          lfo_F_of_depth_zero P hP s hd]
        by_cases hw : wraps P s = true <;> simp [hw]
      | succ i =>
        have h := ha i (by omega)
        simp only [cutoffs, sampleStates, List.map_cons, List.getElem?_cons_succ,
          List.take_succ_cons, List.mem_cons] at h ⊢
        rw [h, hF]
        by_cases hw : wraps P s = true <;> simp [hw]
    · show (runFrames P main_xn sub_xn n (o + 2) (sample P s (main_xn o))).state.F = _
      rw [hb, hF]
      simp only [sampleStates, List.map_cons, List.mem_cons]
      by_cases hw : wraps P s = true <;> simp [hw]

/-- C5, as stated, fails: after `MODFX_INIT` and `MODFX_PARAM(1, 0)` (the conversion of the
    raw value being `0`) the effect depth is `0`, yet the sample processed next is no wrap
    event and its filter step uses the cutoff `800`, the `INITIAL_FREQUENCY`, not `1200`. -/
theorem C5_counterexample :
    (MODFX_PARAM (ieeePlatform (fun _ => 0) (fun _ => 0))
        (MODFX_INIT (ieeePlatform (fun _ => 0) (fun _ => 0))
          (initialGlobals (ieeePlatform (fun _ => 0) (fun _ => 0))) 0 0) 1 0).effectDepth = 0 ∧
    cutoffs (ieeePlatform (fun _ => 0) (fun _ => 0)) (fun _ => 0) 1 0
        (MODFX_PARAM (ieeePlatform (fun _ => 0) (fun _ => 0))
          (MODFX_INIT (ieeePlatform (fun _ => 0) (fun _ => 0))
            (initialGlobals (ieeePlatform (fun _ => 0) (fun _ => 0))) 0 0) 1 0)
      = [800] ∧
    (800 : ℚ) ≠ CENTRE_FREQUENCY := by
  decide!

/-- C5, amended: on a lawful platform, when `effectDepth = 0` every wrap event sets the
    cutoff target `F` to `CENTRE_FREQUENCY = 1200`, for every table content.  So in a
    `MODFX_PROCESS` call the filter step of sample `i` uses `1200` if a wrap event occurred
    at one of the samples `0..i` of the call, and otherwise the value `F` had before the
    call; the same holds for `F` after the call, and `effectDepth` is still `0` then. -/
theorem C5_depth_zero (P : Platform) (hP : P.Lawful) (s : State) (hd : s.effectDepth = 0)
    (main_xn sub_xn : ℕ → ℚ) (frames : ℕ) :
    ∃ r, MODFX_PROCESS P s main_xn sub_xn frames = some r ∧
      (∀ i, i < loopCount frames → (cutoffs P main_xn (loopCount frames) 0 s)[i]?
        = some (if true ∈ ((sampleStates P main_xn (loopCount frames) 0 s).map
              (wraps P)).take (i + 1)
            then CENTRE_FREQUENCY else s.F)) ∧
      r.state.F = (if true ∈ (sampleStates P main_xn (loopCount frames) 0 s).map (wraps P)
        then CENTRE_FREQUENCY else s.F) ∧
      r.state.effectDepth = 0 :=
  ⟨_, MODFX_PROCESS_eq P s main_xn sub_xn frames,
    cutoffs_of_depth_zero P hP main_xn sub_xn _ 0 s hd⟩

/-- C5, amended, at `demoState` with depth `0` on an IEEE platform, for two frames. -/
theorem C5_depth_zero_witness :
    ({ demoState with effectDepth := 0 } : State).effectDepth = 0 ∧
    ∃ r, MODFX_PROCESS (ieeePlatform (fun _ => 1) (fun _ => 0))
        { demoState with effectDepth := 0 } (fun _ => 1) (fun _ => 0) 2 = some r ∧
      (∀ i, i < loopCount 2 →
        (cutoffs (ieeePlatform (fun _ => 1) (fun _ => 0)) (fun _ => 1) (loopCount 2) 0
          { demoState with effectDepth := 0 })[i]?
        = some (if true ∈ ((sampleStates (ieeePlatform (fun _ => 1) (fun _ => 0)) (fun _ => 1)
              (loopCount 2) 0 { demoState with effectDepth := 0 }).map
              (wraps (ieeePlatform (fun _ => 1) (fun _ => 0)))).take (i + 1)
            then CENTRE_FREQUENCY else ({ demoState with effectDepth := 0 } : State).F)) ∧
      r.state.F = (if true ∈ (sampleStates (ieeePlatform (fun _ => 1) (fun _ => 0))
            (fun _ => 1) (loopCount 2) 0 { demoState with effectDepth := 0 }).map
            (wraps (ieeePlatform (fun _ => 1) (fun _ => 0)))
        then CENTRE_FREQUENCY else ({ demoState with effectDepth := 0 } : State).F) ∧
      r.state.effectDepth = 0 :=
  ⟨rfl, C5_depth_zero _ (ieeePlatform_lawful _ _) _ rfl _ _ 2⟩

/-! ## C4: the first wrap after `MODFX_INIT` -/

theorem roundEven_natCast_div (s d : ℕ) (hd : 0 < d) :
    roundEven ((s : ℚ) / (d : ℚ)) = (rneQuot s d : ℤ) := by
  have hdq : (0 : ℚ) < d := by exact_mod_cast hd
  have hfl : ⌊(s : ℚ) / (d : ℚ)⌋ = ((s / d : ℕ) : ℤ) := by
    have h := Rat.floor_intCast_div_natCast (s : ℤ) d
    rw [Int.cast_natCast] at h
    rw [h]
    norm_cast
  have hsplit : (s : ℚ) = (d : ℚ) * ((s / d : ℕ) : ℚ) + ((s % d : ℕ) : ℚ) := by
    exact_mod_cast (Nat.div_add_mod s d).symm
  have hfr : (s : ℚ) / (d : ℚ) - (((s / d : ℕ) : ℤ) : ℚ) = ((s % d : ℕ) : ℚ) / (d : ℚ) := by
    rw [Int.cast_natCast]
    field_simp
    linarith
  have h1 : ((s % d : ℕ) : ℚ) / (d : ℚ) < 1 / 2 ↔ 2 * (s % d) < d := by
    rw [div_lt_div_iff₀ hdq (by norm_num)]
    constructor
    · intro h
      have : ((2 * (s % d) : ℕ) : ℚ) < ((d : ℕ) : ℚ) := by push_cast; linarith
      exact_mod_cast this
    · intro h
      have : ((2 * (s % d) : ℕ) : ℚ) < ((d : ℕ) : ℚ) := by exact_mod_cast h
      push_cast at this
      linarith
  have h2 : 1 / 2 < ((s % d : ℕ) : ℚ) / (d : ℚ) ↔ d < 2 * (s % d) := by
    rw [div_lt_div_iff₀ (by norm_num) hdq]
    constructor
    · intro h
      have : ((d : ℕ) : ℚ) < ((2 * (s % d) : ℕ) : ℚ) := by push_cast; linarith
      exact_mod_cast this
    · intro h
      have : ((d : ℕ) : ℚ) < ((2 * (s % d) : ℕ) : ℚ) := by exact_mod_cast h
      push_cast at this
      linarith
  have h3 : ((s / d : ℕ) : ℤ) % 2 = 0 ↔ (s / d) % 2 = 0 := by omega
  unfold roundEven rneQuot
  simp only [hfl, hfr, h1, h2, h3]
  split_ifs <;> simp

theorem rneQuot_one (s : ℕ) : rneQuot s 1 = s := by
  simp [rneQuot, Nat.mod_one]

/-- Naturals below `2 ^ 24`, scaled by a power of two, are binary32 numbers. -/
theorem binary32_small (s d : ℕ) (hs : s < 2 ^ 24) (hd : d ≤ 149) :
    binary32 ((s : ℚ) / 2 ^ d) = (s : ℚ) / 2 ^ d := by
  have h := roundTo_exact_lt 24 (-149) (s : ℤ) (-(d : ℤ))
    (by rw [abs_of_nonneg (by positivity)]; exact_mod_cast hs) (by omega)
  rw [zpow_neg, zpow_natCast, Int.cast_natCast, ← div_eq_mul_inv] at h
  exact h

/-- Binary32 rounding of a scaled natural in the binade that the shift `sh` locates. -/
theorem binary32_binade (s sh d : ℕ) (h1 : 2 ^ (sh + 23) ≤ s) (h2 : s < 2 ^ (sh + 24))
    (hd : d ≤ 149) :
    binary32 ((s : ℚ) / 2 ^ d) = ((rneQuot s (2 ^ sh) * 2 ^ sh : ℕ) : ℚ) / 2 ^ d := by
  have hdpos : (0 : ℚ) < 2 ^ d := by positivity
  have hspos : (0 : ℚ) < (s : ℚ) := by
    have : 0 < s := lt_of_lt_of_le (by positivity) h1
    exact_mod_cast this
  have hxpos : (0 : ℚ) < (s : ℚ) / 2 ^ d := div_pos hspos hdpos
  have hx : (s : ℚ) / 2 ^ d ≠ 0 := ne_of_gt hxpos
  have h1q : (2 : ℚ) ^ (sh + 23) ≤ (s : ℚ) := by exact_mod_cast h1
  have h2q : (s : ℚ) < (2 : ℚ) ^ (sh + 24) := by exact_mod_cast h2
  have hlog : ilog2 ((s : ℚ) / 2 ^ d) = (sh : ℤ) + 23 - d := by
    apply ilog2_unique
    · rw [abs_of_pos hxpos, zpow_sub₀ (by norm_num), zpow_natCast,
        div_le_div_iff_of_pos_right hdpos]
      have : ((sh : ℤ) + 23) = ((sh + 23 : ℕ) : ℤ) := by push_cast; ring
      rw [this, zpow_natCast]
      exact h1q
    · rw [abs_of_pos hxpos]
      have he : ((sh : ℤ) + 23 - d + 1) = ((sh + 24 : ℕ) : ℤ) - (d : ℤ) := by push_cast; ring
      rw [he, zpow_sub₀ (by norm_num), zpow_natCast, zpow_natCast,
        div_lt_div_iff_of_pos_right hdpos]
      exact h2q
  have hulp : ulpExp 24 (-149) ((s : ℚ) / 2 ^ d) = (sh : ℤ) - d := by
    unfold ulpExp
    rw [hlog]
    push_cast
    rw [max_eq_left (by omega)]
    ring
  have hquot : (s : ℚ) / 2 ^ d / 2 ^ ((sh : ℤ) - d) = (s : ℚ) / ((2 ^ sh : ℕ) : ℚ) := by
    rw [zpow_sub₀ (by norm_num), zpow_natCast, zpow_natCast]
    push_cast
    field_simp
  unfold binary32
  rw [roundTo_of_ne _ _ _ hx, hulp, hquot, roundEven_natCast_div _ _ (by positivity),
    zpow_sub₀ (by norm_num), zpow_natCast, zpow_natCast]
  push_cast
  field_simp

theorem accStep_sound (inc k sh k' sh' : ℕ) (h : accStep inc k sh = some (k', sh')) :
    binary32 (((k + inc : ℕ) : ℚ) / 2 ^ 36) = (k' : ℚ) / 2 ^ 36 ∧ k' < 2 ^ 36 := by
  unfold accStep at h
  simp only [] at h
  generalize (if k + inc < 2 ^ (sh + 24) then sh else sh + 1) = t at h
  split at h
  · rename_i hc
    obtain ⟨hcase, hlt⟩ := hc
    simp only [Option.some.injEq, Prod.mk.injEq] at h
    obtain ⟨hk, rfl⟩ := h
    subst hk
    refine ⟨?_, hlt⟩
    rcases hcase with ⟨hs, h0⟩ | ⟨hb1, hb2⟩
    · subst h0
      rw [pow_zero, rneQuot_one, mul_one]
      exact binary32_small (k + inc) 36 hs (by norm_num)
    · exact binary32_binade (k + inc) t 36 hb1 hb2 (by norm_num)
  · exact absurd h (by simp)

theorem seqNat_eq {α : Type} (n : ℕ) (k : ℕ → α) : seqNat n k = k n := by
  cases n <;> rfl

theorem phaseStep_of_accStep (rate : ℚ) (inc k sh k' sh' : ℕ)
    (hinc : binary32 (rate / 48000) = (inc : ℚ) / 2 ^ 36)
    (h : accStep inc k sh = some (k', sh')) :
    phaseWraps binary32 rate ((k : ℚ) / 2 ^ 36) = false ∧
    phaseStep binary32 rate ((k : ℚ) / 2 ^ 36) = (k' : ℚ) / 2 ^ 36 := by
  obtain ⟨hb, hlt⟩ := accStep_sound inc k sh k' sh' h
  have hsum : (k : ℚ) / 2 ^ 36 + binary32 (rate / 48000) = ((k + inc : ℕ) : ℚ) / 2 ^ 36 := by
    rw [hinc]; push_cast; ring
  have hk' : (k' : ℚ) / 2 ^ 36 < 1 := by
    rw [div_lt_one (by positivity)]
    exact_mod_cast hlt
  have hw : phaseWraps binary32 rate ((k : ℚ) / 2 ^ 36) = false := by
    unfold phaseWraps
    rw [hsum, hb]
    simpa using hk'
  refine ⟨hw, ?_⟩
  unfold phaseStep
  rw [hw, hsum, hb]
  simp

theorem accRun_sound (rate : ℚ) (inc : ℕ) (hinc : binary32 (rate / 48000) = (inc : ℚ) / 2 ^ 36)
    (n : ℕ) : ∀ a b : ℕ × ℕ, accRun inc n a = some b →
      phaseEvents binary32 rate n ((a.1 : ℚ) / 2 ^ 36) = List.replicate n false ∧
      phaseAfter binary32 rate n ((a.1 : ℚ) / 2 ^ 36) = (b.1 : ℚ) / 2 ^ 36 := by
  induction n with
  | zero =>
    intro a b h
    simp only [accRun, Option.some.injEq] at h
    subst h
    simp [phaseEvents, phaseAfter]
  | succ n ih =>
    intro a b h
    unfold accRun at h
    cases hstep : accStep inc a.1 a.2 with
    | none => rw [hstep] at h; exact absurd h (by simp)
    | some c =>
      rw [hstep] at h
      simp only [seqNat_eq] at h
      obtain ⟨hw, hs⟩ := phaseStep_of_accStep rate inc a.1 a.2 c.1 c.2 hinc hstep
      obtain ⟨h1, h2⟩ := ih (c.1, c.2) b h
      simp only [phaseEvents, phaseAfter, hw, hs, List.replicate_succ]
      exact ⟨by rw [h1], h2⟩

theorem phaseAfter_add (rnd : ℚ → ℚ) (rate : ℚ) (n m : ℕ) :
    ∀ p : ℚ, phaseAfter rnd rate (n + m) p = phaseAfter rnd rate m (phaseAfter rnd rate n p) := by
  induction n with
  | zero => intro p; simp [phaseAfter]
  | succ n ih => intro p; rw [Nat.succ_add]; simp only [phaseAfter]; exact ih _

theorem phaseEvents_add (rnd : ℚ → ℚ) (rate : ℚ) (n m : ℕ) :
    ∀ p : ℚ, phaseEvents rnd rate (n + m) p
      = phaseEvents rnd rate n p ++ phaseEvents rnd rate m (phaseAfter rnd rate n p) := by
  induction n with
  | zero => intro p; simp [phaseEvents, phaseAfter]
  | succ n ih =>
    intro p
    rw [Nat.succ_add]
    simp only [phaseEvents, phaseAfter, List.cons_append]
    rw [ih]

theorem accChain_sound (rate : ℚ) (inc : ℕ) (hinc : binary32 (rate / 48000) = (inc : ℚ) / 2 ^ 36)
    (n : ℕ) (l : List (ℕ × ℕ)) : ∀ a : ℕ × ℕ, accChain inc n (a :: l) = true →
      phaseEvents binary32 rate (n * l.length) ((a.1 : ℚ) / 2 ^ 36)
        = List.replicate (n * l.length) false ∧
      phaseAfter binary32 rate (n * l.length) ((a.1 : ℚ) / 2 ^ 36)
        = ((l.getLastD a).1 : ℚ) / 2 ^ 36 := by
  induction l with
  | nil => intro a _; simp [phaseEvents, phaseAfter]
  | cons b l ih =>
    intro a h
    simp only [accChain, Bool.and_eq_true, decide_eq_true_eq] at h
    obtain ⟨h1, h2⟩ := accRun_sound rate inc hinc n a b h.1
    obtain ⟨h3, h4⟩ := ih b h.2
    have hlen : n * (b :: l).length = n + n * l.length := by
      simp only [List.length_cons]; ring
    rw [hlen, phaseEvents_add, phaseAfter_add, h1, h2, h3, h4, List.getLastD_cons]
    exact ⟨(List.replicate_add n (n * l.length) false).symm, rfl⟩

theorem binary32_increment : binary32 (6 / 48000) = ((8589935 : ℕ) : ℚ) / 2 ^ 36 := by
  decide!

set_option maxRecDepth 1000000 in
theorem phaseCheckpoints_chain : accChain 8589935 500 phaseCheckpoints = true := by
  decide!

/-- In binary32, at rate 6, the first 8000 samples after phase `0` are no wrap events, and
    the phase is then `68716064768 / 2 ^ 36 = 16776383 / 2 ^ 24`, which is below `1`. -/
theorem binary32_8000 :
    phaseEvents binary32 6 8000 0 = List.replicate 8000 false ∧
    phaseAfter binary32 6 8000 0 = 68716064768 / 2 ^ 36 := by
  have h := accChain_sound 6 8589935 binary32_increment 500 phaseCheckpoints.tail (0, 0)
    phaseCheckpoints_chain
  have hlen : 500 * phaseCheckpoints.tail.length = 8000 := by decide
  have hlast : phaseCheckpoints.tail.getLastD (0, 0) = (68716064768, 12) := by decide
  have h0 : ((((0, 0) : ℕ × ℕ).1 : ℕ) : ℚ) / 2 ^ 36 = 0 := by norm_num
  have h1 : ((((68716064768, 12) : ℕ × ℕ).1 : ℕ) : ℚ) = 68716064768 := by norm_num
  rw [hlen, hlast, h0, h1] at h
  exact h

theorem binary32_8001 : phaseWraps binary32 6 (68716064768 / 2 ^ 36) = true := by
  decide!

theorem exact_phase (n : ℕ) : ∀ k : ℕ, k + n ≤ 7999 →
    phaseEvents (fun x => x) 6 n ((k : ℚ) / 8000) = List.replicate n false ∧
    phaseAfter (fun x => x) 6 n ((k : ℚ) / 8000) = ((k + n : ℕ) : ℚ) / 8000 := by
  induction n with
  | zero => intro k _; simp [phaseEvents, phaseAfter]
  | succ n ih =>
    intro k hk
    have hsum : (k : ℚ) / 8000 + 6 / 48000 = ((k + 1 : ℕ) : ℚ) / 8000 := by
      push_cast; ring
    have hlt : ((k + 1 : ℕ) : ℚ) / 8000 < 1 := by
      rw [div_lt_one (by norm_num)]
      have : k + 1 < 8000 := by omega
      exact_mod_cast this
    have hw : phaseWraps (fun x => x) 6 ((k : ℚ) / 8000) = false := by
      unfold phaseWraps
      simp only [hsum]
      simpa using hlt
    have hs : phaseStep (fun x => x) 6 ((k : ℚ) / 8000) = ((k + 1 : ℕ) : ℚ) / 8000 := by
      unfold phaseStep
      rw [hw]
      simp only [hsum]
      simp
    obtain ⟨h1, h2⟩ := ih (k + 1) (by omega)
    simp only [phaseEvents, phaseAfter, hw, hs, List.replicate_succ]
    refine ⟨by rw [h1], ?_⟩
    rw [h2]
    congr 2
    omega

/-- In real arithmetic, at rate 6, the first wrap event after phase `0` is sample 8000. -/
theorem exact_8000 :
    phaseEvents (fun x => x) 6 8000 0 = List.replicate 7999 false ++ [true] := by
  obtain ⟨h1, h2⟩ := exact_phase 7999 0 (by norm_num)
  have h0 : ((0 : ℕ) : ℚ) / 8000 = 0 := by norm_num
  rw [h0] at h1 h2
  have hw : phaseWraps (fun x => x) 6 (((0 + 7999 : ℕ) : ℚ) / 8000) = true := by
    unfold phaseWraps
    norm_num
  have hlast : phaseEvents (fun x => x) 6 1 (((0 + 7999 : ℕ) : ℚ) / 8000) = [true] := by
    simp only [phaseEvents, hw]
  rw [show (8000 : ℕ) = 7999 + 1 from rfl, phaseEvents_add, h1, h2, hlast]

theorem wraps_eq (P : Platform) (s : State) :
    wraps P s = phaseWraps P.f32 s.LFORate1 s.phaseAccumLFO1 := rfl

theorem sample_phase_eq (P : Platform) (s : State) (x : ℚ) :
    (sample P s x).phaseAccumLFO1 = phaseStep P.f32 s.LFORate1 s.phaseAccumLFO1 := by
  rw [sample_phase, lfo_phase, wraps_eq]
  rfl

theorem runFrames_oscillator (P : Platform) (main_xn sub_xn : ℕ → ℚ) (n : ℕ) :
    ∀ (o : ℕ) (s : State),
      (sampleStates P main_xn n o s).map (wraps P)
        = phaseEvents P.f32 s.LFORate1 n s.phaseAccumLFO1 ∧
      (runFrames P main_xn sub_xn n o s).state.phaseAccumLFO1
        = phaseAfter P.f32 s.LFORate1 n s.phaseAccumLFO1 ∧
      (runFrames P main_xn sub_xn n o s).state.LFORate1 = s.LFORate1 := by
  induction n with
  | zero => intro o s; simp [sampleStates, runFrames, phaseEvents, phaseAfter]
  | succ n ih =>
    intro o s
    obtain ⟨h1, h2, h3⟩ := ih (o + 2) (sample P s (main_xn o))
    rw [sample_LFORate1, sample_phase_eq] at h1 h2
    rw [sample_LFORate1] at h3
    refine ⟨?_, h2, h3⟩
    simp only [sampleStates, List.map_cons, phaseEvents, h1, wraps_eq]

theorem frames_le_sum (calls : List Call) :
    ∀ c ∈ calls, c.frames ≤ (calls.map Call.frames).sum := by
  induction calls with
  | nil => intro c hc; simp at hc
  | cons d ds ih =>
    intro c hc
    simp only [List.map_cons, List.sum_cons]
    rcases List.mem_cons.1 hc with rfl | h
    · omega
    · have := ih c h
      omega

theorem runUnrolled_oscillator (P : Platform) (calls : List Call) :
    ∀ s : State, (∀ c ∈ calls, c.isProcess = true) → (∀ c ∈ calls, c.frames < 2 ^ 31) →
      wrapEvents P s calls
        = phaseEvents P.f32 s.LFORate1 (calls.map Call.frames).sum s.phaseAccumLFO1 := by
  induction calls with
  | nil => intro s _ _; simp [wrapEvents, runStates, phaseEvents]
  | cons c cs ih =>
    intro s hp hf
    have hps : ∀ c' ∈ cs, c'.isProcess = true := fun c' h' => hp c' (List.mem_cons_of_mem _ h')
    have hfs : ∀ c' ∈ cs, c'.frames < 2 ^ 31 := fun c' h' => hf c' (List.mem_cons_of_mem _ h')
    cases c with
    | init platform api => simpa [Call.isProcess] using hp _ (List.mem_cons_self _ _)
    | param index value => simpa [Call.isProcess] using hp _ (List.mem_cons_self _ _)
    | process main_xn sub_xn frames =>
      have hfr : frames < 2 ^ 31 := hf _ (List.mem_cons_self _ _)
      obtain ⟨h1, h2, h3⟩ := runFrames_oscillator P main_xn sub_xn frames 0 s
      have h4 := ih (runFrames P main_xn sub_xn frames 0 s).state hps hfs
      rw [h2, h3] at h4
      simp only [wrapEvents] at h4 ⊢
      simp only [runStates, callStates, stepUnrolled, loopCount_of_lt hfr, List.map_append,
        List.map_cons, List.sum_cons, Call.frames, h1, h4, phaseEvents_add]

theorem isInit_of_isProcess (calls : List Call) (h : ∀ c ∈ calls, c.isProcess = true) :
    ∀ c ∈ calls, c.isInit = false := by
  intro c hc
  have := h c hc
  cases c <;> simp_all [Call.isProcess, Call.isInit]

theorem count_true_replicate_false (n : ℕ) (l : List Bool) :
    (List.replicate n false ++ l).count true = l.count true := by
  rw [List.count_append, List.count_replicate]
  simp

/-- The wrap events and the table index after `MODFX_INIT` and `MODFX_PROCESS` calls only,
    in terms of the oscillator on its own. -/
theorem wrapEvents_after_init (P : Platform) (s₀ : State) (platform api : ℕ)
    (calls : List Call) (hproc : ∀ c ∈ calls, c.isProcess = true)
    (hsum : (calls.map Call.frames).sum < 2 ^ 31) :
    wrapEvents P (MODFX_INIT P s₀ platform api) calls
        = phaseEvents P.f32 (P.f32 6) (calls.map Call.frames).sum 0 ∧
    (run P (MODFX_INIT P s₀ platform api) calls).map State.randomIndex
        = some ((phaseEvents P.f32 (P.f32 6) (calls.map Call.frames).sum 0).count true
            % 1024) := by
  have hf : ∀ c ∈ calls, c.frames < 2 ^ 31 :=
    fun c hc => lt_of_le_of_lt (frames_le_sum calls c hc) hsum
  have h1 := runUnrolled_oscillator P calls (MODFX_INIT P s₀ platform api) hproc hf
  have h2 := (runUnrolled_index P calls (MODFX_INIT P s₀ platform api) 0
    (isInit_of_isProcess calls hproc) rfl).1
  refine ⟨h1, ?_⟩
  rw [run_eq, Option.map_some', h2, Nat.zero_add, h1]
  rfl

/-- C4, as stated, fails: on an IEEE platform the 8000 samples processed after `MODFX_INIT`
    contain no wrap event and `randomIndex` is still `0` after them.  The binary32
    increment `6 / 48000` is not `1 / 8000`, and 8000 rounded additions of it reach
    `16776383 / 2 ^ 24`, which is below `1`. -/
theorem C4_counterexample :
    wrapEvents (ieeePlatform (fun _ => 0) (fun _ => 0))
        (MODFX_INIT (ieeePlatform (fun _ => 0) (fun _ => 0))
          (initialGlobals (ieeePlatform (fun _ => 0) (fun _ => 0))) 0 0)
        [Call.process (fun _ => 0) (fun _ => 0) 8000]
      = List.replicate 8000 false ∧
    (run (ieeePlatform (fun _ => 0) (fun _ => 0))
        (MODFX_INIT (ieeePlatform (fun _ => 0) (fun _ => 0))
          (initialGlobals (ieeePlatform (fun _ => 0) (fun _ => 0))) 0 0)
        [Call.process (fun _ => 0) (fun _ => 0) 8000]).map State.randomIndex = some 0 := by
  have h6 : binary32 6 = 6 := by simpa using binary32_rounding.exact_int 6 0 (by norm_num)
  obtain ⟨h1, h2⟩ := wrapEvents_after_init (ieeePlatform (fun _ => 0) (fun _ => 0))
    (initialGlobals (ieeePlatform (fun _ => 0) (fun _ => 0))) 0 0
    [Call.process (fun _ => 0) (fun _ => 0) 8000]
    (by intro c hc; simp at hc; subst hc; rfl) (by simp [Call.frames])
  have hs : ([Call.process (fun _ => 0) (fun _ => 0) 8000].map Call.frames).sum = 8000 := by
    simp [Call.frames]
  have hf : (ieeePlatform (fun _ => 0) (fun _ => 0)).f32 = binary32 := rfl
  rw [hs, hf, h6, binary32_8000.1] at h1 h2
  refine ⟨h1, ?_⟩
  rw [h2, List.count_replicate]
  simp

/-- C4, amended: after `MODFX_INIT` and with no parameter changes, (a) in real arithmetic
    processing exactly 8000 samples in total, in any split into blocks, produces exactly one
    wrap event, on the 8000th sample, and `randomIndex` goes from 0 to 1; (b) in IEEE
    binary32 arithmetic the first 8000 samples produce no wrap event, and processing
    exactly 8001 samples in total, in any split into blocks, produces exactly one wrap
    event, on the 8001st sample, and `randomIndex` goes from 0 to 1. -/
theorem C4_first_wrap (randTable : ℕ → ℚ) (q31_to_f32 : ℤ → ℚ) (s₀ : State)
    (platform api : ℕ) (calls : List Call) (hproc : ∀ c ∈ calls, c.isProcess = true) :
    ((calls.map Call.frames).sum = 8000 →
      wrapEvents (exactPlatform randTable q31_to_f32)
          (MODFX_INIT (exactPlatform randTable q31_to_f32) s₀ platform api) calls
        = List.replicate 7999 false ++ [true] ∧
      (run (exactPlatform randTable q31_to_f32)
          (MODFX_INIT (exactPlatform randTable q31_to_f32) s₀ platform api) calls).map
        State.randomIndex = some 1) ∧
    ((calls.map Call.frames).sum = 8001 →
      wrapEvents (ieeePlatform randTable q31_to_f32)
          (MODFX_INIT (ieeePlatform randTable q31_to_f32) s₀ platform api) calls
        = List.replicate 8000 false ++ [true] ∧
      (run (ieeePlatform randTable q31_to_f32)
          (MODFX_INIT (ieeePlatform randTable q31_to_f32) s₀ platform api) calls).map
        State.randomIndex = some 1) := by
  constructor
  · intro hsum
    obtain ⟨h1, h2⟩ := wrapEvents_after_init (exactPlatform randTable q31_to_f32) s₀
      platform api calls hproc (by rw [hsum]; norm_num)
    have hf : (exactPlatform randTable q31_to_f32).f32 = fun x => x := rfl
    rw [hsum, hf, exact_8000] at h1 h2
    refine ⟨h1, ?_⟩
    rw [h2, count_true_replicate_false]
    rfl
  · intro hsum
    obtain ⟨h1, h2⟩ := wrapEvents_after_init (ieeePlatform randTable q31_to_f32) s₀
      platform api calls hproc (by rw [hsum]; norm_num)
    have h6 : binary32 6 = 6 := by simpa using binary32_rounding.exact_int 6 0 (by norm_num)
    have hf : (ieeePlatform randTable q31_to_f32).f32 = binary32 := rfl
    have hev : phaseEvents binary32 6 8001 0 = List.replicate 8000 false ++ [true] := by
      have hlast : phaseEvents binary32 6 1 (68716064768 / 2 ^ 36) = [true] := by
        simp only [phaseEvents, binary32_8001]
      rw [show (8001 : ℕ) = 8000 + 1 from rfl, phaseEvents_add, binary32_8000.1,
        binary32_8000.2, hlast]
    rw [hsum, hf, h6, hev] at h1 h2
    refine ⟨h1, ?_⟩
    rw [h2, count_true_replicate_false]
    rfl

/-- C4, amended, for the 8001 samples split into blocks of 5000 and 3001 and the 8000
    samples in one block. -/
theorem C4_first_wrap_witness :
    (∀ c ∈ [Call.process (fun _ => 0) (fun _ => 0) 8000], c.isProcess = true) ∧
    (∀ c ∈ [Call.process (fun i => (i : ℚ)) (fun _ => 0) 5000,
        Call.process (fun _ => 1) (fun _ => 0) 3001], c.isProcess = true) ∧
    (([Call.process (fun _ => 0) (fun _ => 0) 8000].map Call.frames).sum = 8000 →
      wrapEvents (exactPlatform (fun _ => 0) (fun _ => 0))
          (MODFX_INIT (exactPlatform (fun _ => 0) (fun _ => 0)) demoState 0 0)
          [Call.process (fun _ => 0) (fun _ => 0) 8000]
        = List.replicate 7999 false ++ [true] ∧
      (run (exactPlatform (fun _ => 0) (fun _ => 0))
          (MODFX_INIT (exactPlatform (fun _ => 0) (fun _ => 0)) demoState 0 0)
          [Call.process (fun _ => 0) (fun _ => 0) 8000]).map
        State.randomIndex = some 1) ∧
    (([Call.process (fun i => (i : ℚ)) (fun _ => 0) 5000,
        Call.process (fun _ => 1) (fun _ => 0) 3001].map Call.frames).sum = 8001 →
      wrapEvents (ieeePlatform (fun _ => 0) (fun _ => 0))
          (MODFX_INIT (ieeePlatform (fun _ => 0) (fun _ => 0)) demoState 0 0)
          [Call.process (fun i => (i : ℚ)) (fun _ => 0) 5000,
            Call.process (fun _ => 1) (fun _ => 0) 3001]
        = List.replicate 8000 false ++ [true] ∧
      (run (ieeePlatform (fun _ => 0) (fun _ => 0))
          (MODFX_INIT (ieeePlatform (fun _ => 0) (fun _ => 0)) demoState 0 0)
          [Call.process (fun i => (i : ℚ)) (fun _ => 0) 5000,
            Call.process (fun _ => 1) (fun _ => 0) 3001]).map
        State.randomIndex = some 1) :=
  ⟨by simp [Call.isProcess], by simp [Call.isProcess],
    (C4_first_wrap (fun _ => 0) (fun _ => 0) demoState 0 0
      [Call.process (fun _ => 0) (fun _ => 0) 8000] (by simp [Call.isProcess])).1,
    (C4_first_wrap (fun _ => 0) (fun _ => 0) demoState 0 0
      [Call.process (fun i => (i : ℚ)) (fun _ => 0) 5000,
        Call.process (fun _ => 1) (fun _ => 0) 3001] (by simp [Call.isProcess])).2⟩

/-! ## C11: the precomputed depth -/

theorem lfo_valDepth (P : Platform) (s : State) : (lfo P s).valDepth = s.valDepth := by
  unfold lfo
  split <;> rfl

theorem sample_valDepth (P : Platform) (s : State) (x : ℚ) :
    (sample P s x).valDepth = s.valDepth := lfo_valDepth P s

theorem runFrames_depth (P : Platform) (main_xn sub_xn : ℕ → ℚ) (n : ℕ) :
    ∀ (o : ℕ) (s : State),
      (runFrames P main_xn sub_xn n o s).state.effectDepth = s.effectDepth ∧
      (runFrames P main_xn sub_xn n o s).state.valDepth = s.valDepth := by
  induction n with
  | zero => intro o s; exact ⟨rfl, rfl⟩
  | succ n ih =>
    intro o s
    obtain ⟨h1, h2⟩ := ih (o + 2) (sample P s (main_xn o))
    rw [sample_effectDepth] at h1
    rw [sample_valDepth] at h2
    exact ⟨h1, h2⟩

theorem stepUnrolled_depth (P : Platform) (hP : P.Lawful) (s : State) (c : Call) :
    ((s.effectDepth = P.f32 (s.valDepth * MAX_FREQUENCY_DEVIATION) ∨ s.effectDepth = 800) →
      ((stepUnrolled P s c).effectDepth
          = P.f32 ((stepUnrolled P s c).valDepth * MAX_FREQUENCY_DEVIATION) ∨
        (stepUnrolled P s c).effectDepth = 800)) ∧
    (c.isInit = false → s.effectDepth = P.f32 (s.valDepth * MAX_FREQUENCY_DEVIATION) →
      (stepUnrolled P s c).effectDepth
        = P.f32 ((stepUnrolled P s c).valDepth * MAX_FREQUENCY_DEVIATION)) := by
  have h800 : P.f32 800 = 800 := by simpa using hP.f32.exact_int 800 0 (by norm_num)
  cases c with
  | init platform api =>
    refine ⟨fun _ => Or.inr ?_, fun h => by simp [Call.isInit] at h⟩
    show P.f32 INITIAL_FREQUENCY_DEVIATION = 800
    exact h800
  | process main_xn sub_xn frames =>
    obtain ⟨h1, h2⟩ := runFrames_depth P main_xn sub_xn (loopCount frames) 0 s
    simp only [stepUnrolled, h1, h2]
    exact ⟨id, fun _ h => h⟩
  | param index value =>
    match index with
    | 0 => exact ⟨id, fun _ h => h⟩
    | 1 => exact ⟨fun _ => Or.inl rfl, fun _ _ => rfl⟩
    | _ + 2 => exact ⟨id, fun _ h => h⟩

theorem runUnrolled_depth (P : Platform) (hP : P.Lawful) (calls : List Call) :
    ∀ s : State,
      ((s.effectDepth = P.f32 (s.valDepth * MAX_FREQUENCY_DEVIATION) ∨ s.effectDepth = 800) →
        ((runUnrolled P s calls).effectDepth
            = P.f32 ((runUnrolled P s calls).valDepth * MAX_FREQUENCY_DEVIATION) ∨
          (runUnrolled P s calls).effectDepth = 800)) ∧
      ((∀ c ∈ calls, c.isInit = false) →
        s.effectDepth = P.f32 (s.valDepth * MAX_FREQUENCY_DEVIATION) →
        (runUnrolled P s calls).effectDepth
          = P.f32 ((runUnrolled P s calls).valDepth * MAX_FREQUENCY_DEVIATION)) := by
  induction calls with
  | nil => intro s; exact ⟨id, fun _ h => h⟩
  | cons c cs ih =>
    intro s
    obtain ⟨h1, h2⟩ := stepUnrolled_depth P hP s c
    obtain ⟨h3, h4⟩ := ih (stepUnrolled P s c)
    refine ⟨fun h => h3 (h1 h), fun hc h => ?_⟩
    exact h4 (fun c' h' => hc c' (List.mem_cons_of_mem _ h'))
      (h2 (hc c (List.mem_cons_self _ _)) h)

/-- C11, as stated, fails: `MODFX_INIT` called on the initial globals sets the effect depth
    to `INITIAL_FREQUENCY_DEVIATION = 800` while the stored knob value `valDepth` is `0`. -/
theorem C11_counterexample :
    (run (ieeePlatform (fun _ => 0) (fun _ => 0))
        (initialGlobals (ieeePlatform (fun _ => 0) (fun _ => 0))) [Call.init 0 0]).map
      (fun s => (s.effectDepth, s.valDepth * 1100)) = some (800, 0) := by
  decide!

/-! ## C12: the number of passes -/

theorem loopCount_eq_mod (frames : ℕ) : loopCount frames = frames % 2 ^ 31 := by
  unfold loopCount; omega

theorem runFrames_main_yn_length (P : Platform) (main_xn sub_xn : ℕ → ℚ) (n : ℕ) :
    ∀ (o : ℕ) (s : State), (runFrames P main_xn sub_xn n o s).main_yn.length = 2 * n := by
  induction n with
  | zero => intro o s; rfl
  | succ n ih => intro o s; simp [runFrames, ih]; omega

theorem sampleStates_length (P : Platform) (main_xn : ℕ → ℚ) (n : ℕ) :
    ∀ (o : ℕ) (s : State), (sampleStates P main_xn n o s).length = n := by
  induction n with
  | zero => intro o s; rfl
  | succ n ih => intro o s; simp [sampleStates, ih]

/-- C12, as stated, fails: for the frame count `2 ^ 31` the product `2*frames` is `0` in
    32-bit unsigned arithmetic, the end pointer equals `main_yn`, and the sample loop runs
    no pass and stores nothing. -/
theorem C12_counterexample :
    MODFX_PROCESS (exactPlatform (fun _ => 0) (fun _ => 0)) demoState (fun _ => 0)
      (fun _ => 0) (2 ^ 31) = some ⟨demoState, [], []⟩ ∧ (2 : ℕ) ^ 31 < 2 ^ 32 := by
  refine ⟨?_, by norm_num⟩
  rw [ MODFX_PROCESS_eq]
  have hc : loopCount (2 ^ 31) = 0 := by unfold loopCount; norm_num
  rw [hc]
  rfl

/-- C12, amended: for every frame count `n`, `MODFX_PROCESS` returns after exactly
    `n mod 2 ^ 31` passes of its sample loop (the end pointer being `my + 2*frames` with
    the product taken in 32-bit unsigned arithmetic) and has stored that many stereo pairs
    through each of `main_yn` and `sub_yn`; for `n < 2 ^ 31` these are exactly `n` passes
    and `2 * n` floats per buffer. -/
theorem C12_loop_count (P : Platform) (s : State) (main_xn sub_xn : ℕ → ℚ) (frames : ℕ) :
    ∃ r, MODFX_PROCESS P s main_xn sub_xn frames = some r ∧
      r = runFrames P main_xn sub_xn (frames % 2 ^ 31) 0 s ∧
      (sampleStates P main_xn (loopCount frames) 0 s).length = frames % 2 ^ 31 ∧
      r.main_yn.length = 2 * (frames % 2 ^ 31) ∧
      r.sub_yn.length = 2 * (frames % 2 ^ 31) ∧
      (frames < 2 ^ 31 →
        r = runFrames P main_xn sub_xn frames 0 s ∧
        r.main_yn.length = 2 * frames ∧ r.sub_yn.length = 2 * frames) := by
  refine ⟨_, MODFX_PROCESS_eq P s main_xn sub_xn frames, ?_, ?_, ?_, ?_, ?_⟩
  · rw [loopCount_eq_mod]
  · rw [sampleStates_length, loopCount_eq_mod]
  · rw [runFrames_main_yn_length, loopCount_eq_mod]
  · rw [runFrames_sub_yn_length, loopCount_eq_mod]
  · intro h
    rw [runFrames_main_yn_length, runFrames_sub_yn_length, loopCount_of_lt h]
    exact ⟨rfl, rfl, rfl⟩

/-! ## C13: the main channel -/

theorem runFrames_main_yn (P : Platform) (main_xn sub_xn : ℕ → ℚ) (n : ℕ) :
    ∀ (o : ℕ) (s : State) (i : ℕ), i < n →
      ∃ t, (sampleStates P main_xn n o s)[i]? = some t ∧
        (runFrames P main_xn sub_xn n o s).main_yn[2 * i]?
          = some (filter P (lfo P t) (main_xn (o + 2 * i))).L ∧
        (runFrames P main_xn sub_xn n o s).main_yn[2 * i + 1]?
          = some (filter P (lfo P t) (main_xn (o + 2 * i))).L := by
  induction n with
  | zero => intro o s i hi; omega
  | succ n ih =>
    intro o s i hi
    cases i with
    | zero => exact ⟨s, by simp [sampleStates], by simp [runFrames, sample], by simp [runFrames, sample]⟩
    | succ i =>
      obtain ⟨t, h1, h2, h3⟩ := ih (o + 2) (sample P s (main_xn o)) i (by omega)
      have ho : o + 2 + 2 * i = o + 2 * (i + 1) := by omega
      have e1 : 2 * (i + 1) = 2 * i + 1 + 1 := by omega
      have e2 : 2 * (i + 1) + 1 = 2 * i + 1 + 1 + 1 := by omega
      rw [ho] at h2 h3
      refine ⟨t, by simpa [sampleStates] using h1, ?_, ?_⟩
      · rw [e1]; simpa [runFrames] using h2
      · rw [e2]; simpa [runFrames] using h3

theorem runFrames_congr (P : Platform) (main_xn sub_xn main_xn' sub_xn' : ℕ → ℚ) (n : ℕ) :
    ∀ (o : ℕ) (s : State), (∀ i, main_xn' (o + 2 * i) = main_xn (o + 2 * i)) →
      (runFrames P main_xn' sub_xn' n o s).state = (runFrames P main_xn sub_xn n o s).state ∧
      (runFrames P main_xn' sub_xn' n o s).main_yn
        = (runFrames P main_xn sub_xn n o s).main_yn := by
  induction n with
  | zero => intro o s _; exact ⟨rfl, rfl⟩
  | succ n ih =>
    intro o s h
    have h0 : main_xn' o = main_xn o := by simpa using h 0
    have hs : ∀ i, main_xn' (o + 2 + 2 * i) = main_xn (o + 2 + 2 * i) := by
      intro i
      have := h (i + 1)
      rwa [show o + 2 * (i + 1) = o + 2 + 2 * i by omega] at this
    obtain ⟨h1, h2⟩ := ih (o + 2) (sample P s (main_xn o)) hs
    simp only [runFrames, h0]
    exact ⟨h1, by rw [h2]⟩

/-- C13, as stated, fails: for the frame count `n = 2 ^ 31` the sample loop runs no pass,
    so nothing is stored at `main_yn[0]` and `main_yn[1]` although frame `0 < n`. -/
theorem C13_counterexample :
    ¬ ∀ (P : Platform) (s : State) (main_xn sub_xn : ℕ → ℚ) (frames : ℕ), frames < 2 ^ 32 →
        ∃ r, MODFX_PROCESS P s main_xn sub_xn frames = some r ∧
          ∀ i, i < frames → ∃ v, r.main_yn[2 * i]? = some v ∧ r.main_yn[2 * i + 1]? = some v := by
  intro h
  obtain ⟨r, hr, hi⟩ := h (exactPlatform (fun _ => 0) (fun _ => 0)) demoState (fun _ => 0)
    (fun _ => 0) (2 ^ 31) (by norm_num)
  rw [ MODFX_PROCESS_eq] at hr
  have hc : loopCount (2 ^ 31) = 0 := by unfold loopCount; norm_num
  rw [hc] at hr
  obtain ⟨v, h0, _⟩ := hi 0 (by norm_num)
  rw [← Option.some.inj hr] at h0
  simp [runFrames] at h0

/-- C13, amended: for every state, every input block, every frame count `n < 2 ^ 31` and
    every frame `i < n`, `MODFX_PROCESS` stores the same value at `main_yn[2*i]` and
    `main_yn[2*i+1]`, the low-pass output `L` of the filter step run on the left input
    `main_xn[2*i]` in the state the oscillator leaves for frame `i`; and for every frame
    count the main output and the final state do not depend on the right-channel inputs
    `main_xn[2*i+1]` nor on `sub_xn`. -/
theorem C13_main_output (P : Platform) (s : State) (main_xn sub_xn : ℕ → ℚ) (frames : ℕ) :
    ∃ r, MODFX_PROCESS P s main_xn sub_xn frames = some r ∧
      (frames < 2 ^ 31 → ∀ i, i < frames →
        ∃ t, (sampleStates P main_xn frames 0 s)[i]? = some t ∧
          r.main_yn[2 * i]? = some (filter P (lfo P t) (main_xn (2 * i))).L ∧
          r.main_yn[2 * i + 1]? = some (filter P (lfo P t) (main_xn (2 * i))).L) ∧
      ∀ main_xn' sub_xn' : ℕ → ℚ, (∀ i, main_xn' (2 * i) = main_xn (2 * i)) →
        ∃ r', MODFX_PROCESS P s main_xn' sub_xn' frames = some r' ∧
          r'.state = r.state ∧ r'.main_yn = r.main_yn := by
  refine ⟨_, MODFX_PROCESS_eq P s main_xn sub_xn frames, ?_, ?_⟩
  · intro hf i hi
    rw [loopCount_of_lt hf]
    obtain ⟨t, h1, h2, h3⟩ := runFrames_main_yn P main_xn sub_xn frames 0 s i hi
    rw [Nat.zero_add] at h2 h3
    exact ⟨t, h1, h2, h3⟩
  · intro main_xn' sub_xn' h
    refine ⟨_, MODFX_PROCESS_eq P s main_xn' sub_xn' frames, ?_⟩
    exact runFrames_congr P main_xn sub_xn main_xn' sub_xn' _ 0 s (by simpa using h)

/-! ## C14: the filter step -/

/-- C14: one filter step is the Chamberlin recurrence in float arithmetic, with `F1` the
    product `TWOPI * F / SAMPLE_RATE` (`TWOPI = 6.283185307`) rounded to `float`:
    `L = D2 + F1*D1`, `H = x - L - Q*D1`, `B = F1*H + D1`, `N = H + L`, new `D1 = B`, new
    `D2 = L`; without rounding these are the real formulas; and the results depend on
    the state through `F`, `Q`, `D1`, `D2` only. -/
theorem C14_filter_step (P : Platform) (s : State) (x : ℚ) :
    (filter P s x).F1 = P.f32 (P.f64 (P.f64 (P.f64 TWOPI * s.F) / SAMPLE_RATE)) ∧
    (filter P s x).L = P.f32 (s.D2 + P.f32 ((filter P s x).F1 * s.D1)) ∧
    (filter P s x).H = P.f32 (P.f32 (x - (filter P s x).L) - P.f32 (s.Q * s.D1)) ∧
    (filter P s x).B = P.f32 (P.f32 ((filter P s x).F1 * (filter P s x).H) + s.D1) ∧
    (filter P s x).N = P.f32 ((filter P s x).H + (filter P s x).L) ∧
    (filter P s x).D1 = (filter P s x).B ∧
    (filter P s x).D2 = (filter P s x).L ∧
    ((∀ y, P.f32 y = y) → (∀ y, P.f64 y = y) →
      (filter P s x).F1 = TWOPI * s.F / 48000 ∧
      (filter P s x).L = s.D2 + (TWOPI * s.F / 48000) * s.D1 ∧
      (filter P s x).D2 = s.D2 + (TWOPI * s.F / 48000) * s.D1 ∧
      (filter P s x).D1
        = (TWOPI * s.F / 48000)
            * (x - (s.D2 + (TWOPI * s.F / 48000) * s.D1) - s.Q * s.D1) + s.D1) ∧
    ∀ s' : State, s'.F = s.F → s'.Q = s.Q → s'.D1 = s.D1 → s'.D2 = s.D2 →
      (filter P s' x).L = (filter P s x).L ∧
      (filter P s' x).D1 = (filter P s x).D1 ∧
      (filter P s' x).D2 = (filter P s x).D2 ∧
      (filter P s' x).F1 = (filter P s x).F1 ∧
      (filter P s' x).H = (filter P s x).H ∧
      (filter P s' x).B = (filter P s x).B ∧
      (filter P s' x).N = (filter P s x).N := by
  refine ⟨rfl, rfl, rfl, rfl, rfl, rfl, rfl, ?_, ?_⟩
  · intro h32 h64
    simp [filter, h32, h64, SAMPLE_RATE]
  · intro s' hF hQ hD1 hD2
    simp [filter, hF, hQ, hD1, hD2]

/-! ## C18: splitting a block -/

theorem runFrames_add (P : Platform) (main_xn sub_xn : ℕ → ℚ) (n m : ℕ) :
    ∀ (o : ℕ) (s : State),
      (runFrames P main_xn sub_xn (n + m) o s).state
        = (runFrames P main_xn sub_xn m (o + 2 * n)
            (runFrames P main_xn sub_xn n o s).state).state ∧
      (runFrames P main_xn sub_xn (n + m) o s).main_yn
        = (runFrames P main_xn sub_xn n o s).main_yn
          ++ (runFrames P main_xn sub_xn m (o + 2 * n)
              (runFrames P main_xn sub_xn n o s).state).main_yn ∧
      (runFrames P main_xn sub_xn (n + m) o s).sub_yn
        = (runFrames P main_xn sub_xn n o s).sub_yn
          ++ (runFrames P main_xn sub_xn m (o + 2 * n)
              (runFrames P main_xn sub_xn n o s).state).sub_yn := by
  induction n with
  | zero => intro o s; simp [runFrames]
  | succ n ih =>
    intro o s
    obtain ⟨h1, h2, h3⟩ := ih (o + 2) (sample P s (main_xn o))
    have ho : o + 2 + 2 * n = o + 2 * (n + 1) := by omega
    rw [ho] at h1 h2 h3
    rw [Nat.succ_add]
    simp only [runFrames, List.cons_append]
    exact ⟨h1, by rw [h2], by rw [h3]⟩

theorem runFrames_shift (P : Platform) (main_xn sub_xn : ℕ → ℚ) (k n : ℕ) :
    ∀ (o : ℕ) (s : State),
      runFrames P (fun i => main_xn (k + i)) (fun i => sub_xn (k + i)) n o s
        = runFrames P main_xn sub_xn n (k + o) s := by
  induction n with
  | zero => intro o s; rfl
  | succ n ih =>
    intro o s
    simp only [runFrames]
    rw [ih (o + 2)]
    rfl

/-- C18, as stated, fails: with `n = m = 2 ^ 30` the single call gets the frame count
    `2 ^ 31`, for which the sample loop runs no pass and stores nothing, while the call on
    the first `n` frames stores `2 ^ 31` floats through `main_yn`. -/
theorem C18_counterexample :
    ¬ ∀ (P : Platform) (s : State) (main_xn sub_xn : ℕ → ℚ) (n m : ℕ), n + m < 2 ^ 32 →
        ∃ r r₁ r₂, MODFX_PROCESS P s main_xn sub_xn (n + m) = some r ∧
          MODFX_PROCESS P s main_xn sub_xn n = some r₁ ∧
          MODFX_PROCESS P r₁.state (fun i => main_xn (2 * n + i)) (fun i => sub_xn (2 * n + i)) m
            = some r₂ ∧
          r.main_yn = r₁.main_yn ++ r₂.main_yn := by
  intro h
  obtain ⟨r, r₁, r₂, h0, h1, _, h3⟩ := h (exactPlatform (fun _ => 0) (fun _ => 0)) demoState
    (fun _ => 0) (fun _ => 0) (2 ^ 30) (2 ^ 30) (by norm_num)
  rw [ MODFX_PROCESS_eq] at h0 h1
  have hc : loopCount (2 ^ 30 + 2 ^ 30) = 0 := by unfold loopCount; norm_num
  have hc1 : loopCount (2 ^ 30) = 2 ^ 30 := by unfold loopCount; norm_num
  rw [hc] at h0
  rw [hc1] at h1
  have hl := congrArg List.length h3
  rw [← Option.some.inj h0, ← Option.some.inj h1, List.length_append,
    runFrames_main_yn_length, runFrames_main_yn_length] at hl
  omega

/-- C18, amended: for every state, every `n` and `m` with `n + m < 2 ^ 31` and every input
    of `n + m` frames, one `MODFX_PROCESS` call on the `n + m` frames yields the same
    outputs (concatenated) and the same final state as a call on the first `n` frames
    followed by a call on the remaining `m` frames. -/
theorem C18_split (P : Platform) (s : State) (main_xn sub_xn : ℕ → ℚ) (n m : ℕ)
    (hnm : n + m < 2 ^ 31) :
    ∃ r r₁ r₂, MODFX_PROCESS P s main_xn sub_xn (n + m) = some r ∧
      MODFX_PROCESS P s main_xn sub_xn n = some r₁ ∧
      MODFX_PROCESS P r₁.state (fun i => main_xn (2 * n + i)) (fun i => sub_xn (2 * n + i)) m
        = some r₂ ∧
      r.state = r₂.state ∧
      r.main_yn = r₁.main_yn ++ r₂.main_yn ∧
      r.sub_yn = r₁.sub_yn ++ r₂.sub_yn := by
  refine ⟨_, _, _, MODFX_PROCESS_eq P s main_xn sub_xn (n + m),
    MODFX_PROCESS_eq P s main_xn sub_xn n, MODFX_PROCESS_eq P _ _ _ m, ?_⟩
  rw [loopCount_of_lt hnm, loopCount_of_lt (by omega : n < 2 ^ 31),
    loopCount_of_lt (by omega : m < 2 ^ 31), runFrames_shift]
  have h := runFrames_add P main_xn sub_xn n m 0 s
  rw [Nat.zero_add] at h
  rw [Nat.add_zero]
  exact h

/-- C18, amended, for a block of five frames split after two, on an IEEE platform. -/
theorem C18_split_witness :
    2 + 3 < 2 ^ 31 ∧
    ∃ r r₁ r₂, MODFX_PROCESS (ieeePlatform (fun _ => 1) (fun _ => 0)) demoState
          (fun i => (i : ℚ)) (fun i => (i : ℚ) / 2) (2 + 3) = some r ∧
      MODFX_PROCESS (ieeePlatform (fun _ => 1) (fun _ => 0)) demoState
          (fun i => (i : ℚ)) (fun i => (i : ℚ) / 2) 2 = some r₁ ∧
      MODFX_PROCESS (ieeePlatform (fun _ => 1) (fun _ => 0)) r₁.state
          (fun i => (fun i : ℕ => (i : ℚ)) (2 * 2 + i))
          (fun i => (fun i : ℕ => (i : ℚ) / 2) (2 * 2 + i)) 3 = some r₂ ∧
      r.state = r₂.state ∧
      r.main_yn = r₁.main_yn ++ r₂.main_yn ∧
      r.sub_yn = r₁.sub_yn ++ r₂.sub_yn :=
  ⟨by norm_num, C18_split _ demoState _ _ 2 3 (by norm_num)⟩

/-! ## C20: unit gain at rest -/

theorem lfo_of_wraps (P : Platform) (s : State) (h : wraps P s = true) :
    lfo P s = wrapLFO P (advancePhase P s) := by
  simp [lfo, h]

theorem lfo_wrap_draw (P : Platform) (s : State) (h : wraps P s = true) :
    (lfo P s).F = P.f32 (CENTRE_FREQUENCY + P.f32 (P.randTable s.randomIndex * s.effectDepth)) ∧
    (lfo P s).randomIndex = (s.randomIndex + 1) &&& 0x3FF := by
  rw [lfo_of_wraps P s h]
  refine ⟨rfl, ?_⟩
  show ((s.randomIndex + 1) % 2 ^ 16) &&& RANDOM_TABLE_MASK = (s.randomIndex + 1) &&& 0x3FF
  rw [mask_succ]
  have h : (0x3FF : ℕ) = 2 ^ 10 - 1 := by norm_num
  rw [h, Nat.and_pow_two_sub_one_eq_mod]

theorem lfo_no_wrap_keep (P : Platform) (s : State) (h : wraps P s = false) :
    (lfo P s).F = s.F ∧ (lfo P s).randomIndex = s.randomIndex := by
  rw [lfo_of_not_wraps P s h]
  exact ⟨rfl, rfl⟩

theorem held_sample (P : Platform) (d : ℚ) (k : ℕ) (t : State) (x : ℚ) (h : Held P d k t) :
    Held P d (k + (if wraps P t then 1 else 0)) (sample P t x) ∧
    (1 ≤ k + (if wraps P t then 1 else 0) →
      (lfo P t).F = drawnCutoff P d (k + (if wraps P t then 1 else 0))) := by
  obtain ⟨hi, hd, hF⟩ := h
  have hidx := sample_index_step P t x k hi
  have hdep : (sample P t x).effectDepth = d := by rw [sample_effectDepth, hd]
  by_cases hw : wraps P t = true
  · have hdraw : (lfo P t).F = drawnCutoff P d (k + 1) := by
      rw [(lfo_wrap_draw P t hw).1, hi, hd]
      rfl
    simp only [hw, if_true] at hidx ⊢
    exact ⟨⟨hidx, hdep, fun _ => by rw [sample_F, hdraw]⟩, fun _ => hdraw⟩
  · have hw' : wraps P t = false := by simpa using hw
    have hkeep : (lfo P t).F = t.F := (lfo_no_wrap_keep P t hw').1
    simp only [hw', Bool.false_eq_true, if_false, Nat.add_zero] at hidx ⊢
    exact ⟨⟨hidx, hdep, fun hk => by rw [sample_F, hkeep, hF hk]⟩,
      fun hk => by rw [hkeep, hF hk]⟩

theorem count_true_cons (w : Bool) (l : List Bool) :
    (w :: l).count true = (if w then 1 else 0) + l.count true := by
  cases w <;> simp [Nat.add_comm]

theorem sampleStates_held (P : Platform) (d : ℚ) (main_xn sub_xn : ℕ → ℚ) (n : ℕ) :
    ∀ (o : ℕ) (s : State) (k : ℕ), Held P d k s →
      (∀ j t, (sampleStates P main_xn n o s)[j]? = some t →
        Held P d (k + (((sampleStates P main_xn n o s).map (wraps P)).take j).count true) t) ∧
      Held P d (k + ((sampleStates P main_xn n o s).map (wraps P)).count true)
        (runFrames P main_xn sub_xn n o s).state := by
  induction n with
  | zero =>
    intro o s k h
    simp [sampleStates, runFrames, h]
  | succ n ih =>
    intro o s k h
    obtain ⟨h1, h2⟩ := ih (o + 2) (sample P s (main_xn o)) _ (held_sample P d k s _ h).1
    refine ⟨?_, ?_⟩
    · intro j t hj
      cases j with
      | zero =>
        simp only [sampleStates, List.getElem?_cons_zero, Option.some.injEq] at hj
        subst hj
        simpa using h
      | succ j =>
        simp only [sampleStates, List.getElem?_cons_succ] at hj
        have := h1 j t hj
        simp only [sampleStates, List.map_cons, List.take_succ_cons, count_true_cons]
        rwa [Nat.add_assoc] at this
    · simp only [sampleStates, List.map_cons, count_true_cons, runFrames]
      rwa [Nat.add_assoc] at h2

theorem held_stepUnrolled_param (P : Platform) (d : ℚ) (k : ℕ) (s : State) (index : ℕ)
    (value : ℤ) (hc : (Call.param index value).setsDepth = false) (h : Held P d k s) :
    Held P d k (MODFX_PARAM P s index value) := by
  match index, hc with
  | 0, _ => exact h
  | 1, hc => simp [Call.setsDepth] at hc
  | _ + 2, _ => exact h

theorem runStates_held (P : Platform) (d : ℚ) (calls : List Call) :
    ∀ (s : State) (k : ℕ), Held P d k s → (∀ c ∈ calls, c.setsDepth = false) →
      (∀ j t, (runStates P s calls)[j]? = some t →
        Held P d (k + ((wrapEvents P s calls).take j).count true) t) ∧
      Held P d (k + (wrapEvents P s calls).count true) (runUnrolled P s calls) := by
  induction calls with
  | nil =>
    intro s k h _
    simp [runStates, wrapEvents, runUnrolled, h]
  | cons c cs ih =>
    intro s k h hc
    have hcs : ∀ c' ∈ cs, c'.setsDepth = false := fun c' h' => hc c' (List.mem_cons_of_mem _ h')
    have hc0 := hc c (List.mem_cons_self _ _)
    cases c with
    | init platform api => simp [Call.setsDepth] at hc0
    | param index value =>
      have h' := held_stepUnrolled_param P d k s index value hc0 h
      obtain ⟨h1, h2⟩ := ih _ k h' hcs
      simpa [runStates, callStates, wrapEvents, runUnrolled, stepUnrolled] using ⟨h1, h2⟩
    | process main_xn sub_xn frames =>
      obtain ⟨h1, h2⟩ := sampleStates_held P d main_xn sub_xn (loopCount frames) 0 s k h
      obtain ⟨h3, h4⟩ := ih _ _ h2 hcs
      have hlen : ((sampleStates P main_xn (loopCount frames) 0 s).map (wraps P)).length
          = (sampleStates P main_xn (loopCount frames) 0 s).length := List.length_map _ _
      refine ⟨?_, ?_⟩
      · intro j t hj
        simp only [runStates, callStates, wrapEvents, stepUnrolled, List.map_append] at hj ⊢
        rw [List.take_append_eq_append_take, List.count_append, hlen]
        rcases Nat.lt_or_ge j (sampleStates P main_xn (loopCount frames) 0 s).length with hlt | hge
        · rw [List.getElem?_append_left hlt] at hj
          have := h1 j t hj
          rw [Nat.sub_eq_zero_of_le (le_of_lt hlt), List.take_zero, List.count_nil,
            Nat.add_zero]
          exact this
        · rw [List.getElem?_append_right hge] at hj
          have := h3 _ t hj
          rw [List.take_of_length_le (by rw [hlen]; exact hge), ← Nat.add_assoc]
          exact this
      · simp only [runStates, callStates, wrapEvents, stepUnrolled, runUnrolled,
          List.map_append, List.count_append] at h4 ⊢
        rw [← Nat.add_assoc]
        exact h4

theorem tableReads_length (P : Platform) (l : List State) :
    ((l.filter (wraps P)).map State.randomIndex).length = (l.map (wraps P)).count true ∧
    ((l.filter (wraps P)).map State.randomIndex).length ≤ l.length := by
  induction l with
  | nil => simp
  | cons t l ih =>
    by_cases hw : wraps P t = true
    · simp only [List.filter_cons, hw, if_true, List.map_cons, List.length_cons,
        List.count_cons_self]
      omega
    · have hw' : wraps P t = false := by simpa using hw
      simp only [List.filter_cons, hw', Bool.false_eq_true, if_false, List.map_cons,
        List.length_cons]
      rw [List.count_cons_of_ne (by simp)]
      omega

theorem count_take_succ (l : List State) (f : State → Bool) (j : ℕ) (t : State)
    (h : l[j]? = some t) :
    ((l.map f).take (j + 1)).count true
      = ((l.map f).take j).count true + (if f t then 1 else 0) := by
  have h' : (l.map f)[j]? = some (f t) := by simp [h]
  rw [List.take_succ, h', List.count_append]
  cases f t <;> simp

/-- C16: on every wrap event the new cutoff target is the float value of
    `CENTRE_FREQUENCY + randTable[i] * effectDepth` (without rounding,
    `1200 + randTable[i] * effectDepth`), `i` being `randomIndex` before the wrap, and
    `randomIndex` becomes `(i + 1) & 0x3FF`; a sample that is no wrap event keeps both.
    So after `MODFX_INIT` and calls that leave `effectDepth` alone, the cutoff used by a
    sample at or after the `k`-th wrap event and before the next one, and the cutoff left
    at the end, is the float value of `1200 + randTable[(k - 1) mod 1024] * effectDepth`;
    and the table reads are as many as the wrap events, at most one per sample. -/
theorem C16_wrap_draw (P : Platform) :
    (∀ s : State, wraps P s = true →
      (lfo P s).F
        = P.f32 (CENTRE_FREQUENCY + P.f32 (P.randTable s.randomIndex * s.effectDepth)) ∧
      (lfo P s).randomIndex = (s.randomIndex + 1) &&& 0x3FF) ∧
    (∀ s : State, wraps P s = false →
      (lfo P s).F = s.F ∧ (lfo P s).randomIndex = s.randomIndex) ∧
    ((∀ y, P.f32 y = y) → ∀ s : State, wraps P s = true →
      (lfo P s).F = 1200 + P.randTable s.randomIndex * s.effectDepth) ∧
    (∀ (s₀ : State) (platform api : ℕ) (calls : List Call),
      (∀ c ∈ calls, c.setsDepth = false) →
      (∀ j, j < (runStates P (MODFX_INIT P s₀ platform api) calls).length →
        1 ≤ ((wrapEvents P (MODFX_INIT P s₀ platform api) calls).take (j + 1)).count true →
        (runCutoffs P (MODFX_INIT P s₀ platform api) calls)[j]?
          = some (P.f32 (CENTRE_FREQUENCY + P.f32 (P.randTable
              ((((wrapEvents P (MODFX_INIT P s₀ platform api) calls).take (j + 1)).count true
                - 1) % 1024) * (MODFX_INIT P s₀ platform api).effectDepth)))) ∧
      (1 ≤ (wrapEvents P (MODFX_INIT P s₀ platform api) calls).count true →
        (run P (MODFX_INIT P s₀ platform api) calls).map State.F
          = some (P.f32 (CENTRE_FREQUENCY + P.f32 (P.randTable
              (((wrapEvents P (MODFX_INIT P s₀ platform api) calls).count true - 1) % 1024)
                * (MODFX_INIT P s₀ platform api).effectDepth))))) ∧
    ∀ (s : State) (calls : List Call),
      (tableReads P s calls).length = (wrapEvents P s calls).count true ∧
      (tableReads P s calls).length ≤ (runStates P s calls).length := by
  refine ⟨lfo_wrap_draw P, lfo_no_wrap_keep P, ?_, ?_, ?_⟩
  · intro hid s hw
    rw [(lfo_wrap_draw P s hw).1, hid, hid]
    rfl
  · intro s₀ platform api calls hc
    have h0 : Held P (MODFX_INIT P s₀ platform api).effectDepth 0
        (MODFX_INIT P s₀ platform api) := ⟨rfl, rfl, fun h => absurd h (by norm_num)⟩
    obtain ⟨h1, h2⟩ := runStates_held P _ calls _ 0 h0 hc
    refine ⟨?_, ?_⟩
    · intro j hj hk
      obtain ⟨t, ht⟩ : ∃ t, (runStates P (MODFX_INIT P s₀ platform api) calls)[j]? = some t :=
        ⟨_, List.getElem?_eq_getElem hj⟩
      have hheld := h1 j t ht
      have hcount : ((wrapEvents P (MODFX_INIT P s₀ platform api) calls).take (j + 1)).count true
          = ((wrapEvents P (MODFX_INIT P s₀ platform api) calls).take j).count true
            + (if wraps P t then 1 else 0) := count_take_succ _ (wraps P) j t ht
      rw [Nat.zero_add] at hheld
      have hk' : 1 ≤ ((wrapEvents P (MODFX_INIT P s₀ platform api) calls).take j).count true
          + (if wraps P t then 1 else 0) := by
        rw [← hcount]; exact hk
      have hF := (held_sample P _ _ t 0 hheld).2 hk'
      simp only [runCutoffs, List.getElem?_map, ht, Option.map_some']
      rw [hF]
      rw [hcount]
      rfl
    · intro hk
      rw [run_eq, Option.map_some']
      rw [Nat.zero_add] at h2
      rw [h2.2.2 hk]
      rfl
  · intro s calls
    exact tableReads_length P (runStates P s calls)

/-! ## C17: the fractional remainder -/

theorem lfo_phase_fract (P : Platform) (hP : P.Lawful) (s : State) (hw : wraps P s = true)
    (hb : (advancePhase P s).phaseAccumLFO1 < 2 ^ 32) :
    (lfo P s).phaseAccumLFO1 = Int.fract (advancePhase P s).phaseAccumLFO1 := by
  have h1 : 1 ≤ (advancePhase P s).phaseAccumLFO1 := by simpa [wraps] using hw
  have h1' : 1 ≤ P.f32 (s.phaseAccumLFO1 + P.f32 (s.LFORate1 / 48000)) := h1
  rw [lfo_phase, if_pos hw, castU32_eq_floor h1 hb]
  show P.f32 (P.f32 (s.phaseAccumLFO1 + P.f32 (s.LFORate1 / 48000))
      - P.f32 (⌊P.f32 (s.phaseAccumLFO1 + P.f32 (s.LFORate1 / 48000))⌋ : ℚ)) = _
  rw [hP.f32.exact_floor _ h1', hP.f32.exact_fract _ h1']
  rfl

theorem exact_phaseStep (c p : ℚ) (hc0 : 0 ≤ c) (hc1 : c ≤ 2 ^ 32 - 1) (hp0 : 0 ≤ p)
    (hp1 : p < 1) : phaseStep (fun x => x) (c * 48000) p = Int.fract (p + c) := by
  have hrate : c * 48000 / 48000 = c := by field_simp
  unfold phaseStep phaseWraps
  simp only [hrate]
  by_cases h : 1 ≤ p + c
  · have hlt : p + c < 2 ^ 32 := by linarith
    rw [if_pos (by simpa using h), castU32_eq_floor h hlt]
    rfl
  · rw [if_neg (by simpa using h)]
    exact (Int.fract_eq_self.2 ⟨by linarith, lt_of_not_le h⟩).symm

theorem exact_phaseAfter (c : ℚ) (hc0 : 0 ≤ c) (hc1 : c ≤ 2 ^ 32 - 1) (n : ℕ) :
    ∀ p : ℚ, 0 ≤ p → p < 1 →
      phaseAfter (fun x => x) (c * 48000) n p = Int.fract (p + n * c) := by
  induction n with
  | zero =>
    intro p hp0 hp1
    simp only [phaseAfter, Nat.cast_zero, zero_mul, add_zero]
    exact (Int.fract_eq_self.2 ⟨hp0, hp1⟩).symm
  | succ n ih =>
    intro p hp0 hp1
    simp only [phaseAfter]
    rw [exact_phaseStep c p hc0 hc1 hp0 hp1,
      ih _ (Int.fract_nonneg _) (Int.fract_lt_one _)]
    have h : Int.fract (p + c) + (n : ℚ) * c = (p + ((n + 1 : ℕ) : ℚ) * c) - (⌊p + c⌋ : ℚ) := by
      rw [Int.fract]; push_cast; ring
    rw [h, Int.fract_sub_int]

/-- C17, as stated, fails.  On an IEEE platform, from phase `0` at rate `6`, the phase after
    8000 samples is `16776383 / 2 ^ 24`, not the fractional part `0` of `8000 * 6 / 48000`.
    In real arithmetic, at the rate `48000 * (2 ^ 32 - 1/2)`, whose quotient by `48000` is
    below `2 ^ 32`, the second sample advances the phase to `2 ^ 32`, outside the range of
    the cast, and the phase after two samples is not the fractional part `0` of
    `2 ^ 33 - 1`. -/
theorem C17_counterexample :
    (runFrames (ieeePlatform (fun _ => 0) (fun _ => 0)) (fun _ => 0) (fun _ => 0) 8000 0
        demoState).state.phaseAccumLFO1 = 16776383 / 2 ^ 24 ∧
    Int.fract ((8000 : ℚ) * (demoState.LFORate1 / 48000)) = 0 ∧
    (runFrames (exactPlatform (fun _ => 0) (fun _ => 0)) (fun _ => 0) (fun _ => 0) 2 0
        { demoState with LFORate1 := 48000 * (2 ^ 32 - 1 / 2) }).state.phaseAccumLFO1
      = 2 ^ 32 ∧
    Int.fract ((2 : ℚ) * ((48000 * (2 ^ 32 - 1 / 2)) / 48000)) = 0 := by
  refine ⟨?_, ?_, ?_, ?_⟩
  · rw [(runFrames_oscillator _ _ _ 8000 0 demoState).2.1]
    show phaseAfter binary32 6 8000 0 = _
    rw [binary32_8000.2]
    norm_num
  · have h : (8000 : ℚ) * (demoState.LFORate1 / 48000) = ((1 : ℤ) : ℚ) := by
      norm_num [demoState]
    rw [h, Int.fract_intCast]
  · rw [(runFrames_oscillator _ _ _ 2 0 _).2.1]
    decide!
  · have h : (2 : ℚ) * ((48000 * (2 ^ 32 - 1 / 2)) / 48000) = ((2 ^ 33 - 1 : ℤ) : ℚ) := by
      norm_num
    rw [h, Int.fract_intCast]

/-- C17, amended: on a lawful platform a wrap keeps the fractional remainder: when the
    advanced phase is at least `1` and below `2 ^ 32`, the phase after the wrap is its
    fractional part, not `0`.  In real arithmetic, for a constant rate `r` with
    `0 ≤ r / 48000 ≤ 2 ^ 32 - 1` and starting phase `0`, the phase after processing
    `n < 2 ^ 31` samples is the fractional part of `n * r / 48000`. -/
theorem C17_fractional_remainder (P : Platform) (hP : P.Lawful) :
    (∀ s : State, wraps P s = true → (advancePhase P s).phaseAccumLFO1 < 2 ^ 32 →
      (lfo P s).phaseAccumLFO1 = Int.fract (advancePhase P s).phaseAccumLFO1) ∧
    ∀ (randTable : ℕ → ℚ) (q31_to_f32 : ℤ → ℚ) (s : State) (main_xn sub_xn : ℕ → ℚ)
      (frames : ℕ), s.phaseAccumLFO1 = 0 → 0 ≤ s.LFORate1 / 48000 →
      s.LFORate1 / 48000 ≤ 2 ^ 32 - 1 → frames < 2 ^ 31 →
      ∃ r, MODFX_PROCESS (exactPlatform randTable q31_to_f32) s main_xn sub_xn frames
          = some r ∧
        r.state.phaseAccumLFO1 = Int.fract ((frames : ℚ) * (s.LFORate1 / 48000)) := by
  refine ⟨fun s hw hb => lfo_phase_fract P hP s hw hb, ?_⟩
  intro randTable q31_to_f32 s main_xn sub_xn frames hp hc0 hc1 hf
  refine ⟨_, MODFX_PROCESS_eq _ s main_xn sub_xn frames, ?_⟩
  rw [loopCount_of_lt hf, (runFrames_oscillator _ main_xn sub_xn frames 0 s).2.1, hp]
  have hrate : s.LFORate1 = s.LFORate1 / 48000 * 48000 := by field_simp
  have h := exact_phaseAfter (s.LFORate1 / 48000) hc0 hc1 frames 0 le_rfl (by norm_num)
  rw [← hrate, zero_add] at h
  exact h

/-- C17, amended, on an IEEE platform for the wrap and at rate `6000` for 100 samples in
    real arithmetic. -/
theorem C17_fractional_remainder_witness :
    (∀ s : State, wraps (ieeePlatform (fun _ => 0) (fun _ => 0)) s = true →
      (advancePhase (ieeePlatform (fun _ => 0) (fun _ => 0)) s).phaseAccumLFO1 < 2 ^ 32 →
      (lfo (ieeePlatform (fun _ => 0) (fun _ => 0)) s).phaseAccumLFO1
        = Int.fract (advancePhase (ieeePlatform (fun _ => 0) (fun _ => 0)) s).phaseAccumLFO1) ∧
    ∃ r, MODFX_PROCESS (exactPlatform (fun _ => 0) (fun _ => 0))
        { demoState with LFORate1 := 6000 } (fun _ => 0) (fun _ => 0) 100 = some r ∧
      r.state.phaseAccumLFO1
        = Int.fract ((100 : ℚ) * (({ demoState with LFORate1 := 6000 } : State).LFORate1
            / 48000)) :=
  ⟨(C17_fractional_remainder (ieeePlatform (fun _ => 0) (fun _ => 0))
      (ieeePlatform_lawful _ _)).1,
    by
      have h := (C17_fractional_remainder (ieeePlatform (fun _ => 0) (fun _ => 0))
        (ieeePlatform_lawful _ _)).2 (fun _ => 0) (fun _ => 0)
        { demoState with LFORate1 := 6000 } (fun _ => 0) (fun _ => 0) 100 rfl
        (by norm_num) (by norm_num) (by norm_num)
      simpa using h⟩

/-! ## C19: the range of the cutoff -/

theorem f32_int (P : Platform) (hP : P.Lawful) (m : ℤ) (hm : |m| ≤ 2 ^ 24) :
    P.f32 (m : ℚ) = (m : ℚ) := by
  simpa using hP.f32.exact_int m 0 hm

theorem f64_int (P : Platform) (hP : P.Lawful) (m : ℤ) (hm : |m| ≤ 2 ^ 24) :
    P.f64 (m : ℚ) = (m : ℚ) := by
  simpa using hP.f64.exact_int m 0 hm

theorem f32_le (P : Platform) (hP : P.Lawful) (m : ℤ) (hm : |m| ≤ 2 ^ 24) {x : ℚ}
    (h : x ≤ m) : P.f32 x ≤ m := by
  have := hP.f32.mono _ _ h
  rwa [f32_int P hP m hm] at this

theorem le_f32 (P : Platform) (hP : P.Lawful) (m : ℤ) (hm : |m| ≤ 2 ^ 24) {x : ℚ}
    (h : (m : ℚ) ≤ x) : (m : ℚ) ≤ P.f32 x := by
  have := hP.f32.mono _ _ h
  rwa [f32_int P hP m hm] at this

theorem f64_le (P : Platform) (hP : P.Lawful) (m : ℤ) (hm : |m| ≤ 2 ^ 24) {x : ℚ}
    (h : x ≤ m) : P.f64 x ≤ m := by
  have := hP.f64.mono _ _ h
  rwa [f64_int P hP m hm] at this

theorem le_f64 (P : Platform) (hP : P.Lawful) (m : ℤ) (hm : |m| ≤ 2 ^ 24) {x : ℚ}
    (h : (m : ℚ) ≤ x) : (m : ℚ) ≤ P.f64 x := by
  have := hP.f64.mono _ _ h
  rwa [f64_int P hP m hm] at this

theorem inRange_lfo (P : Platform) (hP : P.Lawful)
    (htbl : ∀ i, i < 1024 → -1 ≤ P.randTable i ∧ P.randTable i ≤ 1) (s : State)
    (h : InRange s) : InRange (lfo P s) := by
  obtain ⟨h1, h2, h3, h4, h5⟩ := h
  by_cases hw : wraps P s = true
  · obtain ⟨hF, _⟩ := lfo_wrap_draw P s hw
    obtain ⟨ht1, ht2⟩ := htbl s.randomIndex (by omega)
    have hprod1 : ((-1100 : ℤ) : ℚ) ≤ P.randTable s.randomIndex * s.effectDepth := by
      push_cast; nlinarith
    have hprod2 : P.randTable s.randomIndex * s.effectDepth ≤ ((1100 : ℤ) : ℚ) := by
      push_cast; nlinarith
    have hr1 := le_f32 P hP (-1100) (by norm_num) hprod1
    have hr2 := f32_le P hP 1100 (by norm_num) hprod2
    push_cast at hr1 hr2
    have hs1 : ((100 : ℤ) : ℚ)
        ≤ CENTRE_FREQUENCY + P.f32 (P.randTable s.randomIndex * s.effectDepth) := by
      unfold CENTRE_FREQUENCY; push_cast; linarith
    have hs2 : CENTRE_FREQUENCY + P.f32 (P.randTable s.randomIndex * s.effectDepth)
        ≤ ((2300 : ℤ) : ℚ) := by
      unfold CENTRE_FREQUENCY; push_cast; linarith
    have hF1 := le_f32 P hP 100 (by norm_num) hs1
    have hF2 := f32_le P hP 2300 (by norm_num) hs2
    push_cast at hF1 hF2
    have hidx : (lfo P s).randomIndex ≤ 1023 := by
      rw [lfo_randomIndex, if_pos hw, mask_succ]
      omega
    exact ⟨by rw [hF]; exact hF1, by rw [hF]; exact hF2,
      by rw [lfo_effectDepth]; exact h3, by rw [lfo_effectDepth]; exact h4, hidx⟩
  · have hw' : wraps P s = false := by simpa using hw
    obtain ⟨hF, hI⟩ := lfo_no_wrap_keep P s hw'
    exact ⟨by rw [hF]; exact h1, by rw [hF]; exact h2,
      by rw [lfo_effectDepth]; exact h3, by rw [lfo_effectDepth]; exact h4,
      by rw [hI]; exact h5⟩

theorem filter_F1_lt (P : Platform) (hP : P.Lawful) (s : State) (x : ℚ)
    (h1 : 0 ≤ s.F) (h2 : s.F ≤ 2300) :
    0 ≤ (filter P s x).F1 ∧ (filter P s x).F1 < 2 := by
  have ht0 : (0 : ℚ) ≤ P.f64 TWOPI := by
    have := le_f64 P hP 0 (by norm_num) (show ((0 : ℤ) : ℚ) ≤ TWOPI by norm_num [TWOPI])
    simpa using this
  have ht7 : P.f64 TWOPI ≤ 7 := by
    have := f64_le P hP 7 (by norm_num) (show TWOPI ≤ ((7 : ℤ) : ℚ) by norm_num [TWOPI])
    simpa using this
  have hp0 : (0 : ℚ) ≤ P.f64 (P.f64 TWOPI * s.F) := by
    have := le_f64 P hP 0 (by norm_num)
      (show ((0 : ℤ) : ℚ) ≤ P.f64 TWOPI * s.F by push_cast; positivity)
    simpa using this
  have hp1 : P.f64 (P.f64 TWOPI * s.F) ≤ 16100 := by
    have := f64_le P hP 16100 (by norm_num)
      (show P.f64 TWOPI * s.F ≤ ((16100 : ℤ) : ℚ) by push_cast; nlinarith)
    simpa using this
  have hq0 : (0 : ℚ) ≤ P.f64 (P.f64 (P.f64 TWOPI * s.F) / SAMPLE_RATE) := by
    have := le_f64 P hP 0 (by norm_num)
      (show ((0 : ℤ) : ℚ) ≤ P.f64 (P.f64 TWOPI * s.F) / SAMPLE_RATE by
        unfold SAMPLE_RATE; push_cast; positivity)
    simpa using this
  have hq1 : P.f64 (P.f64 (P.f64 TWOPI * s.F) / SAMPLE_RATE) ≤ 1 := by
    have := f64_le P hP 1 (by norm_num)
      (show P.f64 (P.f64 TWOPI * s.F) / SAMPLE_RATE ≤ ((1 : ℤ) : ℚ) by
        unfold SAMPLE_RATE; push_cast; rw [div_le_one (by norm_num)]; linarith)
    simpa using this
  have hr0 := le_f32 P hP 0 (by norm_num)
    (show ((0 : ℤ) : ℚ) ≤ P.f64 (P.f64 (P.f64 TWOPI * s.F) / SAMPLE_RATE) by simpa using hq0)
  have hr1 := f32_le P hP 1 (by norm_num)
    (show P.f64 (P.f64 (P.f64 TWOPI * s.F) / SAMPLE_RATE) ≤ ((1 : ℤ) : ℚ) by simpa using hq1)
  push_cast at hr0 hr1
  exact ⟨hr0, lt_of_le_of_lt hr1 (by norm_num)⟩

theorem inRange_sample (P : Platform) (hP : P.Lawful)
    (htbl : ∀ i, i < 1024 → -1 ≤ P.randTable i ∧ P.randTable i ≤ 1) (s : State) (x : ℚ)
    (h : InRange s) : InRange (sample P s x) := inRange_lfo P hP htbl s h

theorem inRange_runFrames (P : Platform) (hP : P.Lawful)
    (htbl : ∀ i, i < 1024 → -1 ≤ P.randTable i ∧ P.randTable i ≤ 1)
    (main_xn sub_xn : ℕ → ℚ) (n : ℕ) :
    ∀ (o : ℕ) (s : State), InRange s →
      InRange (runFrames P main_xn sub_xn n o s).state ∧
      ∀ t ∈ sampleStates P main_xn n o s, InRange t := by
  induction n with
  | zero => intro o s h; exact ⟨h, by simp [sampleStates]⟩
  | succ n ih =>
    intro o s h
    obtain ⟨h1, h2⟩ := ih (o + 2) _ (inRange_sample P hP htbl s (main_xn o) h)
    refine ⟨h1, ?_⟩
    intro t ht
    simp only [sampleStates, List.mem_cons] at ht
    rcases ht with rfl | ht
    · exact h
    · exact h2 t ht

theorem inRange_init (P : Platform) (hP : P.Lawful) (s : State) (platform api : ℕ) :
    InRange (MODFX_INIT P s platform api) := by
  have h800 : P.f32 800 = 800 := by simpa using f32_int P hP 800 (by norm_num)
  refine ⟨?_, ?_, ?_, ?_, ?_⟩
  · show 100 ≤ P.f32 INITIAL_FREQUENCY
    unfold INITIAL_FREQUENCY; rw [h800]; norm_num
  · show P.f32 INITIAL_FREQUENCY ≤ 2300
    unfold INITIAL_FREQUENCY; rw [h800]; norm_num
  · show 0 ≤ P.f32 INITIAL_FREQUENCY_DEVIATION
    unfold INITIAL_FREQUENCY_DEVIATION; rw [h800]; norm_num
  · show P.f32 INITIAL_FREQUENCY_DEVIATION ≤ 1100
    unfold INITIAL_FREQUENCY_DEVIATION; rw [h800]; norm_num
  · show (0 : ℕ) ≤ 1023
    norm_num

theorem inRange_param (P : Platform) (hP : P.Lawful) (s : State) (index : ℕ) (value : ℤ)
    (hk : (Call.param index value).knobInRange P) (h : InRange s) :
    InRange (MODFX_PARAM P s index value) := by
  obtain ⟨h1, h2, h3, h4, h5⟩ := h
  obtain ⟨hv0, hv1⟩ := hk
  match index with
  | 0 => exact ⟨h1, h2, h3, h4, h5⟩
  | 1 =>
    refine ⟨h1, h2, ?_, ?_, h5⟩
    · have := le_f32 P hP 0 (by norm_num)
        (show ((0 : ℤ) : ℚ) ≤ P.q31_to_f32 value * MAX_FREQUENCY_DEVIATION by
          unfold MAX_FREQUENCY_DEVIATION; push_cast; positivity)
      simpa using this
    · have := f32_le P hP 1100 (by norm_num)
        (show P.q31_to_f32 value * MAX_FREQUENCY_DEVIATION ≤ ((1100 : ℤ) : ℚ) by
          unfold MAX_FREQUENCY_DEVIATION; push_cast; linarith)
      simpa using this
  | _ + 2 => exact ⟨h1, h2, h3, h4, h5⟩

theorem inRange_runUnrolled (P : Platform) (hP : P.Lawful)
    (htbl : ∀ i, i < 1024 → -1 ≤ P.randTable i ∧ P.randTable i ≤ 1) (calls : List Call) :
    ∀ s : State, InRange s → (∀ c ∈ calls, c.knobInRange P) →
      InRange (runUnrolled P s calls) ∧ ∀ t ∈ runStates P s calls, InRange t := by
  induction calls with
  | nil => intro s h _; exact ⟨h, by simp [runStates]⟩
  | cons c cs ih =>
    intro s h hk
    have hks : ∀ c' ∈ cs, c'.knobInRange P := fun c' h' => hk c' (List.mem_cons_of_mem _ h')
    have hk0 := hk c (List.mem_cons_self _ _)
    cases c with
    | init platform api =>
      obtain ⟨h1, h2⟩ := ih _ (inRange_init P hP s platform api) hks
      exact ⟨h1, by simpa [runStates, callStates] using h2⟩
    | param index value =>
      obtain ⟨h1, h2⟩ := ih _ (inRange_param P hP s index value hk0 h) hks
      exact ⟨h1, by simpa [runStates, callStates] using h2⟩
    | process main_xn sub_xn frames =>
      obtain ⟨h1, h2⟩ := inRange_runFrames P hP htbl main_xn sub_xn (loopCount frames) 0 s h
      obtain ⟨h3, h4⟩ := ih _ h1 hks
      refine ⟨h3, ?_⟩
      intro t ht
      simp only [runStates, callStates, List.mem_append] at ht
      rcases ht with ht | ht
      · exact h2 t ht
      · exact h4 t ht

/-- C19: on a lawful platform, if every entry of `randTable` lies in `[-1, 1]` and every
    knob value passed to `MODFX_PARAM` converts to a float in `[0, 1]`, then in every state
    reached from `MODFX_INIT` by a sequence of calls the cutoff target satisfies
    `100 ≤ F ≤ 2300` and `0 ≤ effectDepth ≤ 1100`, and every filter step uses a cutoff in
    `[100, 2300]` and a coefficient `F1` with `0 ≤ F1 < 2`. -/
theorem C19_cutoff_range (P : Platform) (hP : P.Lawful)
    (htbl : ∀ i, i < 1024 → -1 ≤ P.randTable i ∧ P.randTable i ≤ 1)
    (s₀ : State) (platform api : ℕ) (calls : List Call)
    (hknob : ∀ c ∈ calls, c.knobInRange P) :
    ∃ s, run P (MODFX_INIT P s₀ platform api) calls = some s ∧
      100 ≤ s.F ∧ s.F ≤ 2300 ∧ 0 ≤ s.effectDepth ∧ s.effectDepth ≤ 1100 ∧
      ∀ t ∈ runStates P (MODFX_INIT P s₀ platform api) calls,
        100 ≤ (lfo P t).F ∧ (lfo P t).F ≤ 2300 ∧
        ∀ x : ℚ, (sample P t x).F = (lfo P t).F ∧
          0 ≤ (sample P t x).F1 ∧ (sample P t x).F1 < 2 := by
  obtain ⟨h1, h2⟩ := inRange_runUnrolled P hP htbl calls _ (inRange_init P hP s₀ platform api)
    hknob
  refine ⟨_, run_eq P calls _, h1.1, h1.2.1, h1.2.2.1, h1.2.2.2.1, ?_⟩
  intro t ht
  obtain ⟨ha, hb, _⟩ := inRange_lfo P hP htbl t (h2 t ht)
  exact ⟨ha, hb, fun x => ⟨rfl, filter_F1_lt P hP (lfo P t) x (by linarith) hb⟩⟩

/-- C19 on an IEEE platform with a table of constant `-1`, for a depth change and a block. -/
theorem C19_cutoff_range_witness :
    (∀ i, i < 1024 → -1 ≤ (ieeePlatform (fun _ => -1) (fun _ => 1)).randTable i ∧
      (ieeePlatform (fun _ => -1) (fun _ => 1)).randTable i ≤ 1) ∧
    (∀ c ∈ [Call.param 1 5, Call.process (fun _ => 1) (fun _ => 0) 3],
      c.knobInRange (ieeePlatform (fun _ => -1) (fun _ => 1))) ∧
    ∃ s, run (ieeePlatform (fun _ => -1) (fun _ => 1))
        (MODFX_INIT (ieeePlatform (fun _ => -1) (fun _ => 1)) demoState 0 0)
        [Call.param 1 5, Call.process (fun _ => 1) (fun _ => 0) 3] = some s ∧
      100 ≤ s.F ∧ s.F ≤ 2300 ∧ 0 ≤ s.effectDepth ∧ s.effectDepth ≤ 1100 ∧
      ∀ t ∈ runStates (ieeePlatform (fun _ => -1) (fun _ => 1))
          (MODFX_INIT (ieeePlatform (fun _ => -1) (fun _ => 1)) demoState 0 0)
          [Call.param 1 5, Call.process (fun _ => 1) (fun _ => 0) 3],
        100 ≤ (lfo (ieeePlatform (fun _ => -1) (fun _ => 1)) t).F ∧
        (lfo (ieeePlatform (fun _ => -1) (fun _ => 1)) t).F ≤ 2300 ∧
        ∀ x : ℚ, (sample (ieeePlatform (fun _ => -1) (fun _ => 1)) t x).F
            = (lfo (ieeePlatform (fun _ => -1) (fun _ => 1)) t).F ∧
          0 ≤ (sample (ieeePlatform (fun _ => -1) (fun _ => 1)) t x).F1 ∧
          (sample (ieeePlatform (fun _ => -1) (fun _ => 1)) t x).F1 < 2 :=
  ⟨fun _ _ => by norm_num [ieeePlatform],
    by intro c hc; simp at hc; rcases hc with rfl | rfl <;> simp [Call.knobInRange, ieeePlatform],
    C19_cutoff_range _ (ieeePlatform_lawful _ _) (fun _ _ => by norm_num [ieeePlatform])
      demoState 0 0 _
      (by intro c hc; simp at hc; rcases hc with rfl | rfl <;> simp [Call.knobInRange, ieeePlatform])⟩

/-! ## C15: convergence of the filter -/

/-- The solutions of `u (n+2) = t * u (n+1) - d * u n` tend to `0` when the characteristic
    polynomial has no real root and `d < 1`. -/
theorem recurrence_tendsto_complex (t d : ℝ) (hd : d < 1) (hdisc : t ^ 2 < 4 * d) (u : ℕ → ℝ)
    (hu : ∀ n, u (n + 2) = t * u (n + 1) - d * u n) : Filter.Tendsto u Filter.atTop (nhds 0) := by
  have hd0 : 0 ≤ d := by nlinarith [sq_nonneg t]
  have hc : 0 < d - t ^ 2 / 4 := by linarith
  have hW : ∀ n, u (n + 1) ^ 2 - t * u n * u (n + 1) + d * u n ^ 2
      = d ^ n * (u 1 ^ 2 - t * u 0 * u 1 + d * u 0 ^ 2) := by
    intro n
    induction n with
    | zero => simp
    | succ n ih =>
      rw [hu n, pow_succ]
      linear_combination d * ih
  have hsq : ∀ n, u n ^ 2
      ≤ (u 1 ^ 2 - t * u 0 * u 1 + d * u 0 ^ 2) / (d - t ^ 2 / 4) * d ^ n := by
    intro n
    rw [div_mul_eq_mul_div, le_div_iff₀ hc, mul_comm _ (d ^ n), ← hW n]
    nlinarith [sq_nonneg (u (n + 1) - t / 2 * u n)]
  have hlim : Filter.Tendsto (fun n => (u 1 ^ 2 - t * u 0 * u 1 + d * u 0 ^ 2) / (d - t ^ 2 / 4)
      * d ^ n) Filter.atTop (nhds 0) := by
    have := (tendsto_pow_atTop_nhds_zero_of_lt_one hd0 hd).const_mul
      ((u 1 ^ 2 - t * u 0 * u 1 + d * u 0 ^ 2) / (d - t ^ 2 / 4))
    simpa using this
  have hsq0 : Filter.Tendsto (fun n => u n ^ 2) Filter.atTop (nhds 0) :=
    squeeze_zero (fun n => sq_nonneg _) hsq hlim
  have habs : Filter.Tendsto (fun n => |u n|) Filter.atTop (nhds 0) := by
    have := (Real.continuous_sqrt.tendsto 0).comp hsq0
    simpa [Function.comp_def, Real.sqrt_sq_eq_abs] using this
  exact (tendsto_zero_iff_abs_tendsto_zero u).2 habs

/-- The solutions of `u (n+2) = t * u (n+1) - d * u n` tend to `0` when the characteristic
    polynomial has real roots and is positive at `1` and at `-1`, and `|d| < 1`. -/
theorem recurrence_tendsto_real (t d : ℝ) (hd : |d| < 1) (h1 : 0 < 1 - t + d)
    (h2 : 0 < 1 + t + d) (hdisc : 4 * d ≤ t ^ 2) (u : ℕ → ℝ)
    (hu : ∀ n, u (n + 2) = t * u (n + 1) - d * u n) : Filter.Tendsto u Filter.atTop (nhds 0) := by
  obtain ⟨hd1, hd2⟩ := abs_lt.1 hd
  have hΔ : 0 ≤ t ^ 2 - 4 * d := by linarith
  have hs := Real.sq_sqrt hΔ
  have hs0 := Real.sqrt_nonneg (t ^ 2 - 4 * d)
  have hslt1 : √(t ^ 2 - 4 * d) < 2 - t := by
    rw [Real.sqrt_lt' (by linarith)]; nlinarith
  have hslt2 : √(t ^ 2 - 4 * d) < 2 + t := by
    rw [Real.sqrt_lt' (by linarith)]; nlinarith
  -- the two roots and a common bound `r < 1` for their absolute values
  have hl1 : |(t - √(t ^ 2 - 4 * d)) / 2| < 1 := by
    rw [abs_lt]; constructor <;> linarith
  have hl2 : |(t + √(t ^ 2 - 4 * d)) / 2| < 1 := by
    rw [abs_lt]; constructor <;> linarith
  have hsum : (t - √(t ^ 2 - 4 * d)) / 2 + (t + √(t ^ 2 - 4 * d)) / 2 = t := by ring
  have hprod : (t - √(t ^ 2 - 4 * d)) / 2 * ((t + √(t ^ 2 - 4 * d)) / 2) = d := by
    nlinarith
  generalize (t - √(t ^ 2 - 4 * d)) / 2 = a at hl1 hsum hprod
  generalize (t + √(t ^ 2 - 4 * d)) / 2 = b at hl2 hsum hprod
  have hr : ∃ r : ℝ, 0 < r ∧ r < 1 ∧ |a| ≤ r ∧ |b| ≤ r :=
    ⟨max (max |a| |b|) (1 / 2), by positivity,
      max_lt (max_lt hl1 hl2) (by norm_num),
      le_trans (le_max_left _ _) (le_max_left _ _),
      le_trans (le_max_right _ _) (le_max_left _ _)⟩
  obtain ⟨r, hr0, hr1, har, hbr⟩ := hr
  have hv : ∀ n, u (n + 1) - a * u n = b ^ n * (u 1 - a * u 0) := by
    intro n
    induction n with
    | zero => simp
    | succ n ih =>
      rw [hu n, pow_succ]
      linear_combination b * ih - u (n + 1) * hsum + u n * hprod
  have hbound : ∀ n, |u n| ≤ (|u 0| + n * (|u 1 - a * u 0| / r)) * r ^ n := by
    intro n
    induction n with
    | zero => simp
    | succ n ih =>
      have hstep : u (n + 1) = a * u n + b ^ n * (u 1 - a * u 0) := by
        linarith [hv n]
      have hbn : |b ^ n| ≤ r ^ n := by
        rw [abs_pow]; exact pow_le_pow_left₀ (abs_nonneg _) hbr n
      have hrn : 0 < r ^ n := pow_pos hr0 n
      calc |u (n + 1)| = |a * u n + b ^ n * (u 1 - a * u 0)| := by rw [hstep]
        _ ≤ |a| * |u n| + |b ^ n| * |u 1 - a * u 0| := by
            rw [← abs_mul, ← abs_mul]; exact abs_add _ _
        _ ≤ r * ((|u 0| + n * (|u 1 - a * u 0| / r)) * r ^ n) + r ^ n * |u 1 - a * u 0| := by
            gcongr
        _ = (|u 0| + ((n + 1 : ℕ) : ℝ) * (|u 1 - a * u 0| / r)) * r ^ (n + 1) := by
            push_cast
            field_simp
            ring
  have hlim : Filter.Tendsto (fun n : ℕ => (|u 0| + n * (|u 1 - a * u 0| / r)) * r ^ n)
      Filter.atTop (nhds 0) := by
    have e1 := (tendsto_pow_atTop_nhds_zero_of_lt_one (le_of_lt hr0) hr1).const_mul |u 0|
    have e2 := (tendsto_self_mul_const_pow_of_lt_one (le_of_lt hr0) hr1).const_mul
      (|u 1 - a * u 0| / r)
    have := e1.add e2
    simp only [mul_zero, add_zero] at this
    refine this.congr (fun n => ?_)
    ring
  have habs : Filter.Tendsto (fun n => |u n|) Filter.atTop (nhds 0) :=
    squeeze_zero (fun n => abs_nonneg _) hbound hlim
  exact (tendsto_zero_iff_abs_tendsto_zero u).2 habs

/-- The solutions of `u (n+2) = t * u (n+1) - d * u n` tend to `0` when `|d| < 1` and the
    characteristic polynomial is positive at `1` and at `-1`. -/
theorem recurrence_tendsto (t d : ℝ) (hd : |d| < 1) (h1 : 0 < 1 - t + d)
    (h2 : 0 < 1 + t + d) (u : ℕ → ℝ)
    (hu : ∀ n, u (n + 2) = t * u (n + 1) - d * u n) : Filter.Tendsto u Filter.atTop (nhds 0) := by
  rcases lt_or_le (t ^ 2) (4 * d) with h | h
  · exact recurrence_tendsto_complex t d (abs_lt.1 hd).2 h u hu
  · exact recurrence_tendsto_real t d hd h1 h2 h u hu

theorem filterIter_succ (P : Platform) (x : ℚ) (n : ℕ) :
    ∀ s : State, filterIter P x (n + 1) s = filter P (filterIter P x n s) x := by
  induction n with
  | zero => intro s; rfl
  | succ n ih => intro s; exact ih (filter P s x)

theorem filter_Q (P : Platform) (s : State) (x : ℚ) : (filter P s x).Q = s.Q := rfl

theorem filterIter_FQ (P : Platform) (x : ℚ) (n : ℕ) :
    ∀ s : State, (filterIter P x n s).F = s.F ∧ (filterIter P x n s).Q = s.Q := by
  induction n with
  | zero => intro s; exact ⟨rfl, rfl⟩
  | succ n ih => intro s; exact ih (filter P s x)

/-- One filter step in real arithmetic, with `f = TWOPI * F / 48000`. -/
theorem exact_filter (randTable : ℕ → ℚ) (q31_to_f32 : ℤ → ℚ) (s : State) (x : ℚ) :
    (filter (exactPlatform randTable q31_to_f32) s x).L
      = s.D2 + TWOPI * s.F / 48000 * s.D1 ∧
    (filter (exactPlatform randTable q31_to_f32) s x).D2
      = s.D2 + TWOPI * s.F / 48000 * s.D1 ∧
    (filter (exactPlatform randTable q31_to_f32) s x).D1
      = TWOPI * s.F / 48000 * (x - (s.D2 + TWOPI * s.F / 48000 * s.D1) - s.Q * s.D1)
        + s.D1 := by
  simp [filter, exactPlatform, SAMPLE_RATE]

/-- In real arithmetic the distance of the low-pass delay from the input follows a linear
    recurrence of order two. -/
theorem exact_filter_recurrence (randTable : ℕ → ℚ) (q31_to_f32 : ℤ → ℚ) (s : State) (x : ℚ)
    (n : ℕ) :
    (filterIter (exactPlatform randTable q31_to_f32) x (n + 2) s).D2 - x
      = (2 - (TWOPI * s.F / 48000) ^ 2 - TWOPI * s.F / 48000 * s.Q)
          * ((filterIter (exactPlatform randTable q31_to_f32) x (n + 1) s).D2 - x)
        - (1 - TWOPI * s.F / 48000 * s.Q)
          * ((filterIter (exactPlatform randTable q31_to_f32) x n s).D2 - x) := by
  have hF0 := (filterIter_FQ (exactPlatform randTable q31_to_f32) x n s)
  have hF1 := (filterIter_FQ (exactPlatform randTable q31_to_f32) x (n + 1) s)
  obtain ⟨_, a2, a1⟩ := exact_filter randTable q31_to_f32
    (filterIter (exactPlatform randTable q31_to_f32) x n s) x
  obtain ⟨_, b2, _⟩ := exact_filter randTable q31_to_f32
    (filterIter (exactPlatform randTable q31_to_f32) x (n + 1) s) x
  rw [← filterIter_succ] at a1 a2 b2
  rw [hF0.1, hF0.2] at a1
  rw [hF0.1] at a2
  rw [hF1.1] at b2
  rw [show n + 2 = n + 1 + 1 from rfl, b2, a1]
  linear_combination ((TWOPI * s.F / 48000) ^ 2 + TWOPI * s.F / 48000 * s.Q - 1) * a2

/-- In real arithmetic, for every constant input `x`, every cutoff `F` and every `Q` such
    that `F1 = TWOPI * F / 48000` and `Q` are positive and `F1 ^ 2 + 2 * F1 * Q < 4`, the
    low-pass outputs of the iterated filter step converge to `x`, from any delay state. -/
theorem exact_filter_tendsto (randTable : ℕ → ℚ) (q31_to_f32 : ℤ → ℚ) (s : State) (x : ℚ)
    (hF1 : 0 < TWOPI * s.F / 48000) (hQ : 0 < s.Q)
    (hstab : (TWOPI * s.F / 48000) ^ 2 + 2 * (TWOPI * s.F / 48000) * s.Q < 4) :
    Filter.Tendsto (fun n => (((filterIter (exactPlatform randTable q31_to_f32) x (n + 1) s).L : ℚ) : ℝ))
      Filter.atTop (nhds (x : ℝ)) := by
  have hL : ∀ n, (filterIter (exactPlatform randTable q31_to_f32) x (n + 1) s).L
      = (filterIter (exactPlatform randTable q31_to_f32) x (n + 1) s).D2 := by
    intro n
    rw [filterIter_succ]
    rfl
  have hfq : 0 < TWOPI * s.F / 48000 * s.Q := mul_pos hF1 hQ
  have hrec := recurrence_tendsto
    (((2 - (TWOPI * s.F / 48000) ^ 2 - TWOPI * s.F / 48000 * s.Q : ℚ)) : ℝ)
    (((1 - TWOPI * s.F / 48000 * s.Q : ℚ)) : ℝ)
    (by
      rw [abs_lt]
      constructor
      · have : (-1 : ℚ) < 1 - TWOPI * s.F / 48000 * s.Q := by nlinarith
        exact_mod_cast this
      · have : (1 - TWOPI * s.F / 48000 * s.Q : ℚ) < 1 := by linarith
        exact_mod_cast this)
    (by
      have : (0 : ℚ) < 1 - (2 - (TWOPI * s.F / 48000) ^ 2 - TWOPI * s.F / 48000 * s.Q)
          + (1 - TWOPI * s.F / 48000 * s.Q) := by nlinarith
      exact_mod_cast this)
    (by
      have : (0 : ℚ) < 1 + (2 - (TWOPI * s.F / 48000) ^ 2 - TWOPI * s.F / 48000 * s.Q)
          + (1 - TWOPI * s.F / 48000 * s.Q) := by nlinarith
      exact_mod_cast this)
    (fun n => (((filterIter (exactPlatform randTable q31_to_f32) x n s).D2 - x : ℚ) : ℝ))
    (by
      intro n
      have := exact_filter_recurrence randTable q31_to_f32 s x n
      beta_reduce
      exact_mod_cast this)
  have hshift := (Filter.tendsto_add_atTop_iff_nat 1).2 hrec
  have hadd := hshift.add_const (x : ℝ)
  rw [zero_add] at hadd
  refine hadd.congr (fun n => ?_)
  rw [hL n]
  push_cast
  ring

/-- A state with zeroed delays whose cutoff makes `F1 = 3 / 2` in real arithmetic, and
    `Q = 1`. -/
theorem unstable_closed_form (randTable : ℕ → ℚ) (q31_to_f32 : ℤ → ℚ) (n : ℕ) :
    (filterIter (exactPlatform randTable q31_to_f32) 1 n
        { demoState with F := 72000 / TWOPI, Q := 1 }).D1
      = -(2 / 3) * (-2) ^ n + 2 / 3 * (1 / 4) ^ n ∧
    (filterIter (exactPlatform randTable q31_to_f32) 1 n
        { demoState with F := 72000 / TWOPI, Q := 1 }).D2
      = 1 + 1 / 3 * (-2) ^ n - 4 / 3 * (1 / 4) ^ n := by
  have hf : TWOPI * (72000 / TWOPI) / 48000 = 3 / 2 := by norm_num [TWOPI]
  induction n with
  | zero => constructor <;> norm_num [filterIter, demoState]
  | succ n ih =>
    obtain ⟨_, a2, a1⟩ := exact_filter randTable q31_to_f32
      (filterIter (exactPlatform randTable q31_to_f32) 1 n
        { demoState with F := 72000 / TWOPI, Q := 1 }) 1
    have hFQ := filterIter_FQ (exactPlatform randTable q31_to_f32) 1 n
      { demoState with F := 72000 / TWOPI, Q := 1 }
    rw [← filterIter_succ] at a1 a2
    rw [hFQ.1, hFQ.2] at a1
    rw [hFQ.1] at a2
    simp only [] at a1 a2
    rw [hf] at a1 a2
    rw [ih.1, ih.2] at a1 a2
    constructor
    · rw [a1, pow_succ, pow_succ]; ring
    · rw [a2, pow_succ, pow_succ]; ring

set_option maxRecDepth 1000000 in
/-- C15, counterexample: with `F1 = 3 / 2 < 2` and `Q = 1`, constant input `1` and zeroed
    delays, the low-pass outputs in real arithmetic are unbounded; in binary32 arithmetic
    with the cutoff `11459` (for which `F1 < 2`) the output exceeds `2 ^ 40` in absolute
    value after 50 steps. -/
theorem C15_counterexample :
    (exactPlatform (fun _ => 0) (fun _ => 0)).f32
        ((exactPlatform (fun _ => 0) (fun _ => 0)).f64
          ((exactPlatform (fun _ => 0) (fun _ => 0)).f64
            ((exactPlatform (fun _ => 0) (fun _ => 0)).f64 TWOPI
              * ({ demoState with F := 72000 / TWOPI, Q := 1 } : State).F) / SAMPLE_RATE)) < 2 ∧
    0 < ({ demoState with F := 72000 / TWOPI, Q := 1 } : State).Q ∧
    ({ demoState with F := 72000 / TWOPI, Q := 1 } : State).Q < 2 ∧
    ({ demoState with F := 72000 / TWOPI, Q := 1 } : State).D1 = 0 ∧
    ({ demoState with F := 72000 / TWOPI, Q := 1 } : State).D2 = 0 ∧
    (∀ M : ℚ, ∃ n, M < |(filterIter (exactPlatform (fun _ => 0) (fun _ => 0)) 1 (n + 1)
        { demoState with F := 72000 / TWOPI, Q := 1 }).L|) ∧
    (filter (ieeePlatform (fun _ => 0) (fun _ => 0)) { demoState with F := 11459, Q := 1 } 1).F1
      < 2 ∧
    2 ^ 40 < |(filterIter (ieeePlatform (fun _ => 0) (fun _ => 0)) 1 50
        { demoState with F := 11459, Q := 1 }).L| := by
  refine ⟨by norm_num [exactPlatform, TWOPI, SAMPLE_RATE, demoState],
    by norm_num, by norm_num, rfl, rfl, ?_, by decide!, by decide!⟩
  intro M
  obtain ⟨n, hn⟩ := exists_nat_gt (3 * (|M| + 3))
  refine ⟨n, ?_⟩
  have hL : (filterIter (exactPlatform (fun _ => 0) (fun _ => 0)) 1 (n + 1)
        { demoState with F := 72000 / TWOPI, Q := 1 }).L
      = (filterIter (exactPlatform (fun _ => 0) (fun _ => 0)) 1 (n + 1)
        { demoState with F := 72000 / TWOPI, Q := 1 }).D2 := by
    rw [filterIter_succ]
    rfl
  rw [hL, (unstable_closed_form (fun _ => 0) (fun _ => 0) (n + 1)).2]
  have h2 : ((n : ℚ) + 1) < 2 ^ (n + 1) := by
    have := Nat.lt_two_pow (n + 1)
    exact_mod_cast this
  have h4 : (1 / 4 : ℚ) ^ (n + 1) ≤ 1 := pow_le_one₀ (by norm_num) (by norm_num)
  have h4p : (0 : ℚ) ≤ (1 / 4 : ℚ) ^ (n + 1) := by positivity
  have habs : |((-2 : ℚ)) ^ (n + 1)| = 2 ^ (n + 1) := by
    rw [abs_pow]; norm_num
  have hM : M ≤ |M| := le_abs_self M
  have key : (1 / 3 : ℚ) * |((-2 : ℚ)) ^ (n + 1)| - 1 - 4 / 3
      ≤ |1 + 1 / 3 * (-2 : ℚ) ^ (n + 1) - 4 / 3 * (1 / 4) ^ (n + 1)| := by
    rcases abs_cases ((-2 : ℚ) ^ (n + 1)) with ⟨h, _⟩ | ⟨h, _⟩
    · rw [h]
      refine le_trans ?_ (le_abs_self _)
      nlinarith
    · rw [h]
      refine le_trans ?_ (neg_le_abs _)
      nlinarith
  rw [habs] at key
  linarith

/-! ## Instances of the properties that carry no hypothesis -/

/-- In binary32 arithmetic at rate `6` from phase `0`, the 8001st sample is the first wrap
    event. -/
theorem binary32_events_8001 :
    phaseEvents binary32 6 8001 0 = List.replicate 8000 false ++ [true] := by
  have hlast : phaseEvents binary32 6 1 (68716064768 / 2 ^ 36) = [true] := by
    simp only [phaseEvents, binary32_8001]
  rw [show (8001 : ℕ) = 8000 + 1 from rfl, phaseEvents_add, binary32_8000.1,
    binary32_8000.2, hlast]

/-- C12, amended, for three frames on an IEEE platform: three passes, six floats stored
    through each output pointer. -/
theorem C12_loop_count_witness :
    ∃ r, MODFX_PROCESS (ieeePlatform (fun _ => 1) (fun _ => 0)) demoState
        (fun i => (i : ℚ)) (fun _ => 1) 3 = some r ∧
      r.main_yn.length = 6 ∧ r.sub_yn.length = 6 := by
  obtain ⟨r, h1, _, _, _, _, h2⟩ := C12_loop_count (ieeePlatform (fun _ => 1) (fun _ => 0))
    demoState (fun i => (i : ℚ)) (fun _ => 1) 3
  exact ⟨r, h1, (h2 (by norm_num)).2⟩

/-- C13, amended, for two frames on an IEEE platform: both channels of each frame hold the
    same value. -/
theorem C13_main_output_witness :
    ∃ r, MODFX_PROCESS (ieeePlatform (fun _ => 1) (fun _ => 0)) demoState
        (fun i => (i : ℚ)) (fun _ => 1) 2 = some r ∧
      ∀ i, i < 2 → r.main_yn[2 * i]? = r.main_yn[2 * i + 1]? ∧
        (r.main_yn[2 * i]?).isSome = true := by
  obtain ⟨r, h1, h2, _⟩ := C13_main_output (ieeePlatform (fun _ => 1) (fun _ => 0))
    demoState (fun i => (i : ℚ)) (fun _ => 1) 2
  refine ⟨r, h1, fun i hi => ?_⟩
  obtain ⟨t, _, ha, hb⟩ := h2 (by norm_num) i hi
  rw [ha, hb]
  exact ⟨rfl, rfl⟩

/-- C14 in real arithmetic at the cutoff `1200` with delays `1/2` and `1/4` and input `1`:
    the output is `D2 + F1 * D1`. -/
theorem C14_filter_step_witness :
    (filter (exactPlatform (fun _ => 0) (fun _ => 0))
        { demoState with F := 1200, D1 := 1 / 2, D2 := 1 / 4 } 1).L
      = 1 / 4 + (TWOPI * 1200 / 48000) * (1 / 2) :=
  ((C14_filter_step (exactPlatform (fun _ => 0) (fun _ => 0))
      { demoState with F := 1200, D1 := 1 / 2, D2 := 1 / 4 } 1).2.2.2.2.2.2.2.1
    (fun _ => rfl) (fun _ => rfl)).2.1

set_option maxRecDepth 1000000 in
/-- C16 on an IEEE platform whose table holds `1/2` everywhere: after `MODFX_INIT` a block
    of 8001 samples has one wrap event, and the cutoff left is `1200 + 800 / 2 = 1600`. -/
theorem C16_wrap_draw_witness :
    (∀ c ∈ [Call.process (fun _ => 1) (fun _ => 0) 8001], c.setsDepth = false) ∧
    (wrapEvents (ieeePlatform (fun _ => 1 / 2) (fun _ => 0))
      (MODFX_INIT (ieeePlatform (fun _ => 1 / 2) (fun _ => 0)) demoState 0 0)
      [Call.process (fun _ => 1) (fun _ => 0) 8001]).count true = 1 ∧
    (run (ieeePlatform (fun _ => 1 / 2) (fun _ => 0))
      (MODFX_INIT (ieeePlatform (fun _ => 1 / 2) (fun _ => 0)) demoState 0 0)
      [Call.process (fun _ => 1) (fun _ => 0) 8001]).map State.F = some 1600 := by
  have hc : ∀ c ∈ [Call.process (fun _ => 1) (fun _ => 0) 8001], c.setsDepth = false := by
    intro c hc
    simp at hc
    rw [hc]
    rfl
  have hw := (wrapEvents_after_init (ieeePlatform (fun _ => 1 / 2) (fun _ => 0)) demoState 0 0
    [Call.process (fun _ => 1) (fun _ => 0) 8001]
    (by intro c hc; simp at hc; rw [hc]; rfl) (by simp [Call.frames])).1
  have h6 : binary32 6 = 6 := by simpa using binary32_rounding.exact_int 6 0 (by norm_num)
  have hf : (ieeePlatform (fun _ => 1 / 2) (fun _ => 0)).f32 = binary32 := rfl
  have hsum : ([Call.process (fun _ => 1) (fun _ => 0) 8001].map Call.frames).sum = 8001 := by
    simp [Call.frames]
  rw [hsum, hf, h6, binary32_events_8001] at hw
  have hcount : (wrapEvents (ieeePlatform (fun _ => 1 / 2) (fun _ => 0))
      (MODFX_INIT (ieeePlatform (fun _ => 1 / 2) (fun _ => 0)) demoState 0 0)
      [Call.process (fun _ => 1) (fun _ => 0) 8001]).count true = 1 := by
    rw [hw, count_true_replicate_false]
    rfl
  refine ⟨hc, hcount, ?_⟩
  have h := ((C16_wrap_draw (ieeePlatform (fun _ => 1 / 2) (fun _ => 0))).2.2.2.1
    demoState 0 0 [Call.process (fun _ => 1) (fun _ => 0) 8001] hc).2 (by rw [hcount])
  rw [h, hcount]
  decide!

/-! ## C11: the depth from `MODFX_INIT` to the next depth change -/

theorem runUnrolled_append (P : Platform) (l₁ l₂ : List Call) :
    ∀ s : State, runUnrolled P s (l₁ ++ l₂) = runUnrolled P (runUnrolled P s l₁) l₂ := by
  induction l₁ with
  | nil => intro s; rfl
  | cons c cs ih => intro s; exact ih (stepUnrolled P s c)

theorem stepUnrolled_keeps_depth (P : Platform) (s : State) (c : Call)
    (hc : c.setsDepth = false) :
    (stepUnrolled P s c).effectDepth = s.effectDepth ∧
    (stepUnrolled P s c).valDepth = s.valDepth := by
  cases c with
  | init platform api => simp [Call.setsDepth] at hc
  | process main_xn sub_xn frames =>
    exact runFrames_depth P main_xn sub_xn (loopCount frames) 0 s
  | param index value =>
    match index, hc with
    | 0, _ => exact ⟨rfl, rfl⟩
    | 1, hc => simp [Call.setsDepth] at hc
    | _ + 2, _ => exact ⟨rfl, rfl⟩

theorem runUnrolled_keeps_depth (P : Platform) (calls : List Call) :
    ∀ s : State, (∀ c ∈ calls, c.setsDepth = false) →
      (runUnrolled P s calls).effectDepth = s.effectDepth ∧
      (runUnrolled P s calls).valDepth = s.valDepth := by
  induction calls with
  | nil => intro s _; exact ⟨rfl, rfl⟩
  | cons c cs ih =>
    intro s hc
    obtain ⟨h1, h2⟩ := stepUnrolled_keeps_depth P s c (hc c (List.mem_cons_self _ _))
    obtain ⟨h3, h4⟩ := ih (stepUnrolled P s c) (fun c' h' => hc c' (List.mem_cons_of_mem _ h'))
    exact ⟨h3.trans h1, h4.trans h2⟩

/-- C11, amended: on a lawful platform every sequence of `MODFX_INIT`, `MODFX_PROCESS` and
    `MODFX_PARAM` calls from the initial globals ends in a state where `effectDepth` is
    either the float product `valDepth * MAX_FREQUENCY_DEVIATION` or the
    `INITIAL_FREQUENCY_DEVIATION = 800` of `MODFX_INIT`.  It is the product when no
    `MODFX_INIT` call has been made, and when the last call that assigns `effectDepth` is a
    `MODFX_PARAM` call with index 1; it is `800`, with `valDepth` left as it was before
    that call, when the last call that assigns `effectDepth` is a `MODFX_INIT`, that is
    from a `MODFX_INIT` until the next `MODFX_PARAM` call with index 1. -/
theorem C11_effect_depth (P : Platform) (hP : P.Lawful) (calls : List Call) :
    ∃ s, run P (initialGlobals P) calls = some s ∧
      (s.effectDepth = P.f32 (s.valDepth * MAX_FREQUENCY_DEVIATION) ∨ s.effectDepth = 800) ∧
      ((∀ c ∈ calls, c.isInit = false) →
        s.effectDepth = P.f32 (s.valDepth * MAX_FREQUENCY_DEVIATION)) ∧
      (∀ (pre post : List Call) (platform api : ℕ),
        calls = pre ++ Call.init platform api :: post → (∀ c ∈ post, c.setsDepth = false) →
        s.effectDepth = 800 ∧
        ∃ t, run P (initialGlobals P) pre = some t ∧ s.valDepth = t.valDepth) ∧
      (∀ (pre post : List Call) (value : ℤ),
        calls = pre ++ Call.param 1 value :: post → (∀ c ∈ post, c.setsDepth = false) →
        s.valDepth = P.q31_to_f32 value ∧
        s.effectDepth = P.f32 (s.valDepth * MAX_FREQUENCY_DEVIATION)) := by
  have h0 : (initialGlobals P).effectDepth
      = P.f32 ((initialGlobals P).valDepth * MAX_FREQUENCY_DEVIATION) := by
    show (0 : ℚ) = P.f32 (0 * MAX_FREQUENCY_DEVIATION)
    rw [zero_mul, f32_zero P hP]
  have h800 : P.f32 800 = 800 := by simpa using hP.f32.exact_int 800 0 (by norm_num)
  obtain ⟨h1, h2⟩ := runUnrolled_depth P hP calls (initialGlobals P)
  refine ⟨_, run_eq P calls _, h1 (Or.inl h0), fun hc => h2 hc h0, ?_, ?_⟩
  · intro pre post platform api hcalls hpost
    subst hcalls
    rw [runUnrolled_append]
    obtain ⟨h3, h4⟩ := runUnrolled_keeps_depth P post
      (stepUnrolled P (runUnrolled P (initialGlobals P) pre) (Call.init platform api)) hpost
    refine ⟨?_, _, run_eq P pre _, ?_⟩
    · show (runUnrolled P (stepUnrolled P _ (Call.init platform api)) post).effectDepth = 800
      rw [h3]
      exact h800
    · show (runUnrolled P (stepUnrolled P _ (Call.init platform api)) post).valDepth = _
      rw [h4]
      rfl
  · intro pre post value hcalls hpost
    subst hcalls
    rw [runUnrolled_append]
    obtain ⟨h3, h4⟩ := runUnrolled_keeps_depth P post
      (stepUnrolled P (runUnrolled P (initialGlobals P) pre) (Call.param 1 value)) hpost
    have hv : (runUnrolled P (stepUnrolled P (runUnrolled P (initialGlobals P) pre)
        (Call.param 1 value)) post).valDepth = P.q31_to_f32 value := by
      rw [h4]
      rfl
    refine ⟨hv, ?_⟩
    show (runUnrolled P (stepUnrolled P _ (Call.param 1 value)) post).effectDepth = _
    rw [h3]
    show _ = P.f32 ((runUnrolled P (stepUnrolled P _ (Call.param 1 value)) post).valDepth
      * MAX_FREQUENCY_DEVIATION)
    rw [hv]
    rfl

set_option maxRecDepth 1000000 in
/-- C11, amended, on an IEEE platform whose conversion divides by `2 ^ 31`: the depth knob
    is set to `1/2`, then `MODFX_INIT` is called and four frames are processed; the depth
    is `800` while `valDepth * 1100` is `550`.  After one more `MODFX_PARAM` call with
    index 1 and value `1/4` the depth is `275`. -/
theorem C11_effect_depth_witness :
    (∃ s, run (ieeePlatform (fun _ => 0) (fun v => (v : ℚ) / 2 ^ 31))
        (initialGlobals (ieeePlatform (fun _ => 0) (fun v => (v : ℚ) / 2 ^ 31)))
        [Call.param 1 (2 ^ 30), Call.init 0 0, Call.process (fun _ => 1) (fun _ => 0) 4]
          = some s ∧
      s.effectDepth = 800 ∧ s.valDepth = 1 / 2) ∧
    ∃ s, run (ieeePlatform (fun _ => 0) (fun v => (v : ℚ) / 2 ^ 31))
        (initialGlobals (ieeePlatform (fun _ => 0) (fun v => (v : ℚ) / 2 ^ 31)))
        [Call.param 1 (2 ^ 30), Call.init 0 0, Call.process (fun _ => 1) (fun _ => 0) 4,
          Call.param 1 (2 ^ 29), Call.process (fun _ => 1) (fun _ => 0) 2] = some s ∧
      s.effectDepth = 275 ∧ s.valDepth = 1 / 4 := by
  constructor
  · obtain ⟨s, hs, _, _, h3, _⟩ := C11_effect_depth
      (ieeePlatform (fun _ => 0) (fun v => (v : ℚ) / 2 ^ 31)) (ieeePlatform_lawful _ _)
      [Call.param 1 (2 ^ 30), Call.init 0 0, Call.process (fun _ => 1) (fun _ => 0) 4]
    obtain ⟨h800, t, ht, hv⟩ := h3 [Call.param 1 (2 ^ 30)]
      [Call.process (fun _ => 1) (fun _ => 0) 4] 0 0 rfl
      (by intro c hc; simp at hc; rw [hc]; rfl)
    refine ⟨s, hs, h800, ?_⟩
    rw [hv, ← Option.some.inj ht]
    show ((2 ^ 30 : ℤ) : ℚ) / 2 ^ 31 = 1 / 2
    norm_num
  · obtain ⟨s, hs, _, _, _, h4⟩ := C11_effect_depth
      (ieeePlatform (fun _ => 0) (fun v => (v : ℚ) / 2 ^ 31)) (ieeePlatform_lawful _ _)
      [Call.param 1 (2 ^ 30), Call.init 0 0, Call.process (fun _ => 1) (fun _ => 0) 4,
        Call.param 1 (2 ^ 29), Call.process (fun _ => 1) (fun _ => 0) 2]
    obtain ⟨hv, hd⟩ := h4
      [Call.param 1 (2 ^ 30), Call.init 0 0, Call.process (fun _ => 1) (fun _ => 0) 4]
      [Call.process (fun _ => 1) (fun _ => 0) 2] (2 ^ 29) rfl
      (by intro c hc; simp at hc; rw [hc]; rfl)
    have hv4 : s.valDepth = 1 / 4 := by
      rw [hv]
      show ((2 ^ 29 : ℤ) : ℚ) / 2 ^ 31 = 1 / 4
      norm_num
    refine ⟨s, hs, ?_, hv4⟩
    rw [hd, hv4]
    show binary32 (1 / 4 * MAX_FREQUENCY_DEVIATION) = 275
    have h := binary32_rounding.exact_int 275 0 (by norm_num)
    have e : (1 / 4 : ℚ) * MAX_FREQUENCY_DEVIATION = ((275 : ℤ) : ℚ) * 2 ^ 0 := by
      norm_num [MAX_FREQUENCY_DEVIATION]
    rw [e, h]
    norm_num

/-! ## C2: an instance with a wrap event -/

/-- C2 on an IEEE platform: after `MODFX_INIT`, two `MODFX_PROCESS` calls of 5000 and 3001
    frames contain one wrap event, on the last sample; `randomIndex` goes from `0` to `1`,
    and the one table read uses the offset `0`. -/
theorem C2_table_index_witness :
    (∀ c ∈ [Call.process (fun i => (i : ℚ)) (fun _ => 0) 5000,
        Call.process (fun _ => 1) (fun _ => 0) 3001], c.isInit = false) ∧
    (wrapEvents (ieeePlatform (fun _ => 1 / 2) (fun _ => 0))
        (MODFX_INIT (ieeePlatform (fun _ => 1 / 2) (fun _ => 0)) demoState 0 0)
        [Call.process (fun i => (i : ℚ)) (fun _ => 0) 5000,
          Call.process (fun _ => 1) (fun _ => 0) 3001]).count true = 1 ∧
    (run (ieeePlatform (fun _ => 1 / 2) (fun _ => 0))
        (MODFX_INIT (ieeePlatform (fun _ => 1 / 2) (fun _ => 0)) demoState 0 0)
        [Call.process (fun i => (i : ℚ)) (fun _ => 0) 5000,
          Call.process (fun _ => 1) (fun _ => 0) 3001]).map State.randomIndex = some 1 ∧
    (tableReads (ieeePlatform (fun _ => 1 / 2) (fun _ => 0))
        (MODFX_INIT (ieeePlatform (fun _ => 1 / 2) (fun _ => 0)) demoState 0 0)
        [Call.process (fun i => (i : ℚ)) (fun _ => 0) 5000,
          Call.process (fun _ => 1) (fun _ => 0) 3001]).length = 1 ∧
    ∀ i ∈ tableReads (ieeePlatform (fun _ => 1 / 2) (fun _ => 0))
        (MODFX_INIT (ieeePlatform (fun _ => 1 / 2) (fun _ => 0)) demoState 0 0)
        [Call.process (fun i => (i : ℚ)) (fun _ => 0) 5000,
          Call.process (fun _ => 1) (fun _ => 0) 3001], i ≤ 1023 := by
  have hc : ∀ c ∈ [Call.process (fun i => (i : ℚ)) (fun _ => 0) 5000,
      Call.process (fun _ => 1) (fun _ => 0) 3001], c.isInit = false := by
    intro c hc
    simp at hc
    rcases hc with rfl | rfl <;> rfl
  have hw := (wrapEvents_after_init (ieeePlatform (fun _ => 1 / 2) (fun _ => 0)) demoState 0 0
    [Call.process (fun i => (i : ℚ)) (fun _ => 0) 5000,
      Call.process (fun _ => 1) (fun _ => 0) 3001]
    (by intro c hc; simp at hc; rcases hc with rfl | rfl <;> rfl)
    (by simp [Call.frames])).1
  have h6 : binary32 6 = 6 := by simpa using binary32_rounding.exact_int 6 0 (by norm_num)
  have hf : (ieeePlatform (fun _ => 1 / 2) (fun _ => 0)).f32 = binary32 := rfl
  have hsum : ([Call.process (fun i => (i : ℚ)) (fun _ => 0) 5000,
      Call.process (fun _ => 1) (fun _ => 0) 3001].map Call.frames).sum = 8001 := by
    simp [Call.frames]
  rw [hsum, hf, h6, binary32_events_8001] at hw
  have hcount : (wrapEvents (ieeePlatform (fun _ => 1 / 2) (fun _ => 0))
      (MODFX_INIT (ieeePlatform (fun _ => 1 / 2) (fun _ => 0)) demoState 0 0)
      [Call.process (fun i => (i : ℚ)) (fun _ => 0) 5000,
        Call.process (fun _ => 1) (fun _ => 0) 3001]).count true = 1 := by
    rw [hw, count_true_replicate_false]
    rfl
  obtain ⟨h1, h2⟩ := C2_table_index (ieeePlatform (fun _ => 1 / 2) (fun _ => 0)) demoState 0 0
    [Call.process (fun i => (i : ℚ)) (fun _ => 0) 5000,
      Call.process (fun _ => 1) (fun _ => 0) 3001] hc
  refine ⟨hc, hcount, ?_, ?_, h2⟩
  · rw [h1, hcount]
  · exact ((tableReads_length (ieeePlatform (fun _ => 1 / 2) (fun _ => 0))
      (runStates (ieeePlatform (fun _ => 1 / 2) (fun _ => 0))
        (MODFX_INIT (ieeePlatform (fun _ => 1 / 2) (fun _ => 0)) demoState 0 0)
        [Call.process (fun i => (i : ℚ)) (fun _ => 0) 5000,
          Call.process (fun _ => 1) (fun _ => 0) 3001])).1).trans hcount

/-! ## C3: the phase stays in `[0, 1)`, for the rates the program sets -/

theorem inPhase_bound (s : State) (h : InPhase s) : s.LFORate1 / 48000 ≤ 2 ^ 31 := by
  obtain ⟨_, _, _, h4⟩ := h
  unfold MAX_LFO_RATE at h4
  rw [div_le_iff₀ (by norm_num)]
  norm_num
  linarith

theorem inPhase_sample (P : Platform) (hP : P.Lawful) (s : State) (x : ℚ) (h : InPhase s) :
    InPhase (sample P s x) := by
  obtain ⟨h1, h2⟩ := lfo_phase_mem P hP s h.1 h.2.2.1
    (advancePhase_lt P hP s h.2.1 (inPhase_bound s h))
  refine ⟨h1, h2, ?_, ?_⟩
  · rw [sample_LFORate1]; exact h.2.2.1
  · rw [sample_LFORate1]; exact h.2.2.2

theorem inPhase_runFrames (P : Platform) (hP : P.Lawful) (main_xn sub_xn : ℕ → ℚ) (n : ℕ) :
    ∀ (o : ℕ) (s : State), InPhase s →
      InPhase (runFrames P main_xn sub_xn n o s).state ∧
      ∀ t ∈ sampleStates P main_xn n o s, InPhase t := by
  induction n with
  | zero => intro o s h; exact ⟨h, by simp [sampleStates]⟩
  | succ n ih =>
    intro o s h
    obtain ⟨h1, h2⟩ := ih (o + 2) _ (inPhase_sample P hP s (main_xn o) h)
    refine ⟨h1, ?_⟩
    intro t ht
    simp only [sampleStates, List.mem_cons] at ht
    rcases ht with rfl | ht
    · exact h
    · exact h2 t ht

theorem inPhase_init (P : Platform) (hP : P.Lawful) (s : State) (platform api : ℕ) :
    InPhase (MODFX_INIT P s platform api) := by
  have h6 : P.f32 6 = 6 := by simpa using f32_int P hP 6 (by norm_num)
  refine ⟨le_refl _, ?_, ?_, ?_⟩
  · show (0 : ℚ) < 1
    norm_num
  · show 0 ≤ P.f32 INITIAL_LFO_FREQUENCY
    unfold INITIAL_LFO_FREQUENCY; rw [h6]; norm_num
  · show P.f32 INITIAL_LFO_FREQUENCY ≤ MAX_LFO_RATE
    unfold INITIAL_LFO_FREQUENCY MAX_LFO_RATE; rw [h6]; norm_num

theorem inPhase_param (P : Platform) (hP : P.Lawful) (s : State) (index : ℕ) (value : ℤ)
    (hk : (Call.param index value).knobInRange P) (h : InPhase s) :
    InPhase (MODFX_PARAM P s index value) := by
  obtain ⟨h1, h2, h3, h4⟩ := h
  obtain ⟨hv0, hv1⟩ := hk
  match index with
  | 0 =>
    refine ⟨h1, h2, ?_, ?_⟩
    · have := le_f32 P hP 0 (by norm_num)
        (show ((0 : ℤ) : ℚ) ≤ MAX_LFO_RATE * P.q31_to_f32 value by
          unfold MAX_LFO_RATE; push_cast; positivity)
      simpa using this
    · have := f32_le P hP 20 (by norm_num)
        (show MAX_LFO_RATE * P.q31_to_f32 value ≤ ((20 : ℤ) : ℚ) by
          unfold MAX_LFO_RATE; push_cast; linarith)
      simpa [MAX_LFO_RATE] using this
  | 1 => exact ⟨h1, h2, h3, h4⟩
  | _ + 2 => exact ⟨h1, h2, h3, h4⟩

theorem inPhase_runUnrolled (P : Platform) (hP : P.Lawful) (calls : List Call) :
    ∀ s : State, InPhase s → (∀ c ∈ calls, c.knobInRange P) →
      InPhase (runUnrolled P s calls) ∧ ∀ t ∈ runStates P s calls, InPhase t := by
  induction calls with
  | nil => intro s h _; exact ⟨h, by simp [runStates]⟩
  | cons c cs ih =>
    intro s h hk
    have hks : ∀ c' ∈ cs, c'.knobInRange P := fun c' h' => hk c' (List.mem_cons_of_mem _ h')
    have hk0 := hk c (List.mem_cons_self _ _)
    cases c with
    | init platform api =>
      obtain ⟨h1, h2⟩ := ih _ (inPhase_init P hP s platform api) hks
      exact ⟨h1, by simpa [runStates, callStates] using h2⟩
    | param index value =>
      obtain ⟨h1, h2⟩ := ih _ (inPhase_param P hP s index value hk0 h) hks
      exact ⟨h1, by simpa [runStates, callStates] using h2⟩
    | process main_xn sub_xn frames =>
      obtain ⟨h1, h2⟩ := inPhase_runFrames P hP main_xn sub_xn (loopCount frames) 0 s h
      obtain ⟨h3, h4⟩ := ih _ h1 hks
      refine ⟨h3, ?_⟩
      intro t ht
      simp only [runStates, callStates, List.mem_append] at ht
      rcases ht with ht | ht
      · exact h2 t ht
      · exact h4 t ht

/-- C3: on a lawful platform, for every state with phase in `[0, 1)` and
    `0 ≤ LFORate1 ≤ MAX_LFO_RATE`, the rates the program can set, the per-sample oscillator
    advance leaves the phase in `[0, 1)`, at every sample of `MODFX_PROCESS` and after it,
    for every number of frames.  Every state reached from `MODFX_INIT` by calls whose knob
    values convert to `[0, 1]` is such a state: the phase is in `[0, 1)` before and after
    every sample and after every call. -/
theorem C3_phase_invariant (P : Platform) (hP : P.Lawful) :
    (∀ s : State, 0 ≤ s.phaseAccumLFO1 → s.phaseAccumLFO1 < 1 → 0 ≤ s.LFORate1 →
      s.LFORate1 ≤ MAX_LFO_RATE →
      (0 ≤ (lfo P s).phaseAccumLFO1 ∧ (lfo P s).phaseAccumLFO1 < 1) ∧
      ∀ (main_xn sub_xn : ℕ → ℚ) (frames : ℕ),
        ∃ r, MODFX_PROCESS P s main_xn sub_xn frames = some r ∧
          0 ≤ r.state.phaseAccumLFO1 ∧ r.state.phaseAccumLFO1 < 1 ∧
          ∀ t ∈ sampleStates P main_xn (loopCount frames) 0 s,
            0 ≤ (lfo P t).phaseAccumLFO1 ∧ (lfo P t).phaseAccumLFO1 < 1) ∧
    ∀ (s₀ : State) (platform api : ℕ) (calls : List Call),
      (∀ c ∈ calls, c.knobInRange P) →
      ∃ s, run P (MODFX_INIT P s₀ platform api) calls = some s ∧
        0 ≤ s.phaseAccumLFO1 ∧ s.phaseAccumLFO1 < 1 ∧
        0 ≤ s.LFORate1 ∧ s.LFORate1 ≤ MAX_LFO_RATE ∧
        ∀ t ∈ runStates P (MODFX_INIT P s₀ platform api) calls,
          0 ≤ t.phaseAccumLFO1 ∧ t.phaseAccumLFO1 < 1 ∧
          0 ≤ (lfo P t).phaseAccumLFO1 ∧ (lfo P t).phaseAccumLFO1 < 1 := by
  constructor
  · intro s h0 h1 hr hm
    have h : InPhase s := ⟨h0, h1, hr, hm⟩
    refine ⟨(inPhase_sample P hP s 0 h).1 |> fun a => ⟨a, (inPhase_sample P hP s 0 h).2.1⟩, ?_⟩
    intro main_xn sub_xn frames
    obtain ⟨h2, h3⟩ := inPhase_runFrames P hP main_xn sub_xn (loopCount frames) 0 s h
    refine ⟨_, MODFX_PROCESS_eq P s main_xn sub_xn frames, h2.1, h2.2.1, ?_⟩
    intro t ht
    have := inPhase_sample P hP t 0 (h3 t ht)
    exact ⟨this.1, this.2.1⟩
  · intro s₀ platform api calls hk
    obtain ⟨h1, h2⟩ := inPhase_runUnrolled P hP calls _ (inPhase_init P hP s₀ platform api) hk
    refine ⟨_, run_eq P calls _, h1.1, h1.2.1, h1.2.2.1, h1.2.2.2, ?_⟩
    intro t ht
    have h3 := h2 t ht
    have h4 := inPhase_sample P hP t 0 h3
    exact ⟨h3.1, h3.2.1, h4.1, h4.2.1⟩

set_option maxRecDepth 1000000 in
/-- C3 on an IEEE platform: from the largest float below `1` at the rate `MAX_LFO_RATE` the
    next sample is a wrap event and leaves the phase in `[0, 1)`, as do three frames of
    `MODFX_PROCESS`; and so does `MODFX_INIT` followed by a rate change and three frames. -/
theorem C3_phase_invariant_witness :
    wraps (ieeePlatform (fun _ => 0) (fun v => (v : ℚ) / 2 ^ 31))
      { demoState with phaseAccumLFO1 := 16777215 / 2 ^ 24, LFORate1 := 20 } = true ∧
    (0 ≤ (lfo (ieeePlatform (fun _ => 0) (fun v => (v : ℚ) / 2 ^ 31))
        { demoState with phaseAccumLFO1 := 16777215 / 2 ^ 24, LFORate1 := 20 }).phaseAccumLFO1 ∧
      (lfo (ieeePlatform (fun _ => 0) (fun v => (v : ℚ) / 2 ^ 31))
        { demoState with phaseAccumLFO1 := 16777215 / 2 ^ 24, LFORate1 := 20 }).phaseAccumLFO1
        < 1) ∧
    (∃ r, MODFX_PROCESS (ieeePlatform (fun _ => 0) (fun v => (v : ℚ) / 2 ^ 31))
        { demoState with phaseAccumLFO1 := 16777215 / 2 ^ 24, LFORate1 := 20 }
        (fun _ => 1) (fun _ => 0) 3 = some r ∧
      0 ≤ r.state.phaseAccumLFO1 ∧ r.state.phaseAccumLFO1 < 1) ∧
    ∃ s, run (ieeePlatform (fun _ => 0) (fun v => (v : ℚ) / 2 ^ 31))
        (MODFX_INIT (ieeePlatform (fun _ => 0) (fun v => (v : ℚ) / 2 ^ 31)) demoState 0 0)
        [Call.param 0 (2 ^ 30), Call.process (fun _ => 1) (fun _ => 0) 3] = some s ∧
      0 ≤ s.phaseAccumLFO1 ∧ s.phaseAccumLFO1 < 1 := by
  have h := C3_phase_invariant (ieeePlatform (fun _ => 0) (fun v => (v : ℚ) / 2 ^ 31))
    (ieeePlatform_lawful _ _)
  obtain ⟨h1, h2⟩ := h.1 { demoState with phaseAccumLFO1 := 16777215 / 2 ^ 24, LFORate1 := 20 }
    (by norm_num) (by norm_num) (by norm_num) (by norm_num [MAX_LFO_RATE])
  obtain ⟨r, hr, hr0, hr1, _⟩ := h2 (fun _ => 1) (fun _ => 0) 3
  obtain ⟨s, hs, hs0, hs1, _⟩ := h.2 demoState 0 0
    [Call.param 0 (2 ^ 30), Call.process (fun _ => 1) (fun _ => 0) 3]
    (by
      intro c hc
      simp at hc
      rcases hc with rfl | rfl
      · show 0 ≤ ((2 ^ 30 : ℤ) : ℚ) / 2 ^ 31 ∧ ((2 ^ 30 : ℤ) : ℚ) / 2 ^ 31 ≤ 1
        norm_num
      · trivial)
  exact ⟨by decide!, h1, ⟨r, hr, hr0, hr1⟩, s, hs, hs0, hs1⟩

/-! ## The error of one rounding -/

theorem roundEven_error (y : ℚ) : |(roundEven y : ℚ) - y| ≤ 1 / 2 := by
  have h1 := Int.floor_le y
  have h2 := Int.lt_floor_add_one y
  unfold roundEven
  simp only []
  rw [abs_le]
  split_ifs with ha hb hc
  · constructor <;> linarith
  · push_cast; constructor <;> linarith
  · constructor <;> linarith
  · push_cast
    have : y - ⌊y⌋ = 1 / 2 := le_antisymm (not_lt.1 hb) (not_lt.1 ha)
    constructor <;> linarith

theorem roundTo_error (p : ℕ) (emin : ℤ) (x : ℚ) :
    |roundTo p emin x - x| ≤ |x| / 2 ^ p + 2 ^ emin / 2 := by
  by_cases hx : x = 0
  · subst hx
    rw [roundTo_zero]
    simp
    positivity
  rw [roundTo_of_ne p emin x hx]
  have hu : (0 : ℚ) < 2 ^ ulpExp p emin x := by positivity
  have h1 := roundEven_error (x / 2 ^ ulpExp p emin x)
  have h2 : |(roundEven (x / 2 ^ ulpExp p emin x) : ℚ) * 2 ^ ulpExp p emin x - x|
      = |(roundEven (x / 2 ^ ulpExp p emin x) : ℚ) - x / 2 ^ ulpExp p emin x|
        * 2 ^ ulpExp p emin x := by
    rw [← abs_of_pos hu, ← abs_mul, abs_of_pos hu, sub_mul, div_mul_cancel₀ _ (ne_of_gt hu)]
  rw [h2]
  have h3 : |(roundEven (x / 2 ^ ulpExp p emin x) : ℚ) - x / 2 ^ ulpExp p emin x|
      * 2 ^ ulpExp p emin x ≤ 2 ^ ulpExp p emin x / 2 := by
    have := mul_le_mul_of_nonneg_right h1 (le_of_lt hu)
    linarith
  refine le_trans h3 ?_
  have hx0 : 0 ≤ |x| / 2 ^ p := by positivity
  have he0 : (0 : ℚ) ≤ 2 ^ emin / 2 := by positivity
  rcases le_total (ilog2 x - ((p : ℤ) - 1)) emin with h | h
  · have : ulpExp p emin x = emin := max_eq_right h
    rw [this]
    linarith
  · have : ulpExp p emin x = ilog2 x - ((p : ℤ) - 1) := max_eq_left h
    rw [this]
    have hl := (ilog2_spec x hx).1
    have e : (2 : ℚ) ^ (ilog2 x - ((p : ℤ) - 1)) / 2 = 2 ^ ilog2 x / 2 ^ p := by
      rw [zpow_sub₀ (by norm_num : (2 : ℚ) ≠ 0), zpow_sub₀ (by norm_num : (2 : ℚ) ≠ 0)]
      simp only [zpow_natCast, zpow_one]
      field_simp
      ring
    rw [e]
    have : (2 : ℚ) ^ ilog2 x / 2 ^ p ≤ |x| / 2 ^ p :=
      div_le_div_of_nonneg_right hl (by positivity)
    linarith

theorem binary32_error (x : ℚ) : |binary32 x - x| ≤ |x| / 2 ^ 24 + 1 / 2 ^ 150 := by
  have h := roundTo_error 24 (-149) x
  have e : (2 : ℚ) ^ (-149 : ℤ) / 2 = 1 / 2 ^ 150 := by
    rw [zpow_neg]
    norm_num
  rw [e] at h
  exact h

theorem ieeePlatform_accurate (randTable : ℕ → ℚ) (q31_to_f32 : ℤ → ℚ) :
    (ieeePlatform randTable q31_to_f32).Accurate := fun y => binary32_error y

theorem exactPlatform_accurate (randTable : ℕ → ℚ) (q31_to_f32 : ℤ → ℚ) :
    (exactPlatform randTable q31_to_f32).Accurate := by
  intro y
  show |y - y| ≤ _
  rw [sub_self, abs_zero]
  positivity

/-! ## C15: the filter in float arithmetic -/

theorem abs_mul_le_two {f z : ℚ} (hf0 : 0 ≤ f) (hf2 : f ≤ 2) : |f * z| ≤ 2 * |z| := by
  rw [abs_mul, abs_of_nonneg hf0]
  exact mul_le_mul_of_nonneg_right hf2 (abs_nonneg z)

/-- The rounding errors of one filter step, for a rounding with relative error `2 ^ -24`
    and absolute error `2 ^ -150`. -/
theorem step_error (rnd : ℚ → ℚ) (hr : ∀ y : ℚ, |rnd y - y| ≤ |y| / 2 ^ 24 + 1 / 2 ^ 150)
    (f q a D2 x : ℚ) (hf0 : 0 ≤ f) (hf2 : f ≤ 2) (hq0 : 0 ≤ q) (hq2 : q ≤ 2) :
    |rnd (D2 + rnd (f * a)) - x - ((D2 - x) + f * a)|
      ≤ 5 * (|a| + |D2 - x| + |x|) / 2 ^ 24 + 3 / 2 ^ 150 ∧
    |rnd (rnd (f * rnd (rnd (x - rnd (D2 + rnd (f * a))) - rnd (q * a))) + a)
        - ((1 - f ^ 2 - f * q) * a - f * (D2 - x))|
      ≤ 62 * (|a| + |D2 - x| + |x|) / 2 ^ 24 + 20 / 2 ^ 150 := by
  have hA := abs_nonneg a
  have hB := abs_nonneg (D2 - x)
  have hX := abs_nonneg x
  have hfa := abs_mul_le_two (z := a) hf0 hf2
  have hqa := abs_mul_le_two (z := a) hq0 hq2
  have E1 := hr (f * a)
  generalize rnd (f * a) = p1 at E1 ⊢
  have hp1 : |p1| ≤ |p1 - f * a| + |f * a| := by
    have := abs_add (p1 - f * a) (f * a)
    rwa [sub_add_cancel] at this
  have hD : |D2 + p1| ≤ |D2 - x| + |x| + |p1| := by
    have := abs_add_three (D2 - x) x p1
    rwa [sub_add_cancel] at this
  have E2 := hr (D2 + p1)
  generalize rnd (D2 + p1) = L at E2 ⊢
  have heb : |L - x - ((D2 - x) + f * a)| ≤ |L - (D2 + p1)| + |p1 - f * a| := by
    have := abs_add (L - (D2 + p1)) (p1 - f * a)
    rwa [show L - (D2 + p1) + (p1 - f * a) = L - x - ((D2 - x) + f * a) by ring] at this
  have hLx : |x - L| ≤ |L - x - ((D2 - x) + f * a)| + |D2 - x| + |f * a| := by
    have := abs_add_three (L - x - ((D2 - x) + f * a)) (D2 - x) (f * a)
    rw [show L - x - ((D2 - x) + f * a) + (D2 - x) + f * a = L - x by ring] at this
    rwa [abs_sub_comm]
  have E3 := hr (x - L)
  generalize rnd (x - L) = m1 at E3 ⊢
  have E4 := hr (q * a)
  generalize rnd (q * a) = m2 at E4 ⊢
  have hm : |m1 - m2| ≤ |m1 - (x - L)| + |x - L| + (|m2 - q * a| + |q * a|) := by
    have h1 := abs_add (m1 - (x - L)) (x - L)
    have h2 := abs_add (m2 - q * a) (q * a)
    have h3 := abs_sub (m1 - (x - L) + (x - L)) (m2 - q * a + q * a)
    rw [sub_add_cancel, sub_add_cancel] at h3
    rw [sub_add_cancel] at h1 h2
    linarith
  have E5 := hr (m1 - m2)
  generalize rnd (m1 - m2) = H at E5 ⊢
  have hH : |H| ≤ |H - (m1 - m2)| + |m1 - m2| := by
    have := abs_add (H - (m1 - m2)) (m1 - m2)
    rwa [sub_add_cancel] at this
  have hfH := abs_mul_le_two (z := H) hf0 hf2
  have E6 := hr (f * H)
  generalize rnd (f * H) = m3 at E6 ⊢
  have hm3 : |m3 + a| ≤ |m3 - f * H| + |f * H| + |a| := by
    have := abs_add_three (m3 - f * H) (f * H) a
    rwa [sub_add_cancel] at this
  have E7 := hr (m3 + a)
  generalize rnd (m3 + a) = B at E7 ⊢
  have hW : |H + ((D2 - x) + f * a) + q * a|
      ≤ |H - (m1 - m2)| + |m1 - (x - L)| + (|m2 - q * a| + |L - x - ((D2 - x) + f * a)|) := by
    have h1 := abs_add (H - (m1 - m2)) (m1 - (x - L))
    have h2 := abs_add (m2 - q * a) (L - x - ((D2 - x) + f * a))
    have h3 := abs_sub (H - (m1 - m2) + (m1 - (x - L)))
      (m2 - q * a + (L - x - ((D2 - x) + f * a)))
    rw [show H - (m1 - m2) + (m1 - (x - L)) - (m2 - q * a + (L - x - ((D2 - x) + f * a)))
      = H + ((D2 - x) + f * a) + q * a by ring] at h3
    linarith
  have hfW := abs_mul_le_two (z := H + ((D2 - x) + f * a) + q * a) hf0 hf2
  have hea : |B - ((1 - f ^ 2 - f * q) * a - f * (D2 - x))|
      ≤ |B - (m3 + a)| + |m3 - f * H| + |f * (H + ((D2 - x) + f * a) + q * a)| := by
    have := abs_add_three (B - (m3 + a)) (m3 - f * H) (f * (H + ((D2 - x) + f * a) + q * a))
    rwa [show B - (m3 + a) + (m3 - f * H) + f * (H + ((D2 - x) + f * a) + q * a)
      = B - ((1 - f ^ 2 - f * q) * a - f * (D2 - x)) by ring] at this
  generalize |L - x - ((D2 - x) + f * a)| = eb at *
  generalize |B - ((1 - f ^ 2 - f * q) * a - f * (D2 - x))| = ea at *
  generalize |f * (H + ((D2 - x) + f * a) + q * a)| = fW at *
  generalize |H + ((D2 - x) + f * a) + q * a| = W at *
  generalize |B - (m3 + a)| = e7 at *
  generalize |m3 + a| = y7 at *
  generalize |m3 - f * H| = e6 at *
  generalize |f * H| = y6 at *
  generalize |H| = aH at *
  generalize |H - (m1 - m2)| = e5 at *
  generalize |m1 - m2| = y5 at *
  generalize |m2 - q * a| = e4 at *
  generalize |q * a| = y4 at *
  generalize |m1 - (x - L)| = e3 at *
  generalize |x - L| = y3 at *
  generalize |L - (D2 + p1)| = e2 at *
  generalize |D2 + p1| = y2 at *
  generalize |p1 - f * a| = e1 at *
  generalize |p1| = ap1 at *
  generalize |f * a| = y1 at *
  generalize |a| = A at *
  generalize |D2 - x| = Bb at *
  generalize |x| = X at *
  constructor
  · linarith
  · linarith


theorem quad_nonneg (g p r : ℚ) (h0 : 0 ≤ g) (h2 : g ≤ 2) : 0 ≤ p ^ 2 + g * p * r + r ^ 2 := by
  nlinarith [mul_nonneg h0 (sq_nonneg (p + r)),
    mul_nonneg (sub_nonneg.2 h2) (add_nonneg (sq_nonneg p) (sq_nonneg r))]

theorem quad_lower (g p r : ℚ) (h0 : 0 ≤ g) :
    (1 - g / 2) * (p ^ 2 + r ^ 2) ≤ p ^ 2 + g * p * r + r ^ 2 := by
  nlinarith [mul_nonneg h0 (sq_nonneg (p + r))]

theorem quad_upper (g p r : ℚ) (h0 : 0 ≤ g) (h2 : g ≤ 2) :
    p ^ 2 + g * p * r + r ^ 2 ≤ 2 * (p ^ 2 + r ^ 2) := by
  nlinarith [mul_nonneg h0 (sq_nonneg (p - r)),
    mul_nonneg (sub_nonneg.2 h2) (add_nonneg (sq_nonneg p) (sq_nonneg r))]

theorem sq_le_of_abs_le {e M : ℚ} (h : |e| ≤ M) : e ^ 2 ≤ M ^ 2 := by
  have h0 : 0 ≤ M := le_trans (abs_nonneg e) h
  rw [← sq_abs e]
  exact pow_le_pow_left₀ (abs_nonneg e) h 2

/-- One step of a perturbed rotation-and-shrink map: the quadratic form
    `a ^ 2 + (f + q) * a * b + b ^ 2` shrinks by `1 - f * q / 4`, up to the rounding errors. -/
theorem lyap_step (f q a b x a1 b1 : ℚ) (hf : 0 < f) (hq : 0 < q) (hg : f + q < 2)
    (hm : 1 / 2 ^ 28 ≤ (f * q) ^ 2 * (1 - (f + q) / 2))
    (hb : |b1 - (b + f * a)| ≤ 5 * (|a| + |b| + |x|) / 2 ^ 24 + 3 / 2 ^ 150)
    (ha : |a1 - ((1 - f ^ 2 - f * q) * a - f * b)|
      ≤ 62 * (|a| + |b| + |x|) / 2 ^ 24 + 20 / 2 ^ 150) :
    4 * (f * q) * (a1 ^ 2 + (f + q) * a1 * b1 + b1 ^ 2)
      ≤ 4 * (f * q) * (1 - f * q / 4) * (a ^ 2 + (f + q) * a * b + b ^ 2)
        + (x ^ 2 / 2 ^ 28 + 1 / 2 ^ 285) := by
  have ht : 0 < f * q := mul_pos hf hq
  have ht1 : f * q ≤ 1 := by nlinarith [sq_nonneg (f - q)]
  have hg0 : 0 ≤ f + q := by linarith
  have hg2 : f + q ≤ 2 := le_of_lt hg
  -- the errors
  obtain ⟨ea, hea⟩ : ∃ ea, ea = a1 - ((1 - f ^ 2 - f * q) * a - f * b) := ⟨_, rfl⟩
  obtain ⟨eb, heb⟩ : ∃ eb, eb = b1 - (b + f * a) := ⟨_, rfl⟩
  rw [← hea] at ha
  rw [← heb] at hb
  have ha1 : a1 = (1 - f ^ 2 - f * q) * a - f * b + ea := by rw [hea]; ring
  have hb1 : b1 = b + f * a + eb := by rw [heb]; ring
  -- the size of the errors
  have hS : (|a| + |b| + |x|) ^ 2 ≤ 3 * (a ^ 2 + b ^ 2 + x ^ 2) := by
    rw [← sq_abs a, ← sq_abs b, ← sq_abs x]
    nlinarith [sq_nonneg (|a| - |b|), sq_nonneg (|a| - |x|), sq_nonneg (|b| - |x|)]
  have hS0 : 0 ≤ |a| + |b| + |x| := by positivity
  have hea2 := sq_le_of_abs_le ha
  have heb2 := sq_le_of_abs_le hb
  have hGe := quad_upper (f + q) ea eb hg0 hg2
  have hGe0 := quad_nonneg (f + q) ea eb hg0 hg2
  have hE : 12 * (ea ^ 2 + (f + q) * ea * eb + eb ^ 2)
      ≤ (a ^ 2 + b ^ 2) / 2 ^ 28 + (x ^ 2 / 2 ^ 28 + 1 / 2 ^ 285) := by
    generalize |a| + |b| + |x| = S at *
    have h1 : (62 * S / 2 ^ 24 + 20 / 2 ^ 150) ^ 2
        = 7688 / 2 ^ 48 * S ^ 2 + 800 / 2 ^ 300 - (62 * S / 2 ^ 24 - 20 / 2 ^ 150) ^ 2 := by
      ring
    have h2 : (5 * S / 2 ^ 24 + 3 / 2 ^ 150) ^ 2
        = 50 / 2 ^ 48 * S ^ 2 + 18 / 2 ^ 300 - (5 * S / 2 ^ 24 - 3 / 2 ^ 150) ^ 2 := by
      ring
    have h3 := sq_nonneg (62 * S / 2 ^ 24 - 20 / 2 ^ 150)
    have h4 := sq_nonneg (5 * S / 2 ^ 24 - 3 / 2 ^ 150)
    have hT : 0 ≤ a ^ 2 + b ^ 2 + x ^ 2 := by positivity
    linarith
  -- the quadratic form of the exact image
  have hK := quad_nonneg (f + q)
    (f * q / 2 * ((1 - f ^ 2 - f * q) * a - f * b) - ea) (f * q / 2 * (b + f * a) - eb) hg0 hg2
  have hG0 := quad_nonneg (f + q) a b hg0 hg2
  have hlow := quad_lower (f + q) a b hg0
  have hid : f * q / 2 * (a1 ^ 2 + (f + q) * a1 * b1 + b1 ^ 2)
      = f * q / 2 * (1 + f * q / 2) * (1 - f * q) * (a ^ 2 + (f + q) * a * b + b ^ 2)
        + (1 + f * q / 2) * (ea ^ 2 + (f + q) * ea * eb + eb ^ 2)
        - ((f * q / 2 * ((1 - f ^ 2 - f * q) * a - f * b) - ea) ^ 2
          + (f + q) * (f * q / 2 * ((1 - f ^ 2 - f * q) * a - f * b) - ea)
            * (f * q / 2 * (b + f * a) - eb)
          + (f * q / 2 * (b + f * a) - eb) ^ 2) := by
    rw [ha1, hb1]
    ring
  have hmarg : (a ^ 2 + b ^ 2) / 2 ^ 28 ≤ (f * q) ^ 2 * (a ^ 2 + (f + q) * a * b + b ^ 2) := by
    have h1 : (a ^ 2 + b ^ 2) / 2 ^ 28 ≤ (f * q) ^ 2 * (1 - (f + q) / 2) * (a ^ 2 + b ^ 2) := by
      have := mul_le_mul_of_nonneg_right hm (add_nonneg (sq_nonneg a) (sq_nonneg b))
      linarith
    have h2 := mul_le_mul_of_nonneg_left hlow (sq_nonneg (f * q))
    linarith
  generalize a ^ 2 + (f + q) * a * b + b ^ 2 = G at *
  generalize a1 ^ 2 + (f + q) * a1 * b1 + b1 ^ 2 = G1 at *
  generalize ea ^ 2 + (f + q) * ea * eb + eb ^ 2 = Ge at *
  generalize (f * q / 2 * ((1 - f ^ 2 - f * q) * a - f * b) - ea) ^ 2
          + (f + q) * (f * q / 2 * ((1 - f ^ 2 - f * q) * a - f * b) - ea)
            * (f * q / 2 * (b + f * a) - eb)
          + (f * q / 2 * (b + f * a) - eb) ^ 2 = K at *
  generalize f * q = t at *
  have h5 : t / 2 * (1 + t / 2) * (1 - t) * G ≤ t / 2 * (1 - t / 2) * G := by
    have : t / 2 * (1 - t / 2) * G - t / 2 * (1 + t / 2) * (1 - t) * G = t ^ 3 / 4 * G := by ring
    have h6 : 0 ≤ t ^ 3 / 4 * G := by positivity
    linarith
  have h7 : (1 + t / 2) * Ge ≤ 3 / 2 * Ge := by
    have : 3 / 2 * Ge - (1 + t / 2) * Ge = (1 - t) / 2 * Ge := by ring
    have h8 : 0 ≤ (1 - t) / 2 * Ge := mul_nonneg (by linarith) hGe0
    linarith
  linarith

theorem filter_F1_congr (P : Platform) (s t : State) (x : ℚ) (h : t.F = s.F) :
    (filter P t x).F1 = (filter P s x).F1 := by
  show P.f32 (P.f64 (P.f64 (P.f64 TWOPI * t.F) / SAMPLE_RATE))
    = P.f32 (P.f64 (P.f64 (P.f64 TWOPI * s.F) / SAMPLE_RATE))
  rw [h]

/-- The rounding errors of one filter step on an accurate platform. -/
theorem filter_error (P : Platform) (hA : P.Accurate) (s : State) (x : ℚ)
    (hf0 : 0 ≤ (filter P s x).F1) (hf2 : (filter P s x).F1 ≤ 2)
    (hq0 : 0 ≤ s.Q) (hq2 : s.Q ≤ 2) :
    |(filter P s x).D2 - x - ((s.D2 - x) + (filter P s x).F1 * s.D1)|
      ≤ 5 * (|s.D1| + |s.D2 - x| + |x|) / 2 ^ 24 + 3 / 2 ^ 150 ∧
    |(filter P s x).D1
        - ((1 - (filter P s x).F1 ^ 2 - (filter P s x).F1 * s.Q) * s.D1
          - (filter P s x).F1 * (s.D2 - x))|
      ≤ 62 * (|s.D1| + |s.D2 - x| + |x|) / 2 ^ 24 + 20 / 2 ^ 150 :=
  step_error P.f32 hA (filter P s x).F1 s.Q s.D1 s.D2 x hf0 hf2 hq0 hq2

/-- The quadratic form of the delays shrinks by `1 - F1 * Q / 4` at every filter step, up
    to the rounding errors. -/
theorem filterIter_energy (P : Platform) (hA : P.Accurate) (s : State) (x : ℚ)
    (hf : 0 < (filter P s x).F1) (hq : 0 < s.Q) (hg : (filter P s x).F1 + s.Q < 2)
    (hm : 1 / 2 ^ 28
      ≤ ((filter P s x).F1 * s.Q) ^ 2 * (1 - ((filter P s x).F1 + s.Q) / 2)) (n : ℕ) :
    ((filter P s x).F1 * s.Q) ^ 2
        * ((filterIter P x n s).D1 ^ 2
          + ((filter P s x).F1 + s.Q) * (filterIter P x n s).D1 * ((filterIter P x n s).D2 - x)
          + ((filterIter P x n s).D2 - x) ^ 2)
      ≤ ((filter P s x).F1 * s.Q) ^ 2 * ((1 - (filter P s x).F1 * s.Q / 4) ^ n
          * (s.D1 ^ 2 + ((filter P s x).F1 + s.Q) * s.D1 * (s.D2 - x) + (s.D2 - x) ^ 2))
        + (x ^ 2 / 2 ^ 28 + 1 / 2 ^ 285) := by
  have ht : 0 < (filter P s x).F1 * s.Q := mul_pos hf hq
  have ht1 : (filter P s x).F1 * s.Q ≤ 1 := by
    nlinarith [sq_nonneg ((filter P s x).F1 - s.Q)]
  have hc : (0 : ℚ) ≤ x ^ 2 / 2 ^ 28 + 1 / 2 ^ 285 := by positivity
  induction n with
  | zero =>
    simp only [filterIter, pow_zero, one_mul]
    linarith
  | succ n ih =>
    obtain ⟨hF, hQ⟩ := filterIter_FQ P x n s
    have hF1 := filter_F1_congr P s (filterIter P x n s) x hF
    have herr := filter_error P hA (filterIter P x n s) x (by rw [hF1]; exact le_of_lt hf)
      (by rw [hF1]; linarith) (by rw [hQ]; exact le_of_lt hq) (by rw [hQ]; linarith)
    rw [hF1, hQ] at herr
    have hstep := lyap_step (filter P s x).F1 s.Q (filterIter P x n s).D1
      ((filterIter P x n s).D2 - x) x (filter P (filterIter P x n s) x).D1
      ((filter P (filterIter P x n s) x).D2 - x) hf hq hg hm herr.1 herr.2
    rw [filterIter_succ, pow_succ (1 - (filter P s x).F1 * s.Q / 4) n]
    generalize (filter P (filterIter P x n s) x).D1 ^ 2
      + ((filter P s x).F1 + s.Q) * (filter P (filterIter P x n s) x).D1
        * ((filter P (filterIter P x n s) x).D2 - x)
      + ((filter P (filterIter P x n s) x).D2 - x) ^ 2 = G1 at hstep ⊢
    generalize (filterIter P x n s).D1 ^ 2
      + ((filter P s x).F1 + s.Q) * (filterIter P x n s).D1 * ((filterIter P x n s).D2 - x)
      + ((filterIter P x n s).D2 - x) ^ 2 = G at hstep ih
    generalize s.D1 ^ 2 + ((filter P s x).F1 + s.Q) * s.D1 * (s.D2 - x) + (s.D2 - x) ^ 2
      = G0 at ih ⊢
    generalize (1 - (filter P s x).F1 * s.Q / 4) ^ n = r at ih ⊢
    generalize x ^ 2 / 2 ^ 28 + 1 / 2 ^ 285 = c at hstep ih hc ⊢
    generalize (filter P s x).F1 * s.Q = t at hstep ih ht ht1 ⊢
    have h1 : t / 4 * (4 * t * G1) ≤ t / 4 * (4 * t * (1 - t / 4) * G + c) :=
      mul_le_mul_of_nonneg_left hstep (by linarith)
    have h2 : (1 - t / 4) * (t ^ 2 * G) ≤ (1 - t / 4) * (t ^ 2 * (r * G0) + c) :=
      mul_le_mul_of_nonneg_left ih (by linarith)
    have e1 : t / 4 * (4 * t * G1) = t ^ 2 * G1 := by ring
    have e2 : t / 4 * (4 * t * (1 - t / 4) * G + c) = (1 - t / 4) * (t ^ 2 * G) + t / 4 * c := by
      ring
    have e3 : (1 - t / 4) * (t ^ 2 * (r * G0) + c) + t / 4 * c
        = t ^ 2 * (r * (1 - t / 4) * G0) + c := by ring
    linarith

/-- On an accurate platform, inside the region of the parameters with a margin above the
    rounding unit, the low-pass outputs of the iterated filter step stay in a band around
    the input that shrinks geometrically to a width set by the rounding unit. -/
theorem filterIter_band (P : Platform) (hA : P.Accurate) (s : State) (x : ℚ)
    (hf : 0 < (filter P s x).F1) (hq : 0 < s.Q) (hg : (filter P s x).F1 + s.Q < 2)
    (hm : 1 / 2 ^ 28
      ≤ ((filter P s x).F1 * s.Q) ^ 2 * (1 - ((filter P s x).F1 + s.Q) / 2)) (n : ℕ) :
    (1 - ((filter P s x).F1 + s.Q) / 2) * ((filterIter P x (n + 1) s).L - x) ^ 2
      ≤ (1 - (filter P s x).F1 * s.Q / 4) ^ (n + 1)
          * (s.D1 ^ 2 + ((filter P s x).F1 + s.Q) * s.D1 * (s.D2 - x) + (s.D2 - x) ^ 2)
        + (x ^ 2 / 2 ^ 28 + 1 / 2 ^ 285) / ((filter P s x).F1 * s.Q) ^ 2 := by
  have ht : 0 < (filter P s x).F1 * s.Q := mul_pos hf hq
  have ht2 : 0 < ((filter P s x).F1 * s.Q) ^ 2 := by positivity
  have hL : (filterIter P x (n + 1) s).L = (filterIter P x (n + 1) s).D2 := by
    rw [filterIter_succ]
    rfl
  have h := filterIter_energy P hA s x hf hq hg hm (n + 1)
  have hlow := quad_lower ((filter P s x).F1 + s.Q) (filterIter P x (n + 1) s).D1
    ((filterIter P x (n + 1) s).D2 - x) (by linarith)
  have hk : 0 ≤ 1 - ((filter P s x).F1 + s.Q) / 2 := by linarith
  have ha : 0 ≤ (1 - ((filter P s x).F1 + s.Q) / 2) * (filterIter P x (n + 1) s).D1 ^ 2 :=
    mul_nonneg hk (sq_nonneg _)
  rw [hL]
  have h2 : ((filter P s x).F1 * s.Q) ^ 2
      * ((1 - ((filter P s x).F1 + s.Q) / 2) * ((filterIter P x (n + 1) s).D2 - x) ^ 2)
      ≤ ((filter P s x).F1 * s.Q) ^ 2 * ((1 - (filter P s x).F1 * s.Q / 4) ^ (n + 1)
          * (s.D1 ^ 2 + ((filter P s x).F1 + s.Q) * s.D1 * (s.D2 - x) + (s.D2 - x) ^ 2))
        + (x ^ 2 / 2 ^ 28 + 1 / 2 ^ 285) := by
    refine le_trans (mul_le_mul_of_nonneg_left ?_ (le_of_lt ht2)) h
    linarith
  rw [← sub_le_iff_le_add', ← mul_sub] at h2
  have h3 := (le_div_iff₀' ht2).2 h2
  linarith

theorem abs_le_of_sq_le {y R : ℚ} (h : y ^ 2 ≤ R) : |y| ≤ R + 1 := by
  rcases le_total |y| 1 with h1 | h1
  · have : 0 ≤ R := le_trans (sq_nonneg y) h
    linarith
  · have : |y| ≤ |y| ^ 2 := by nlinarith
    rw [sq_abs] at this
    linarith

theorem filterIter_bounded (P : Platform) (hA : P.Accurate) (s : State) (x : ℚ)
    (hf : 0 < (filter P s x).F1) (hq : 0 < s.Q) (hg : (filter P s x).F1 + s.Q < 2)
    (hm : 1 / 2 ^ 28
      ≤ ((filter P s x).F1 * s.Q) ^ 2 * (1 - ((filter P s x).F1 + s.Q) / 2)) :
    ∃ M : ℚ, ∀ n, |(filterIter P x (n + 1) s).L| ≤ M := by
  have hk : 0 < 1 - ((filter P s x).F1 + s.Q) / 2 := by linarith
  have ht : 0 < (filter P s x).F1 * s.Q := mul_pos hf hq
  have ht1 : (filter P s x).F1 * s.Q ≤ 1 := by
    nlinarith [sq_nonneg ((filter P s x).F1 - s.Q)]
  have hG0 := quad_nonneg ((filter P s x).F1 + s.Q) s.D1 (s.D2 - x) (by linarith) (by linarith)
  refine ⟨|x| + ((s.D1 ^ 2 + ((filter P s x).F1 + s.Q) * s.D1 * (s.D2 - x) + (s.D2 - x) ^ 2
      + (x ^ 2 / 2 ^ 28 + 1 / 2 ^ 285) / ((filter P s x).F1 * s.Q) ^ 2)
      / (1 - ((filter P s x).F1 + s.Q) / 2) + 1), fun n => ?_⟩
  have h := filterIter_band P hA s x hf hq hg hm n
  have hr : (1 - (filter P s x).F1 * s.Q / 4) ^ (n + 1) ≤ 1 :=
    pow_le_one₀ (by linarith) (by linarith)
  have h1 : (1 - (filter P s x).F1 * s.Q / 4) ^ (n + 1)
      * (s.D1 ^ 2 + ((filter P s x).F1 + s.Q) * s.D1 * (s.D2 - x) + (s.D2 - x) ^ 2)
      ≤ s.D1 ^ 2 + ((filter P s x).F1 + s.Q) * s.D1 * (s.D2 - x) + (s.D2 - x) ^ 2 := by
    have := mul_le_mul_of_nonneg_right hr hG0
    linarith
  have h2 : ((filterIter P x (n + 1) s).L - x) ^ 2
      ≤ (s.D1 ^ 2 + ((filter P s x).F1 + s.Q) * s.D1 * (s.D2 - x) + (s.D2 - x) ^ 2
        + (x ^ 2 / 2 ^ 28 + 1 / 2 ^ 285) / ((filter P s x).F1 * s.Q) ^ 2)
        / (1 - ((filter P s x).F1 + s.Q) / 2) := by
    rw [le_div_iff₀' hk]
    linarith
  have h3 := abs_le_of_sq_le h2
  have h4 := abs_add ((filterIter P x (n + 1) s).L - x) x
  rw [sub_add_cancel] at h4
  linarith

/-- C15, amended: in the float arithmetic of the code (every operation rounded to nearest
    with relative error `2 ^ -24` and absolute error `2 ^ -150`), for every constant input
    `x`, every cutoff `F` and every `Q` with `F1 > 0`, `Q > 0`, `F1 + Q < 2` and the margin
    `(F1 * Q) ^ 2 * (1 - (F1 + Q) / 2) ≥ 2 ^ -28`, `F1` being the float the step computes,
    the low-pass outputs of the iterated filter step do not diverge: they are bounded, and
    they stay in a band around `x` that shrinks by `1 - F1 * Q / 4` per step down to a
    width set by the rounding unit, from the zeroed delay state and from any other.  In
    real arithmetic, for `F1 > 0`, `Q > 0` and `F1 ^ 2 + 2 * F1 * Q < 4`, the outputs
    converge to `x`. -/
theorem C15_filter_converges :
    (∀ (P : Platform), P.Accurate → ∀ (s : State) (x : ℚ),
      0 < (filter P s x).F1 → 0 < s.Q → (filter P s x).F1 + s.Q < 2 →
      1 / 2 ^ 28 ≤ ((filter P s x).F1 * s.Q) ^ 2 * (1 - ((filter P s x).F1 + s.Q) / 2) →
      (∀ n, (1 - ((filter P s x).F1 + s.Q) / 2) * ((filterIter P x (n + 1) s).L - x) ^ 2
        ≤ (1 - (filter P s x).F1 * s.Q / 4) ^ (n + 1)
            * (s.D1 ^ 2 + ((filter P s x).F1 + s.Q) * s.D1 * (s.D2 - x) + (s.D2 - x) ^ 2)
          + (x ^ 2 / 2 ^ 28 + 1 / 2 ^ 285) / ((filter P s x).F1 * s.Q) ^ 2) ∧
      ∃ M : ℚ, ∀ n, |(filterIter P x (n + 1) s).L| ≤ M) ∧
    ∀ (randTable : ℕ → ℚ) (q31_to_f32 : ℤ → ℚ) (s : State) (x : ℚ),
      0 < TWOPI * s.F / 48000 → 0 < s.Q →
      (TWOPI * s.F / 48000) ^ 2 + 2 * (TWOPI * s.F / 48000) * s.Q < 4 →
      Filter.Tendsto
        (fun n => (((filterIter (exactPlatform randTable q31_to_f32) x (n + 1) s).L : ℚ) : ℝ))
        Filter.atTop (nhds (x : ℝ)) := by
  refine ⟨fun P hA s x hf hq hg hm =>
    ⟨fun n => filterIter_band P hA s x hf hq hg hm n,
      filterIter_bounded P hA s x hf hq hg hm⟩, ?_⟩
  intro randTable q31_to_f32 s x hF1 hQ hstab
  exact exact_filter_tendsto randTable q31_to_f32 s x hF1 hQ hstab

set_option maxRecDepth 1000000 in
/-- C15, amended, on an IEEE platform in the state `MODFX_INIT` leaves (cutoff `800`,
    `Q = 0.17f`, zeroed delays) with the constant input `1`, and in real arithmetic at the
    cutoff `1200`. -/
theorem C15_filter_converges_witness :
    (0 < (filter (ieeePlatform (fun _ => 0) (fun _ => 0))
        (MODFX_INIT (ieeePlatform (fun _ => 0) (fun _ => 0)) demoState 0 0) 1).F1 ∧
      0 < (MODFX_INIT (ieeePlatform (fun _ => 0) (fun _ => 0)) demoState 0 0).Q ∧
      (filter (ieeePlatform (fun _ => 0) (fun _ => 0))
        (MODFX_INIT (ieeePlatform (fun _ => 0) (fun _ => 0)) demoState 0 0) 1).F1
        + (MODFX_INIT (ieeePlatform (fun _ => 0) (fun _ => 0)) demoState 0 0).Q < 2 ∧
      1 / 2 ^ 28 ≤ ((filter (ieeePlatform (fun _ => 0) (fun _ => 0))
        (MODFX_INIT (ieeePlatform (fun _ => 0) (fun _ => 0)) demoState 0 0) 1).F1
          * (MODFX_INIT (ieeePlatform (fun _ => 0) (fun _ => 0)) demoState 0 0).Q) ^ 2
        * (1 - ((filter (ieeePlatform (fun _ => 0) (fun _ => 0))
        (MODFX_INIT (ieeePlatform (fun _ => 0) (fun _ => 0)) demoState 0 0) 1).F1
          + (MODFX_INIT (ieeePlatform (fun _ => 0) (fun _ => 0)) demoState 0 0).Q) / 2)) ∧
    ((∀ n, (1 - ((filter (ieeePlatform (fun _ => 0) (fun _ => 0))
        (MODFX_INIT (ieeePlatform (fun _ => 0) (fun _ => 0)) demoState 0 0) 1).F1
          + (MODFX_INIT (ieeePlatform (fun _ => 0) (fun _ => 0)) demoState 0 0).Q) / 2)
        * ((filterIter (ieeePlatform (fun _ => 0) (fun _ => 0)) 1 (n + 1)
            (MODFX_INIT (ieeePlatform (fun _ => 0) (fun _ => 0)) demoState 0 0)).L - 1) ^ 2
        ≤ (1 - (filter (ieeePlatform (fun _ => 0) (fun _ => 0))
        (MODFX_INIT (ieeePlatform (fun _ => 0) (fun _ => 0)) demoState 0 0) 1).F1
            * (MODFX_INIT (ieeePlatform (fun _ => 0) (fun _ => 0)) demoState 0 0).Q / 4) ^ (n + 1)
          * ((MODFX_INIT (ieeePlatform (fun _ => 0) (fun _ => 0)) demoState 0 0).D1 ^ 2
            + ((filter (ieeePlatform (fun _ => 0) (fun _ => 0))
        (MODFX_INIT (ieeePlatform (fun _ => 0) (fun _ => 0)) demoState 0 0) 1).F1
              + (MODFX_INIT (ieeePlatform (fun _ => 0) (fun _ => 0)) demoState 0 0).Q)
              * (MODFX_INIT (ieeePlatform (fun _ => 0) (fun _ => 0)) demoState 0 0).D1
              * ((MODFX_INIT (ieeePlatform (fun _ => 0) (fun _ => 0)) demoState 0 0).D2 - 1)
            + ((MODFX_INIT (ieeePlatform (fun _ => 0) (fun _ => 0)) demoState 0 0).D2 - 1) ^ 2)
          + ((1 : ℚ) ^ 2 / 2 ^ 28 + 1 / 2 ^ 285)
            / ((filter (ieeePlatform (fun _ => 0) (fun _ => 0))
        (MODFX_INIT (ieeePlatform (fun _ => 0) (fun _ => 0)) demoState 0 0) 1).F1
              * (MODFX_INIT (ieeePlatform (fun _ => 0) (fun _ => 0)) demoState 0 0).Q) ^ 2) ∧
      ∃ M : ℚ, ∀ n, |(filterIter (ieeePlatform (fun _ => 0) (fun _ => 0)) 1 (n + 1)
          (MODFX_INIT (ieeePlatform (fun _ => 0) (fun _ => 0)) demoState 0 0)).L| ≤ M) ∧
    Filter.Tendsto (fun n => (((filterIter (exactPlatform (fun _ => 0) (fun _ => 0)) 1 (n + 1)
        { demoState with F := 1200 }).L : ℚ) : ℝ)) Filter.atTop (nhds ((1 : ℚ) : ℝ)) :=
  ⟨by decide!,
    C15_filter_converges.1 (ieeePlatform (fun _ => 0) (fun _ => 0))
      (ieeePlatform_accurate _ _)
      (MODFX_INIT (ieeePlatform (fun _ => 0) (fun _ => 0)) demoState 0 0) 1
      (by decide!) (by decide!) (by decide!) (by decide!),
    C15_filter_converges.2 (fun _ => 0) (fun _ => 0) { demoState with F := 1200 } 1
      (by norm_num [TWOPI, demoState]) (by norm_num [demoState])
      (by norm_num [TWOPI, demoState])⟩

end RandomLFO
